import Mathlib

/-!
Verification of the stratumn/merkle dynamic Merkle tree.

The Go source is shallowly embedded: the node arena (`t.nodes`, a slice of
`DynTreeNode` reached through pointers) becomes a `List DynTreeNode` indexed
by insertion order, pointers become `Option Nat` indices, byte-string digests
become `Nat`, and the SHA-256 concatenate-then-hash combine becomes an
explicit function parameter `f : Nat → Nat → Nat` (the code only relies on
the combine being a deterministic two-argument function).  Loops over the
parent chain are written with an explicit fuel argument; the fuel passed at
call sites (the arena size) is shown sufficient on reachable states, where
heights strictly increase along parent links.  Go panics (nil-pointer
dereference, out-of-range slice index) are modeled by `Option`-valued
results on the public operations where a claim depends on them, and by
default values inside unreachable branches.
-/

/-- One node of a `DynTree` (src/dyntree.go, `DynTreeNode`): a digest, the
optional left/right sibling and parent links (arena indices), and a height. -/
structure DynTreeNode where
  hash : Nat
  left : Option Nat
  right : Option Nat
  parent : Option Nat
  height : Nat
deriving Repr, DecidableEq

instance : Inhabited DynTreeNode := ⟨{ hash := 0, left := none, right := none, parent := none, height := 0 }⟩

/-- Read a node of the arena (a Go pointer dereference); out-of-range reads
(which would be nil-pointer panics in Go) yield the zero node. -/
def getN (a : List DynTreeNode) (i : Nat) : DynTreeNode := a.getD i default

/-- Write a node of the arena; out-of-range writes leave it unchanged. -/
def setN (a : List DynTreeNode) (i : Nat) (v : DynTreeNode) : List DynTreeNode := a.set i v

/-- A left/right/parent hash triplet (src/types, `MerkleNodeHashes`). -/
structure MerkleNodeHashes where
  Left : Nat
  Right : Nat
  Parent : Nat
deriving Repr, DecidableEq

instance : Inhabited MerkleNodeHashes := ⟨{ Left := 0, Right := 0, Parent := 0 }⟩

/-- The two error shapes produced by path validation: `integrity` carries the
stored parent digest and the recomputed one ("unexpected parent hash got %q
want %q"), `chaining` carries the unmatched parent digest and the two
candidate children of the next triplet ("could not find parent hash %q, got
%q and %q"). -/
inductive ValidateError where
  | integrity (got expected : Nat)
  | chaining (unmatched cand1 cand2 : Nat)
deriving Repr, DecidableEq

/-- `MerkleNodeHashes.Validate` (src/types): recompute the combine of the two
children and compare with the stored parent.  `none` means no error. -/
def MerkleNodeHashes.Validate (f : Nat → Nat → Nat) (h : MerkleNodeHashes) : Option ValidateError :=
  let expected := f h.Left h.Right
  if h.Parent = expected then none else some (.integrity h.Parent expected)

/-- `Path.Validate` (src/types): for each triplet check its integrity, and for
each adjacent pair check that the lower parent reappears as a child one level
up.  The Go `for i, h := range p` loop with its `i < len(p)-1` guard is the
structural recursion below. -/
def Path.Validate (f : Nat → Nat → Nat) : List MerkleNodeHashes → Option ValidateError
  | [] => none
  | [h] => h.Validate f
  | h :: up :: rest =>
    match h.Validate f with
    | some e => some e
    | none =>
      if h.Parent = up.Left ∨ h.Parent = up.Right then Path.Validate f (up :: rest)
      else some (.chaining h.Parent up.Left up.Right)

/-- The dynamic tree (src/dyntree.go, `DynTree`): arena, root index, leaf
index list, recorded height, and the pause flag.  The `sync.RWMutex` and the
reusable hash context carry no data and are dropped; the guard discipline is
modeled separately by `acquiredGuard`. -/
structure DynTree where
  nodes : List DynTreeNode
  root : Option Nat
  leaves : List Nat
  height : Nat
  paused : Bool
deriving Repr, DecidableEq

/-- `NewDynTree` (src/dyntree.go): `initialCap` only sizes the backing
allocations in Go and does not affect behavior. -/
def NewDynTree (initialCap : Nat) : DynTree :=
  { nodes := [], root := none, leaves := [], height := 0, paused := false }

/-- The `for left.parent != nil && left.parent.height == left.height+1` climb
in `DynTree.Add`, with fuel (one unit per step up the parent chain). -/
def climb (a : List DynTreeNode) (i : Nat) : Nat → Nat
  | 0 => i
  | fuel + 1 =>
    match (getN a i).parent with
    | none => i
    | some p => if (getN a p).height = (getN a i).height + 1 then climb a p fuel else i

/-- `DynTreeNode.rehash` (src/dyntree.go): store `f x y` as the node's hash
and, when `rehashParent` is set and a parent exists, recurse on it, pairing
this node with its sibling (`n.left` if set, else `n.right`).  When a node
has a parent but neither sibling the Go code dereferences a nil `n.right`;
that branch returns the arena unchanged here and is unreachable on
well-formed trees. -/
def rehash (f : Nat → Nat → Nat) (a : List DynTreeNode) (i x y : Nat) (rehashParent : Bool) : Nat → List DynTreeNode
  | 0 => a
  | fuel + 1 =>
    let a1 := setN a i { getN a i with hash := f x y }
    let n := getN a1 i
    if rehashParent then
      match n.parent with
      | none => a1
      | some p =>
        match n.left with
        | some l => rehash f a1 p (getN a1 l).hash n.hash true fuel
        | none =>
          match n.right with
          | some r => rehash f a1 p n.hash (getN a1 r).hash true fuel
          | none => a1
    else a1

/-- `DynTree.Add` (src/dyntree.go), with the Go statement order kept: append
the leaf node, record it as a leaf, and either make it the root (first leaf)
or climb from the previous leaf to the pairing candidate, create its new
parent, patch the sibling/parent links (including the `left.left` fix-up),
update root and height, and rehash upward unless paused. -/
def DynTree.Add (f : Nat → Nat → Nat) (t : DynTree) (leaf : Nat) : DynTree :=
  let nodes0 := t.nodes ++ [{ hash := leaf, left := none, right := none, parent := none, height := 0 }]
  let nodeIdx := nodes0.length - 1
  let leaves1 := t.leaves ++ [nodeIdx]
  match t.root with
  | none => { t with nodes := nodes0, leaves := leaves1, root := some nodeIdx }
  | some _ =>
    let start := leaves1.getD (leaves1.length - 2) 0
    let leftIdx := climb nodes0 start nodes0.length
    let leftN := getN nodes0 leftIdx
    let nodes1 := nodes0 ++ [{ hash := 0, left := leftN.left, right := none, parent := leftN.parent, height := leftN.height + 1 }]
    let parentIdx := nodes1.length - 1
    let nodes2 := setN nodes1 nodeIdx { getN nodes1 nodeIdx with parent := some parentIdx, left := some leftIdx }
    let nodes3 := setN nodes2 leftIdx { getN nodes2 leftIdx with parent := some parentIdx, right := some nodeIdx }
    let nodes4 :=
      match leftN.left with
      | some ll =>
        let a := setN nodes3 ll { getN nodes3 ll with right := some parentIdx }
        setN a leftIdx { getN a leftIdx with left := none }
      | none => nodes3
    let root1 := if (getN nodes4 parentIdx).parent = none then some parentIdx else t.root
    let height1 := if (getN nodes4 parentIdx).height > t.height then (getN nodes4 parentIdx).height else t.height
    let nodes5 := if t.paused then nodes4 else rehash f nodes4 parentIdx (getN nodes4 leftIdx).hash leaf true nodes4.length
    { nodes := nodes5, root := root1, leaves := leaves1, height := height1, paused := t.paused }

/-- `DynTree.Update` (src/dyntree.go).  An out-of-range index makes the Go
code panic on `t.leaves[index]` before any mutation; that is modeled as
`none`.  Otherwise store the new hash and, unless paused, rehash the parent
chain pairing the leaf with its sibling.  The two inner `nodes1` fallbacks
model the nil-parent dereference Go would hit on a malformed tree. -/
def DynTree.Update (f : Nat → Nat → Nat) (t : DynTree) (index : Nat) (h : Nat) : Option DynTree :=
  if index < t.leaves.length then
    let ni := t.leaves.getD index 0
    let nodes1 := setN t.nodes ni { getN t.nodes ni with hash := h }
    let n := getN nodes1 ni
    let nodes2 :=
      if t.paused then nodes1
      else
        match n.left with
        | some l =>
          match n.parent with
          | some p => rehash f nodes1 p (getN nodes1 l).hash h true nodes1.length
          | none => nodes1
        | none =>
          match n.right with
          | some r =>
            match n.parent with
            | some p => rehash f nodes1 p h (getN nodes1 r).hash true nodes1.length
            | none => nodes1
          | none => nodes1
    some { t with nodes := nodes2 }
  else none

/-- `DynTree.Pause` (src/dyntree.go). -/
def DynTree.Pause (t : DynTree) : DynTree := { t with paused := true }

/-- Every other element of a list, starting with the first: the `i += 2`
stride of the inner loop of `DynTree.recompute`. -/
def everyOther : List Nat → List Nat
  | [] => []
  | [x] => [x]
  | x :: _ :: rest => x :: everyOther rest

/-- One level of `DynTree.recompute` (src/dyntree.go): for each strided node
whose parent sits exactly one level up, rehash that parent from the node and
its right sibling (non-recursively) and collect the parent for the next
level.  A missing right sibling would be a nil dereference in Go; it reads
the zero node here and is unreachable on well-formed trees. -/
def recomputeLevel (f : Nat → Nat → Nat) (a : List DynTreeNode) (height : Nat) : List Nat → List DynTreeNode × List Nat
  | [] => (a, [])
  | x :: rest =>
    let n := getN a x
    match n.parent with
    | some p =>
      if (getN a p).height = height + 1 then
        let a1 := rehash f a p n.hash (getN a (n.right.getD a.length)).hash false 1
        let res := recomputeLevel f a1 height rest
        (res.1, p :: res.2)
      else recomputeLevel f a height rest
    | none => recomputeLevel f a height rest

/-- The outer level-by-level loop of `DynTree.recompute`, with fuel (one unit
per level; levels climb in height, so the arena size plus one suffices). -/
def recomputeLoop (f : Nat → Nat → Nat) (a : List DynTreeNode) (rows : List Nat) : Nat → List DynTreeNode
  | 0 => a
  | fuel + 1 =>
    match rows with
    | [] => a
    | r :: _ =>
      let res := recomputeLevel f a ((getN a r).height) (everyOther rows)
      recomputeLoop f res.1 res.2 fuel

/-- `DynTree.recompute` (src/dyntree.go): start the sweep from the leaf row. -/
def DynTree.recompute (f : Nat → Nat → Nat) (t : DynTree) : DynTree :=
  { t with nodes := recomputeLoop f t.nodes t.leaves (t.nodes.length + 1) }

/-- `DynTree.Resume` (src/dyntree.go): one full recompute pass, then clear
the pause flag. -/
def DynTree.Resume (f : Nat → Nat → Nat) (t : DynTree) : DynTree :=
  { t.recompute f with paused := false }

/-- The `for node.parent != nil` climb of `DynTree.Path`: emit one oriented
triplet per climbed node (sibling-left set: node is the right child;
otherwise node is the left child and its right sibling is read — a nil
dereference in Go when absent, the zero node here), then move to the parent. -/
def pathLoop (a : List DynTreeNode) (i : Nat) : Nat → List MerkleNodeHashes
  | 0 => []
  | fuel + 1 =>
    let n := getN a i
    match n.parent with
    | none => []
    | some p =>
      let trip : MerkleNodeHashes :=
        match n.left with
        | some l => { Left := (getN a l).hash, Right := n.hash, Parent := (getN a p).hash }
        | none => { Left := n.hash, Right := (getN a (n.right.getD a.length)).hash, Parent := (getN a p).hash }
      trip :: pathLoop a p fuel

/-- `DynTree.Path` (src/dyntree.go): a tree with fewer than two leaves yields
the empty path before the index is ever used; otherwise the climb starts at
`t.leaves[index]` — an out-of-range index panics in Go, modeled as `none`. -/
def DynTree.Path (t : DynTree) (index : Nat) : Option (List MerkleNodeHashes) :=
  if t.leaves.length < 2 then some []
  else if index < t.leaves.length then
    some (pathLoop t.nodes (t.leaves.getD index 0) t.nodes.length)
  else none

/-- `DynTree.LeavesLen` (src/dyntree.go). -/
def DynTree.LeavesLen (t : DynTree) : Nat := t.leaves.length

/-- `DynTree.Root` (src/dyntree.go): `t.root.Hash()` dereferences `t.root`,
which is nil until the first leaf is added; `none` models that panic. -/
def DynTree.Root (t : DynTree) : Option Nat :=
  t.root.map fun r => (getN t.nodes r).hash

/-- `DynTree.Leaf` (src/dyntree.go): `t.leaves[index].Hash()`; an
out-of-range index panics in Go, modeled as `none`. -/
def DynTree.Leaf (t : DynTree) (index : Nat) : Option Nat :=
  if index < t.leaves.length then some (getN t.nodes (t.leaves.getD index 0)).hash else none

/-- The eight exported operations of `DynTree`. -/
inductive TreeOp where
  | pauseOp | resumeOp | addOp | updateOp | pathOp | leafOp | rootOp | leavesLenOp
deriving Repr, DecidableEq

/-- The two modes of the tree's `sync.RWMutex` guard. -/
inductive GuardMode where
  | exclusive | shared
deriving Repr, DecidableEq

/-- The guard each exported operation acquires before touching tree state,
read off the source: `Lock/Unlock` in `Pause`, `Resume`, `Add` and `Update`,
`RLock/RUnlock` in `Path`, and no mutex call at all in `Leaf`, `Root` and
`LeavesLen` (src/dyntree.go lines 94–106 have no lock statements). -/
def acquiredGuard : TreeOp → Option GuardMode
  | .pauseOp => some .exclusive
  | .resumeOp => some .exclusive
  | .addOp => some .exclusive
  | .updateOp => some .exclusive
  | .pathOp => some .shared
  | .leafOp => none
  | .rootOp => none
  | .leavesLenOp => none

/-! ### Path validation: pure lemmas (claim C3) -/

/-- The chaining invariant of a path: each triplet's parent digest reappears
as a child digest of the next triplet. -/
def Chained (p : List MerkleNodeHashes) : Prop :=
  ∀ i, i + 1 < p.length →
    ((p.getD i default).Parent = (p.getD (i + 1) default).Left ∨
      (p.getD i default).Parent = (p.getD (i + 1) default).Right)

theorem chained_nil : Chained [] := by intro i hi; simp at hi

theorem chained_single (h : MerkleNodeHashes) : Chained [h] := by
  intro i hi; simp at hi

theorem chained_cons {h up : MerkleNodeHashes} {rest : List MerkleNodeHashes} :
    Chained (h :: up :: rest) ↔
      (h.Parent = up.Left ∨ h.Parent = up.Right) ∧ Chained (up :: rest) := by
  constructor
  · intro hc
    refine ⟨?_, ?_⟩
    · have := hc 0 (by simp)
      simpa using this
    · intro i hi
      have := hc (i + 1) (by simpa using Nat.succ_lt_succ hi)
      simpa using this
  · rintro ⟨h0, hrest⟩ i hi
    cases i with
    | zero => simpa using h0
    | succ j =>
      have := hrest j (by simpa using Nat.lt_of_succ_lt_succ hi)
      simpa using this

theorem nodeValidate_none_iff (f : Nat → Nat → Nat) (h : MerkleNodeHashes) :
    h.Validate f = none ↔ h.Parent = f h.Left h.Right := by
  unfold MerkleNodeHashes.Validate
  by_cases hp : h.Parent = f h.Left h.Right <;> simp [hp]

theorem nodeValidate_some (f : Nat → Nat → Nat) (h : MerkleNodeHashes) {e : ValidateError}
    (he : h.Validate f = some e) :
    e = .integrity h.Parent (f h.Left h.Right) ∧ h.Parent ≠ f h.Left h.Right := by
  unfold MerkleNodeHashes.Validate at he
  by_cases hp : h.Parent = f h.Left h.Right <;> simp [hp] at he
  exact ⟨he.symm, hp⟩

theorem pathValidate_cons_cons (f : Nat → Nat → Nat) (h up : MerkleNodeHashes)
    (rest : List MerkleNodeHashes) :
    Path.Validate f (h :: up :: rest) =
      match h.Validate f with
      | some e => some e
      | none =>
        if h.Parent = up.Left ∨ h.Parent = up.Right then Path.Validate f (up :: rest)
        else some (.chaining h.Parent up.Left up.Right) := rfl

theorem pathValidate_none_iff (f : Nat → Nat → Nat) (p : List MerkleNodeHashes) :
    Path.Validate f p = none ↔
      (∀ t ∈ p, t.Parent = f t.Left t.Right) ∧ Chained p := by
  induction p with
  | nil => simp [Path.Validate, chained_nil]
  | cons h tl ih =>
    cases tl with
    | nil =>
      simp [Path.Validate, nodeValidate_none_iff, chained_single]
    | cons up rest =>
      rw [pathValidate_cons_cons]
      rcases he : h.Validate f with _ | e
      · have hp := (nodeValidate_none_iff f h).1 he
        by_cases hch : h.Parent = up.Left ∨ h.Parent = up.Right
        · rw [if_pos hch]
          rw [ih, chained_cons]
          constructor
          · rintro ⟨hall, hc⟩
            refine ⟨?_, hch, hc⟩
            intro t ht
            rcases List.mem_cons.1 ht with rfl | ht2
            · exact hp
            · exact hall t ht2
          · rintro ⟨hall, -, hc⟩
            exact ⟨fun t ht => hall t (List.mem_cons_of_mem _ ht), hc⟩
        · rw [if_neg hch]
          constructor
          · intro hfalse; cases hfalse
          · rintro ⟨-, hc⟩
            rw [chained_cons] at hc
            exact absurd hc.1 hch
      · rcases nodeValidate_some f h he with ⟨-, hne⟩
        constructor
        · intro hfalse; cases hfalse
        · rintro ⟨hall, -⟩
          exact absurd (hall h (by simp)) hne

theorem pathValidate_integrity (f : Nat → Nat → Nat) (p : List MerkleNodeHashes)
    {g w : Nat} (he : Path.Validate f p = some (.integrity g w)) :
    ∃ t ∈ p, t.Parent = g ∧ f t.Left t.Right = w ∧ g ≠ w := by
  induction p with
  | nil => simp [Path.Validate] at he
  | cons h tl ih =>
    cases tl with
    | nil =>
      rw [show Path.Validate f [h] = h.Validate f from rfl] at he
      rcases nodeValidate_some f h he with ⟨heq, hne⟩
      rw [ValidateError.integrity.injEq] at heq
      rcases heq with ⟨rfl, rfl⟩
      exact ⟨h, by simp, rfl, rfl, hne⟩
    | cons up rest =>
      rw [pathValidate_cons_cons] at he
      rcases hv : h.Validate f with _ | e
      · rw [hv] at he
        by_cases hch : h.Parent = up.Left ∨ h.Parent = up.Right
        · rw [if_pos hch] at he
          rcases ih he with ⟨t, ht, hrest⟩
          exact ⟨t, List.mem_cons_of_mem _ ht, hrest⟩
        · rw [if_neg hch] at he
          cases he
      · rw [hv] at he
        rcases nodeValidate_some f h hv with ⟨heq, hne⟩
        rw [heq] at he
        rw [Option.some.injEq, ValidateError.integrity.injEq] at he
        rcases he with ⟨rfl, rfl⟩
        exact ⟨h, by simp, rfl, rfl, hne⟩

theorem pathValidate_chaining (f : Nat → Nat → Nat) (p : List MerkleNodeHashes)
    {u c1 c2 : Nat} (he : Path.Validate f p = some (.chaining u c1 c2)) :
    2 ≤ p.length ∧ ∃ i, i + 1 < p.length ∧
      (p.getD i default).Parent = u ∧ (p.getD (i + 1) default).Left = c1 ∧
      (p.getD (i + 1) default).Right = c2 ∧ u ≠ c1 ∧ u ≠ c2 := by
  induction p with
  | nil => simp [Path.Validate] at he
  | cons h tl ih =>
    cases tl with
    | nil =>
      rw [show Path.Validate f [h] = h.Validate f from rfl] at he
      rcases nodeValidate_some f h he with ⟨heq, -⟩
      cases heq
    | cons up rest =>
      rw [pathValidate_cons_cons] at he
      rcases hv : h.Validate f with _ | e
      · rw [hv] at he
        by_cases hch : h.Parent = up.Left ∨ h.Parent = up.Right
        · rw [if_pos hch] at he
          rcases ih he with ⟨hlen, i, hi, hpar, hl, hr, hne1, hne2⟩
          refine ⟨by simp only [List.length_cons]; omega, i + 1,
            by simpa using Nat.succ_lt_succ hi, by simpa using hpar,
            by simpa using hl, by simpa using hr, hne1, hne2⟩
        · rw [if_neg hch] at he
          rw [Option.some.injEq, ValidateError.chaining.injEq] at he
          rcases he with ⟨rfl, rfl, rfl⟩
          push_neg at hch
          exact ⟨by simp, 0, by simp, rfl, rfl, rfl, hch.1, hch.2⟩
      · rw [hv] at he
        rcases nodeValidate_some f h hv with ⟨heq, -⟩
        rw [heq] at he
        rw [Option.some.injEq] at he
        cases he

/-- C3: `Path.Validate` returns no error iff every triplet recombines to its
stored parent digest and every adjacent pair of triplets chains (the lower
parent reappears as the upper `Left` or `Right`); a combine mismatch is
reported as an integrity failure carrying the stored and the recomputed
digest of a violating triplet, a chaining mismatch as a chaining failure
carrying the unmatched parent digest and the two candidate children it was
compared against, and an empty or single-triplet path is never rejected by
the chaining check (a chaining failure forces length at least 2). -/
theorem c3_path_validate_characterization (f : Nat → Nat → Nat) (p : List MerkleNodeHashes) :
    (Path.Validate f p = none ↔ (∀ t ∈ p, t.Parent = f t.Left t.Right) ∧ Chained p) ∧
    (∀ g w, Path.Validate f p = some (.integrity g w) →
      ∃ t ∈ p, t.Parent = g ∧ f t.Left t.Right = w ∧ g ≠ w) ∧
    (∀ u c1 c2, Path.Validate f p = some (.chaining u c1 c2) →
      2 ≤ p.length ∧ ∃ i, i + 1 < p.length ∧
        (p.getD i default).Parent = u ∧ (p.getD (i + 1) default).Left = c1 ∧
        (p.getD (i + 1) default).Right = c2 ∧ u ≠ c1 ∧ u ≠ c2) :=
  ⟨pathValidate_none_iff f p,
    fun _ _ he => pathValidate_integrity f p he,
    fun _ _ _ he => pathValidate_chaining f p he⟩

/-- C8: a tree holding fewer than two leaves returns the empty path for every
index argument, in range or not, without failing: the short-circuit on
`len(t.leaves) < 2` fires before the index is ever used. -/
theorem c8_path_empty_below_two_leaves (t : DynTree) (index : Nat) (h : t.LeavesLen < 2) :
    t.Path index = some [] := by
  unfold DynTree.Path
  exact if_pos h

/-- Witness for C8 at a concrete input: the empty tree and the wildly
out-of-range index 7. -/
theorem c8_path_empty_below_two_leaves_witness :
    (NewDynTree 3).LeavesLen < 2 ∧ (NewDynTree 3).Path 7 = some [] :=
  ⟨by decide, c8_path_empty_below_two_leaves (NewDynTree 3) 7 (by decide)⟩

/-- C9 fails on the code: not every exported operation acquires the tree's
guard — `Root` (like `Leaf` and `LeavesLen`) contains no mutex call at all
in src/dyntree.go, so `acquiredGuard .rootOp = none`. -/
theorem c9_counterexample : ¬ ∀ op : TreeOp, (acquiredGuard op).isSome := by
  intro hall
  have h := hall .rootOp
  simp [acquiredGuard] at h

/-- C9 amended: `Pause`, `Resume`, `Add` and `Update` acquire the exclusive
guard and `Path` the shared guard before touching tree state, while `Leaf`,
`Root` and `LeavesLen` read tree state without acquiring any guard. -/
theorem c9_amended_guard_discipline :
    acquiredGuard .pauseOp = some .exclusive ∧
    acquiredGuard .resumeOp = some .exclusive ∧
    acquiredGuard .addOp = some .exclusive ∧
    acquiredGuard .updateOp = some .exclusive ∧
    acquiredGuard .pathOp = some .shared ∧
    acquiredGuard .leafOp = none ∧
    acquiredGuard .rootOp = none ∧
    acquiredGuard .leavesLenOp = none := by decide

/-- A concrete combine function and concrete trees, used by the
counterexamples and witnesses below. -/
def combineDemo : Nat → Nat → Nat := fun a b => 2 * a + 3 * b + 5

/-- The tree obtained by adding the given leaf digests in order, hashing
active throughout. -/
def demoTree (ls : List Nat) : DynTree := ls.foldl (DynTree.Add combineDemo) (NewDynTree 4)

/-- C4 fails on the code: after three `Add` calls the root (node 4, height 2)
has the two children node 2 (height 1) and node 3 (height 0), whose heights
differ — so a non-leaf's height is not one more than a height *shared* by
its children, and it is two more than its right child's height. -/
theorem c4_counterexample :
    (getN (demoTree [1, 2, 3]).nodes 2).parent = some 4 ∧
    (getN (demoTree [1, 2, 3]).nodes 3).parent = some 4 ∧
    (getN (demoTree [1, 2, 3]).nodes 2).height = 1 ∧
    (getN (demoTree [1, 2, 3]).nodes 3).height = 0 ∧
    (getN (demoTree [1, 2, 3]).nodes 4).height = 2 := by decide

/-! ### Abstract shapes: the binary-counter tree of a reachable `DynTree` -/

/-- The abstract shape of a (sub)tree: leaves and internal nodes, each
remembering its arena index. -/
inductive AT where
  | leaf (idx : Nat)
  | node (idx : Nat) (l r : AT)
deriving Repr, DecidableEq

/-- Arena index of the root of an abstract shape. -/
def AT.idx : AT → Nat
  | .leaf i => i
  | .node i _ _ => i

/-- Height of a shape.  In the implementation every internal node's height is
one more than its left child's height, so the abstract height mirrors that. -/
def AT.ht : AT → Nat
  | .leaf _ => 0
  | .node _ l _ => l.ht + 1

/-- A perfect (complete) shape: both children perfect and of equal height. -/
def AT.perfectb : AT → Bool
  | .leaf _ => true
  | .node _ l r => l.perfectb && r.perfectb && (r.ht == l.ht)

/-- The canonical shape of a reachable tree: every left child is a perfect
subtree at least as tall as its right sibling, which is itself canonical. -/
def AT.canonb : AT → Bool
  | .leaf _ => true
  | .node _ l r => l.perfectb && r.canonb && (r.ht ≤ l.ht)

/-- The right spine from the last leaf is fully saturated: every step up it
increases the height by exactly one (`Add`'s climb passes the whole shape). -/
def AT.saturatedb : AT → Bool
  | .leaf _ => true
  | .node _ l r => r.saturatedb && (r.ht == l.ht)

/-- All arena indices of a shape, root first. -/
def AT.idxs : AT → List Nat
  | .leaf i => [i]
  | .node i l r => i :: (l.idxs ++ r.idxs)

/-- The leaf arena indices, left to right. -/
def AT.leafIdxs : AT → List Nat
  | .leaf i => [i]
  | .node _ l r => l.leafIdxs ++ r.leafIdxs

/-- Arena index of the rightmost leaf. -/
def AT.lastLeaf : AT → Nat
  | .leaf i => i
  | .node _ _ r => r.lastLeaf

/-- The subtree at which `Add`'s climb from the last leaf stops: the maximal
saturated suffix of the right spine. -/
def attach : AT → AT
  | .leaf i => .leaf i
  | .node i l r => if (AT.node i l r).saturatedb then .node i l r else attach r

/-- Parent index and left-sibling index of the attach point, defined when the
shape is not saturated (the attach point then is a proper subtree). -/
def attachCtx : AT → Option (Nat × Nat)
  | .leaf _ => none
  | .node i l r =>
    if (AT.node i l r).saturatedb then none
    else if r.saturatedb then some (i, l.idx) else attachCtx r

/-- The abstract effect of `DynTree.Add` on the shape: pair the attach point
with the new leaf `nL` under a new internal node `nP`. -/
def addA (nL nP : Nat) : AT → AT
  | .leaf i => .node nP (.leaf i) (.leaf nL)
  | .node i l r =>
    if (AT.node i l r).saturatedb then .node nP (.node i l r) (.leaf nL)
    else .node i l (addA nL nP r)

theorem attach_node (i : Nat) (l r : AT) :
    attach (.node i l r) = if (AT.node i l r).saturatedb then .node i l r else attach r := rfl

theorem addA_node (nL nP i : Nat) (l r : AT) :
    addA nL nP (.node i l r) =
      if (AT.node i l r).saturatedb then .node nP (.node i l r) (.leaf nL)
      else .node i l (addA nL nP r) := rfl

theorem attachCtx_node (i : Nat) (l r : AT) :
    attachCtx (.node i l r) =
      if (AT.node i l r).saturatedb then none
      else if r.saturatedb then some (i, l.idx) else attachCtx r := rfl

theorem perfectb_node (i : Nat) (l r : AT) :
    (AT.node i l r).perfectb = true ↔ l.perfectb = true ∧ r.perfectb = true ∧ r.ht = l.ht := by
  simp [AT.perfectb, and_assoc]

theorem canonb_node (i : Nat) (l r : AT) :
    (AT.node i l r).canonb = true ↔ l.perfectb = true ∧ r.canonb = true ∧ r.ht ≤ l.ht := by
  simp [AT.canonb, and_assoc]

theorem saturatedb_node (i : Nat) (l r : AT) :
    (AT.node i l r).saturatedb = true ↔ r.saturatedb = true ∧ r.ht = l.ht := by
  simp [AT.saturatedb]

theorem AT.leafIdxs_ne_nil (s : AT) : s.leafIdxs ≠ [] := by
  induction s with
  | leaf i => simp [AT.leafIdxs]
  | node i l r ihl ihr => simp [AT.leafIdxs, ihl]

theorem AT.idx_mem_idxs (s : AT) : s.idx ∈ s.idxs := by
  cases s <;> simp [AT.idx, AT.idxs]

theorem AT.mem_idxs_of_mem_leafIdxs (s : AT) : ∀ j ∈ s.leafIdxs, j ∈ s.idxs := by
  induction s with
  | leaf i => simp [AT.leafIdxs, AT.idxs]
  | node i l r ihl ihr =>
    intro j hj
    rcases List.mem_append.1 hj with h | h
    · exact List.mem_cons_of_mem _ (List.mem_append.2 (Or.inl (ihl j h)))
    · exact List.mem_cons_of_mem _ (List.mem_append.2 (Or.inr (ihr j h)))

theorem AT.ht_lt_len_idxs (s : AT) : s.ht < s.idxs.length := by
  induction s with
  | leaf i => simp [AT.ht, AT.idxs]
  | node i l r ihl ihr =>
    simp only [AT.ht, AT.idxs, List.length_cons, List.length_append]
    omega

theorem AT.saturated_canon_perfect (s : AT) (hs : s.saturatedb = true)
    (hc : s.canonb = true) : s.perfectb = true := by
  induction s with
  | leaf i => rfl
  | node i l r ihl ihr =>
    rw [saturatedb_node] at hs
    rw [canonb_node] at hc
    rw [perfectb_node]
    exact ⟨hc.1, ihr hs.1 hc.2.1, hs.2⟩

theorem AT.perfect_saturated (s : AT) (hs : s.perfectb = true) : s.saturatedb = true := by
  induction s with
  | leaf i => rfl
  | node i l r ihl ihr =>
    rw [perfectb_node] at hs
    rw [saturatedb_node]
    exact ⟨ihr hs.2.1, hs.2.2⟩

theorem attach_saturated (s : AT) : (attach s).saturatedb = true := by
  induction s with
  | leaf i => rfl
  | node i l r ihl ihr =>
    rw [attach_node]
    by_cases h : (AT.node i l r).saturatedb = true
    · rw [if_pos h]; exact h
    · rw [if_neg h]; exact ihr

theorem attach_of_saturated (s : AT) (h : s.saturatedb = true) : attach s = s := by
  cases s with
  | leaf i => rfl
  | node i l r => rw [attach_node, if_pos h]

theorem attach_unsat (i : Nat) (l r : AT)
    (h : (AT.node i l r).saturatedb = false) : attach (.node i l r) = attach r := by
  rw [attach_node, if_neg (by simp [h])]

theorem addA_unsat (nL nP : Nat) (i : Nat) (l r : AT)
    (h : (AT.node i l r).saturatedb = false) :
    addA nL nP (.node i l r) = .node i l (addA nL nP r) := by
  rw [addA_node, if_neg (by simp [h])]

theorem addA_sat (nL nP : Nat) (s : AT) (h : s.saturatedb = true) :
    addA nL nP s = .node nP s (.leaf nL) := by
  cases s with
  | leaf i => rfl
  | node i l r => rw [addA_node, if_pos h]

theorem addA_idx_unsat (nL nP : Nat) (s : AT) (h : s.saturatedb = false) :
    (addA nL nP s).idx = s.idx := by
  cases s with
  | leaf i => simp [AT.saturatedb] at h
  | node i l r => rw [addA_unsat nL nP i l r h]; rfl

theorem addA_ht (nL nP : Nat) (s : AT) :
    (addA nL nP s).ht = if s.saturatedb then s.ht + 1 else s.ht := by
  induction s with
  | leaf i => simp [addA, AT.saturatedb, AT.ht]
  | node i l r ihl ihr =>
    by_cases h : (AT.node i l r).saturatedb = true
    · rw [addA_sat nL nP _ h, if_pos h]; rfl
    · simp only [Bool.not_eq_true] at h
      rw [addA_unsat nL nP i l r h, if_neg (by simp [h])]
      rfl

theorem addA_leafIdxs (nL nP : Nat) (s : AT) :
    (addA nL nP s).leafIdxs = s.leafIdxs ++ [nL] := by
  induction s with
  | leaf i => rfl
  | node i l r ihl ihr =>
    by_cases h : (AT.node i l r).saturatedb = true
    · rw [addA_sat nL nP _ h]; rfl
    · simp only [Bool.not_eq_true] at h
      rw [addA_unsat nL nP i l r h]
      simp [AT.leafIdxs, ihr]

theorem perm_shuffle (x p q : Nat) (A B : List Nat) :
    (x :: (A ++ p :: q :: B)).Perm (p :: q :: (x :: (A ++ B))) := by
  have h1 : (A ++ p :: q :: B).Perm (p :: q :: (A ++ B)) :=
    List.Perm.trans List.perm_middle (List.Perm.cons p List.perm_middle)
  exact (List.Perm.cons x h1).trans
    ((List.Perm.swap p x _).trans (List.Perm.cons p (List.Perm.swap q x _)))

theorem addA_idxs_perm (nL nP : Nat) (s : AT) :
    (addA nL nP s).idxs.Perm (nP :: nL :: s.idxs) := by
  induction s with
  | leaf i =>
    show (nP :: ([i] ++ [nL])).Perm (nP :: nL :: [i])
    exact List.Perm.cons nP (List.Perm.swap nL i [])
  | node i l r ihl ihr =>
    by_cases h : (AT.node i l r).saturatedb = true
    · rw [addA_sat nL nP _ h]
      show (nP :: ((AT.node i l r).idxs ++ [nL])).Perm _
      exact List.Perm.cons nP (List.perm_append_comm)
    · simp only [Bool.not_eq_true] at h
      rw [addA_unsat nL nP i l r h]
      show (i :: (l.idxs ++ (addA nL nP r).idxs)).Perm (nP :: nL :: (i :: (l.idxs ++ r.idxs)))
      exact (List.Perm.cons i (List.Perm.append_left _ ihr)).trans (perm_shuffle i nP nL _ _)

theorem addA_canon (nL nP : Nat) (s : AT) (hc : s.canonb = true) :
    (addA nL nP s).canonb = true := by
  induction s with
  | leaf i => rfl
  | node i l r ihl ihr =>
    rw [canonb_node] at hc
    by_cases h : (AT.node i l r).saturatedb = true
    · rw [addA_sat nL nP _ h]
      have hperf : (AT.node i l r).perfectb = true :=
        AT.saturated_canon_perfect _ h (by rw [canonb_node]; exact hc)
      rw [canonb_node]
      exact ⟨hperf, rfl, by simp [AT.ht]⟩
    · simp only [Bool.not_eq_true] at h
      rw [addA_unsat nL nP i l r h]
      rw [canonb_node]
      refine ⟨hc.1, ihr hc.2.1, ?_⟩
      rw [addA_ht]
      by_cases hr : r.saturatedb = true
      · rw [if_pos hr]
        have hne : ¬(r.saturatedb = true ∧ r.ht = l.ht) := by
          rw [← saturatedb_node i]
          simp [h]
        have : r.ht ≠ l.ht := fun hcon => hne ⟨hr, hcon⟩
        have := hc.2.2
        omega
      · simp only [Bool.not_eq_true] at hr
        rw [if_neg (by simp [hr])]
        exact hc.2.2

theorem attach_idxs_subset (s : AT) : ∀ j ∈ (attach s).idxs, j ∈ s.idxs := by
  induction s with
  | leaf i => simp [attach]
  | node i l r ihl ihr =>
    intro j hj
    rw [attach_node] at hj
    by_cases h : (AT.node i l r).saturatedb = true
    · rw [if_pos h] at hj; exact hj
    · rw [if_neg h] at hj
      exact List.mem_cons_of_mem _ (List.mem_append.2 (Or.inr (ihr j hj)))

theorem attach_idx_in_right (i : Nat) (l r : AT)
    (h : (AT.node i l r).saturatedb = false) :
    (attach (AT.node i l r)).idx ∈ r.idxs := by
  rw [attach_unsat i l r h]
  exact attach_idxs_subset r _ (AT.idx_mem_idxs _)

theorem attach_ht_lt (s : AT) (hc : s.canonb = true) (h : s.saturatedb = false) :
    (attach s).ht < s.ht := by
  induction s with
  | leaf i => simp [AT.saturatedb] at h
  | node i l r ihl ihr =>
    rw [canonb_node] at hc
    rw [attach_unsat i l r h]
    by_cases hr : r.saturatedb = true
    · rw [attach_of_saturated r hr]
      show r.ht < l.ht + 1
      have := hc.2.2
      omega
    · simp only [Bool.not_eq_true] at hr
      have := ihr hc.2.1 hr
      show (attach r).ht < l.ht + 1
      have := hc.2.2
      omega

theorem attachCtx_mem (s : AT) (j ll : Nat) (h : attachCtx s = some (j, ll)) :
    j ∈ s.idxs ∧ ∃ i0 l0 r0, s = AT.node i0 l0 r0 ∧ ll ∈ l0.idxs ++ r0.idxs := by
  induction s with
  | leaf i => simp [attachCtx] at h
  | node i l r ihl ihr =>
    rw [attachCtx_node] at h
    by_cases hsat : (AT.node i l r).saturatedb = true
    · rw [if_pos hsat] at h; cases h
    · rw [if_neg hsat] at h
      by_cases hr : r.saturatedb = true
      · rw [if_pos hr, Option.some.injEq, Prod.mk.injEq] at h
        rcases h with ⟨rfl, rfl⟩
        exact ⟨by simp [AT.idxs], i, l, r, rfl,
          List.mem_append.2 (Or.inl (AT.idx_mem_idxs l))⟩
      · rw [if_neg hr] at h
        rcases ihr h with ⟨hj, i0, l0, r0, hr0, hll⟩
        refine ⟨List.mem_cons_of_mem _ (List.mem_append.2 (Or.inr hj)), i, l, r, rfl, ?_⟩
        refine List.mem_append.2 (Or.inr ?_)
        have : ll ∈ r.idxs := by
          rw [hr0]
          exact List.mem_cons_of_mem _ hll
        exact this

theorem attachCtx_isSome (s : AT) (h : s.saturatedb = false) :
    ∃ j ll, attachCtx s = some (j, ll) := by
  induction s with
  | leaf i => simp [AT.saturatedb] at h
  | node i l r ihl ihr =>
    rw [attachCtx_node, if_neg (by simp [h])]
    by_cases hr : r.saturatedb = true
    · exact ⟨i, l.idx, by rw [if_pos hr]⟩
    · rw [if_neg hr]
      exact ihr (by simpa using hr)

/-! ### Arena access lemmas -/

theorem length_setN (a : List DynTreeNode) (i : Nat) (v : DynTreeNode) :
    (setN a i v).length = a.length := List.length_set a i v

theorem getN_append_lt (a b : List DynTreeNode) (j : Nat) (h : j < a.length) :
    getN (a ++ b) j = getN a j := List.getD_append a b default j h

theorem getN_append_self (a : List DynTreeNode) (v : DynTreeNode) :
    getN (a ++ [v]) a.length = v := by
  unfold getN
  rw [List.getD_eq_getElem?_getD, List.getElem?_concat_length]
  rfl

theorem getN_setN_self (a : List DynTreeNode) (i : Nat) (v : DynTreeNode) (h : i < a.length) :
    getN (setN a i v) i = v := by
  unfold getN setN
  rw [List.getD_eq_getElem?_getD, List.getElem?_set_self h]
  rfl

theorem getN_setN_ne (a : List DynTreeNode) (i j : Nat) (v : DynTreeNode) (h : i ≠ j) :
    getN (setN a i v) j = getN a j := by
  unfold getN setN
  rw [List.getD_eq_getElem?_getD, List.getElem?_set_ne h, ← List.getD_eq_getElem?_getD]

theorem getN_oob (a : List DynTreeNode) (j : Nat) (h : a.length ≤ j) : getN a j = default := by
  unfold getN
  rw [List.getD_eq_getElem?_getD, List.getElem?_eq_none h]
  rfl

/-- Equality of the four structural fields of a node (everything but the
hash). -/
def structEq (n1 n2 : DynTreeNode) : Prop :=
  n1.left = n2.left ∧ n1.right = n2.right ∧ n1.parent = n2.parent ∧ n1.height = n2.height

theorem structEq_refl (n : DynTreeNode) : structEq n n := ⟨rfl, rfl, rfl, rfl⟩

theorem structEq_trans {n1 n2 n3 : DynTreeNode} (h1 : structEq n1 n2) (h2 : structEq n2 n3) :
    structEq n1 n3 :=
  ⟨h1.1.trans h2.1, h1.2.1.trans h2.2.1, h1.2.2.1.trans h2.2.2.1, h1.2.2.2.trans h2.2.2.2⟩

/-! ### The representation invariant -/

/-- `ReprB a s`: the arena `a` faithfully stores the abstract shape `s`:
heights match (an internal node is one higher than its left child), both
children of each internal node point to it as parent, the left child's
right-sibling pointer and the right child's left-sibling pointer point at
each other, and the other two sibling pointers are absent.  Only structural
fields are read, never hashes. -/
def ReprB (a : List DynTreeNode) : AT → Bool
  | .leaf i => decide (i < a.length) && ((getN a i).height == 0)
  | .node i l r =>
    decide (i < a.length) && ((getN a i).height == l.ht + 1) &&
    ReprB a l && ReprB a r &&
    ((getN a l.idx).parent == some i) && ((getN a r.idx).parent == some i) &&
    ((getN a l.idx).right == some r.idx) && ((getN a r.idx).left == some l.idx) &&
    ((getN a l.idx).left == none) && ((getN a r.idx).right == none)

theorem reprB_leaf (a : List DynTreeNode) (i : Nat) :
    ReprB a (.leaf i) = true ↔ i < a.length ∧ (getN a i).height = 0 := by
  simp [ReprB]

theorem reprB_node (a : List DynTreeNode) (i : Nat) (l r : AT) :
    ReprB a (.node i l r) = true ↔
      i < a.length ∧ (getN a i).height = l.ht + 1 ∧ ReprB a l = true ∧ ReprB a r = true ∧
      (getN a l.idx).parent = some i ∧ (getN a r.idx).parent = some i ∧
      (getN a l.idx).right = some r.idx ∧ (getN a r.idx).left = some l.idx ∧
      (getN a l.idx).left = none ∧ (getN a r.idx).right = none := by
  simp [ReprB, and_assoc]

theorem reprB_ht (a : List DynTreeNode) (s : AT) (h : ReprB a s = true) :
    (getN a s.idx).height = s.ht := by
  cases s with
  | leaf i => exact ((reprB_leaf a i).1 h).2
  | node i l r => exact ((reprB_node a i l r).1 h).2.1

theorem reprB_idxs_lt (a : List DynTreeNode) (s : AT) :
    ReprB a s = true → ∀ j ∈ s.idxs, j < a.length := by
  induction s with
  | leaf i =>
    intro h j hj
    rw [AT.idxs, List.mem_singleton] at hj
    rw [hj]
    exact ((reprB_leaf a i).1 h).1
  | node i l r ihl ihr =>
    intro h j hj
    rcases (reprB_node a i l r).1 h with ⟨hi, -, hl, hr, -⟩
    rw [AT.idxs, List.mem_cons] at hj
    rcases hj with rfl | hj
    · exact hi
    · rcases List.mem_append.1 hj with h2 | h2
      · exact ihl hl j h2
      · exact ihr hr j h2

theorem reprB_frame (a1 a2 : List DynTreeNode) (s : AT) :
    ReprB a1 s = true → s.idxs.Nodup →
    a1.length ≤ a2.length →
    (getN a2 s.idx).height = (getN a1 s.idx).height →
    (∀ j ∈ s.idxs, j ≠ s.idx → structEq (getN a2 j) (getN a1 j)) →
    ReprB a2 s = true := by
  induction s with
  | leaf i =>
    intro hrep hnd hlen hroot hrest
    rcases (reprB_leaf a1 i).1 hrep with ⟨hi, hh⟩
    exact (reprB_leaf a2 i).2 ⟨lt_of_lt_of_le hi hlen, hroot.trans hh⟩
  | node i l r ihl ihr =>
    intro hrep hnd hlen hroot hrest
    rcases (reprB_node a1 i l r).1 hrep with
      ⟨hi, hhi, hl, hr, hpl, hpr, hsl, hsr, hll, hrr⟩
    have hnd2 := hnd
    rw [AT.idxs, List.nodup_cons] at hnd2
    rcases hnd2 with ⟨hnotmem, hndlr⟩
    have hndl : l.idxs.Nodup := (List.nodup_append.1 hndlr).1
    have hndr : r.idxs.Nodup := (List.nodup_append.1 hndlr).2.1
    have hdisj := (List.nodup_append.1 hndlr).2.2
    have hlidx_mem : l.idx ∈ l.idxs := AT.idx_mem_idxs l
    have hridx_mem : r.idx ∈ r.idxs := AT.idx_mem_idxs r
    have hlidx_ne : l.idx ≠ i := by
      intro hcon
      rw [← hcon] at hnotmem
      exact hnotmem (List.mem_append.2 (Or.inl hlidx_mem))
    have hridx_ne : r.idx ≠ i := by
      intro hcon
      rw [← hcon] at hnotmem
      exact hnotmem (List.mem_append.2 (Or.inr hridx_mem))
    have memS : ∀ j, j ∈ l.idxs ∨ j ∈ r.idxs → j ∈ (AT.node i l r).idxs := by
      intro j hj
      exact List.mem_cons_of_mem _ (List.mem_append.2 hj)
    have hstl : structEq (getN a2 l.idx) (getN a1 l.idx) :=
      hrest l.idx (memS _ (Or.inl hlidx_mem)) hlidx_ne
    have hstr : structEq (getN a2 r.idx) (getN a1 r.idx) :=
      hrest r.idx (memS _ (Or.inr hridx_mem)) hridx_ne
    refine (reprB_node a2 i l r).2
      ⟨lt_of_lt_of_le hi hlen, ?_, ?_, ?_, ?_, ?_, ?_, ?_, ?_, ?_⟩
    · exact hroot.trans hhi
    · refine ihl hl hndl hlen hstl.2.2.2 ?_
      intro j hj hne
      refine hrest j (memS _ (Or.inl hj)) ?_
      intro hcon
      have hcon2 : j = i := hcon
      rw [hcon2] at hj
      exact hnotmem (List.mem_append.2 (Or.inl hj))
    · refine ihr hr hndr hlen hstr.2.2.2 ?_
      intro j hj hne
      refine hrest j (memS _ (Or.inr hj)) ?_
      intro hcon
      have hcon2 : j = i := hcon
      rw [hcon2] at hj
      exact hnotmem (List.mem_append.2 (Or.inr hj))
    · rw [hstl.2.2.1]; exact hpl
    · rw [hstr.2.2.1]; exact hpr
    · rw [hstl.2.1]; exact hsl
    · rw [hstr.1]; exact hsr
    · rw [hstl.1]; exact hll
    · rw [hstr.2.1]; exact hrr

/-- The hash-consistency invariant over a shape: every internal node stores
the combine of its two children's stored hashes. -/
def HashOKA (f : Nat → Nat → Nat) (a : List DynTreeNode) : AT → Prop
  | .leaf _ => True
  | .node i l r =>
    (getN a i).hash = f (getN a l.idx).hash (getN a r.idx).hash ∧
      HashOKA f a l ∧ HashOKA f a r

/-! ### The full well-formedness invariant of a reachable tree -/

/-- The whole-tree invariant: the arena stores the canonical shape `s`, the
root index is `s`'s root and its outward links are absent, the leaf list is
the left-to-right leaf index list, every arena slot belongs to the shape
exactly once, and the recorded height is the shape's height. -/
structure WFT (t : DynTree) (s : AT) : Prop where
  repr : ReprB t.nodes s = true
  rootIdx : t.root = some s.idx
  rootParent : (getN t.nodes s.idx).parent = none
  rootLeft : (getN t.nodes s.idx).left = none
  rootRight : (getN t.nodes s.idx).right = none
  leavesEq : t.leaves = s.leafIdxs
  coverage : s.idxs.Perm (List.range t.nodes.length)
  canon : s.canonb = true
  heightEq : t.height = s.ht

/-- The state of a tree before any leaf was added. -/
def EmptyState (t : DynTree) : Prop :=
  t.nodes = [] ∧ t.root = none ∧ t.leaves = [] ∧ t.height = 0

/-- Every tree is either still empty or stores some canonical shape. -/
def Shaped (t : DynTree) : Prop := EmptyState t ∨ ∃ s, WFT t s

theorem WFT.nodupIdxs {t : DynTree} {s : AT} (h : WFT t s) : s.idxs.Nodup :=
  h.coverage.nodup_iff.2 (List.nodup_range _)

theorem WFT.idxs_lt {t : DynTree} {s : AT} (h : WFT t s) :
    ∀ j ∈ s.idxs, j < t.nodes.length := by
  intro j hj
  have := h.coverage.mem_iff.1 hj
  exact List.mem_range.1 this

theorem WFT.len_idxs {t : DynTree} {s : AT} (h : WFT t s) :
    s.idxs.length = t.nodes.length := by
  rw [h.coverage.length_eq, List.length_range]

theorem WFT.ht_lt_len {t : DynTree} {s : AT} (h : WFT t s) :
    s.ht < t.nodes.length := by
  rw [← h.len_idxs]
  exact AT.ht_lt_len_idxs s

/-! ### The climb of `Add` reaches the attach point -/

theorem climb_succ (a : List DynTreeNode) (i fuel : Nat) :
    climb a i (fuel + 1) =
      match (getN a i).parent with
      | none => i
      | some p => if (getN a p).height = (getN a i).height + 1 then climb a p fuel else i := rfl

theorem AT.lastLeaf_getD (s : AT) :
    s.leafIdxs.getD (s.leafIdxs.length - 1) 0 = s.lastLeaf := by
  induction s with
  | leaf i => rfl
  | node i l r ihl ihr =>
    show (l.leafIdxs ++ r.leafIdxs).getD ((l.leafIdxs ++ r.leafIdxs).length - 1) 0 = r.lastLeaf
    have hr0 : r.leafIdxs.length ≥ 1 := by
      rcases List.length_pos.2 (AT.leafIdxs_ne_nil r) with h
      omega
    rw [List.length_append]
    rw [List.getD_eq_getElem?_getD, List.getElem?_append_right (by omega),
      ← List.getD_eq_getElem?_getD]
    have : l.leafIdxs.length + r.leafIdxs.length - 1 - l.leafIdxs.length
        = r.leafIdxs.length - 1 := by omega
    rw [this]
    exact ihr

theorem climb_sat (a : List DynTreeNode) (s : AT) :
    ReprB a s = true → s.saturatedb = true →
    ∀ fuel, climb a s.lastLeaf (s.ht + fuel) = climb a s.idx fuel := by
  induction s with
  | leaf i =>
    intro _ _ fuel
    show climb a i (0 + fuel) = climb a i fuel
    rw [Nat.zero_add]
  | node i l r ihl ihr =>
    intro hrep hsat fuel
    rcases (reprB_node a i l r).1 hrep with ⟨-, hhi, -, hr, -, hpr, -, -, -, -⟩
    rw [saturatedb_node] at hsat
    show climb a r.lastLeaf (l.ht + 1 + fuel) = climb a i fuel
    have h1 : l.ht + 1 + fuel = r.ht + (1 + fuel) := by
      have := hsat.2
      omega
    rw [h1, ihr hr hsat.1 (1 + fuel)]
    have h2 : 1 + fuel = fuel + 1 := Nat.add_comm 1 fuel
    rw [h2, climb_succ, hpr]
    have hrh : (getN a r.idx).height = r.ht := reprB_ht a r hr
    show (if (getN a i).height = (getN a r.idx).height + 1 then climb a i fuel else r.idx)
      = climb a i fuel
    rw [if_pos (by rw [hhi, hrh, hsat.2])]

theorem climb_unsat (a : List DynTreeNode) (s : AT) :
    ReprB a s = true → s.canonb = true → s.saturatedb = false →
    ∀ fuel, s.ht ≤ fuel → climb a s.lastLeaf fuel = (attach s).idx := by
  induction s with
  | leaf i => intro _ _ h; simp [AT.saturatedb] at h
  | node i l r ihl ihr =>
    intro hrep hcan hsat fuel hfuel
    rcases (reprB_node a i l r).1 hrep with ⟨-, hhi, -, hr, -, hpr, -, -, -, -⟩
    rw [canonb_node] at hcan
    rw [attach_unsat i l r hsat]
    have hfuel2 : l.ht + 1 ≤ fuel := hfuel
    by_cases hrs : r.saturatedb = true
    · rw [attach_of_saturated r hrs]
      have hne : r.ht ≠ l.ht := by
        intro hcon
        have hcon2 : (AT.node i l r).saturatedb = true := (saturatedb_node i l r).2 ⟨hrs, hcon⟩
        rw [hcon2] at hsat
        cases hsat
      have hle : r.ht ≤ l.ht := hcan.2.2
      have hfe : fuel = r.ht + (fuel - r.ht) := by omega
      show climb a r.lastLeaf fuel = r.idx
      rw [hfe, climb_sat a r hr hrs (fuel - r.ht)]
      obtain ⟨k, hk⟩ : ∃ k, fuel - r.ht = k + 1 := ⟨fuel - r.ht - 1, by omega⟩
      rw [hk, climb_succ, hpr]
      have hrh : (getN a r.idx).height = r.ht := reprB_ht a r hr
      show (if (getN a i).height = (getN a r.idx).height + 1 then climb a i k else r.idx) = r.idx
      rw [if_neg (by rw [hhi, hrh]; omega)]
    · simp only [Bool.not_eq_true] at hrs
      exact ihr hr hcan.2.1 hrs fuel (by
        have : r.ht ≤ l.ht := hcan.2.2
        omega)

theorem climb_root (a : List DynTreeNode) (s : AT)
    (hrep : ReprB a s = true) (hcan : s.canonb = true)
    (hrootp : (getN a s.idx).parent = none)
    (fuel : Nat) (hfuel : s.ht + 1 ≤ fuel) :
    climb a s.lastLeaf fuel = (attach s).idx := by
  by_cases hsat : s.saturatedb = true
  · rw [attach_of_saturated s hsat]
    have hfe : fuel = s.ht + (fuel - s.ht) := by omega
    rw [hfe, climb_sat a s hrep hsat (fuel - s.ht)]
    obtain ⟨k, hk⟩ : ∃ k, fuel - s.ht = k + 1 := ⟨fuel - s.ht - 1, by omega⟩
    rw [hk, climb_succ, hrootp]
  · simp only [Bool.not_eq_true] at hsat
    exact climb_unsat a s hrep hcan hsat fuel (by omega)

/-! ### Fields at the attach point -/

theorem attach_context (a : List DynTreeNode) (s : AT) :
    ReprB a s = true → s.idxs.Nodup → s.saturatedb = false →
    ∀ jP llIdx, attachCtx s = some (jP, llIdx) →
    (getN a (attach s).idx).parent = some jP ∧
    (getN a (attach s).idx).left = some llIdx ∧
    (getN a (attach s).idx).right = none ∧
    (getN a llIdx).parent = some jP ∧
    (getN a llIdx).right = some (attach s).idx ∧
    (getN a llIdx).left = none ∧
    llIdx ≠ (attach s).idx ∧
    llIdx ∈ s.idxs ∧ jP ∈ s.idxs := by
  induction s with
  | leaf i => intro _ _ h; simp [AT.saturatedb] at h
  | node i l r ihl ihr =>
    intro hrep hnd hsat jP llIdx hctx
    rcases (reprB_node a i l r).1 hrep with
      ⟨-, -, hl, hr, hpl, hpr, hsl, hsr, hll, hrr⟩
    rw [AT.idxs, List.nodup_cons] at hnd
    rcases hnd with ⟨hnotmem, hndlr⟩
    have hndl : l.idxs.Nodup := (List.nodup_append.1 hndlr).1
    have hndr : r.idxs.Nodup := (List.nodup_append.1 hndlr).2.1
    have hdisj := (List.nodup_append.1 hndlr).2.2
    rw [attachCtx_node] at hctx
    rw [if_neg (by simp [hsat])] at hctx
    rw [attach_unsat i l r hsat]
    by_cases hrs : r.saturatedb = true
    · rw [if_pos hrs] at hctx
      rw [Option.some.injEq, Prod.mk.injEq] at hctx
      rcases hctx with ⟨rfl, rfl⟩
      rw [attach_of_saturated r hrs]
      have hne : l.idx ≠ r.idx := by
        intro hcon
        exact hdisj (AT.idx_mem_idxs l) (hcon ▸ AT.idx_mem_idxs r)
      exact ⟨hpr, hsr, hrr, hpl, hsl, hll, hne,
        List.mem_cons_of_mem _ (List.mem_append.2 (Or.inl (AT.idx_mem_idxs l))),
        List.mem_cons_self _ _⟩
    · simp only [Bool.not_eq_true] at hrs
      rw [if_neg (by rw [hrs]; exact Bool.false_ne_true)] at hctx
      have hcanr? : True := trivial
      rcases ihr hr hndr hrs jP llIdx hctx with
        ⟨h1, h2, h3, h4, h5, h6, h7, h8, h9⟩
      exact ⟨h1, h2, h3, h4, h5, h6, h7,
        List.mem_cons_of_mem _ (List.mem_append.2 (Or.inr h8)),
        List.mem_cons_of_mem _ (List.mem_append.2 (Or.inr h9))⟩

theorem getN_append_self2 (a : List DynTreeNode) (v : DynTreeNode) (j : Nat)
    (h : j = a.length) : getN (a ++ [v]) j = v := by
  rw [h]; exact getN_append_self a v

theorem reprB_attach (a : List DynTreeNode) (s : AT) (h : ReprB a s = true) :
    ReprB a (attach s) = true := by
  induction s with
  | leaf i => exact h
  | node i l r ihl ihr =>
    rw [attach_node]
    by_cases hs : (AT.node i l r).saturatedb = true
    · rw [if_pos hs]; exact h
    · rw [if_neg hs]
      exact ihr ((reprB_node a i l r).1 h).2.2.2.1

theorem getN_setN (a : List DynTreeNode) (i j : Nat) (v : DynTreeNode) :
    getN (setN a i v) j = if i = j ∧ i < a.length then v else getN a j := by
  by_cases h1 : i = j
  · subst h1
    by_cases h2 : i < a.length
    · rw [getN_setN_self a i v h2, if_pos ⟨rfl, h2⟩]
    · rw [if_neg (fun hcon => h2 hcon.2)]
      unfold setN
      rw [List.set_eq_of_length_le (by omega)]
  · rw [getN_setN_ne a i j v h1, if_neg (fun hcon => h1 hcon.1)]

theorem getN_singleton_zero (v : DynTreeNode) : getN [v] 0 = v := rfl

theorem getN_append2 (a b : List DynTreeNode) (j : Nat) :
    getN (a ++ b) j = if j < a.length then getN a j else getN b (j - a.length) := by
  by_cases h : j < a.length
  · rw [getN_append_lt a b j h, if_pos h]
  · rw [if_neg h]
    unfold getN
    rw [List.getD_eq_getElem?_getD, List.getElem?_append_right (by omega),
      ← List.getD_eq_getElem?_getD]

/-- Symbolic execution of `DynTree.Add` on a well-formed nonempty tree: the
structural phase produces an arena `a4` whose entries at the new leaf, the
new parent, the attach point and its former left sibling are as described,
everything else is untouched, and the final arena is `a4` or its rehash. -/
theorem add_exec (f : Nat → Nat → Nat) (x : Nat) {t : DynTree} {s : AT} (hw : WFT t s) :
    ∃ a4 : List DynTreeNode,
      (t.Add f x).nodes = (if t.paused = true then a4
        else rehash f a4 (t.nodes.length + 1) (getN a4 (attach s).idx).hash x true a4.length) ∧
      a4.length = t.nodes.length + 2 ∧
      (t.Add f x).leaves = t.leaves ++ [t.nodes.length] ∧
      (t.Add f x).root = (if s.saturatedb then some (t.nodes.length + 1) else some s.idx) ∧
      (t.Add f x).height = (if s.saturatedb then s.ht + 1 else s.ht) ∧
      (t.Add f x).paused = t.paused ∧
      getN a4 t.nodes.length =
        { hash := x, left := some (attach s).idx, right := none,
          parent := some (t.nodes.length + 1), height := 0 } ∧
      getN a4 (t.nodes.length + 1) =
        { hash := 0, left := (getN t.nodes (attach s).idx).left, right := none,
          parent := (getN t.nodes (attach s).idx).parent,
          height := (getN t.nodes (attach s).idx).height + 1 } ∧
      getN a4 (attach s).idx =
        { hash := (getN t.nodes (attach s).idx).hash, left := none,
          right := some t.nodes.length, parent := some (t.nodes.length + 1),
          height := (getN t.nodes (attach s).idx).height } ∧
      (∀ ll, (getN t.nodes (attach s).idx).left = some ll →
        getN a4 ll = { getN t.nodes ll with right := some (t.nodes.length + 1) }) ∧
      (∀ k, k < t.nodes.length → k ≠ (attach s).idx →
        (getN t.nodes (attach s).idx).left ≠ some k → getN a4 k = getN t.nodes k) := by
  have hLpos : 1 ≤ t.leaves.length := by
    rw [hw.leavesEq]
    exact List.length_pos.2 (AT.leafIdxs_ne_nil s)
  have hc_lt : (attach s).idx < t.nodes.length :=
    hw.idxs_lt _ (attach_idxs_subset s _ (AT.idx_mem_idxs _))
  have hc_ne : (attach s).idx ≠ t.nodes.length := Nat.ne_of_lt hc_lt
  have hrat : ReprB t.nodes (attach s) = true := reprB_attach t.nodes s hw.repr
  have hcht : (getN t.nodes (attach s).idx).height = (attach s).ht := reprB_ht _ _ hrat
  -- the extended arena still represents s and keeps the root parentless
  have hrep0 : ReprB (t.nodes ++ [{ hash := x, left := none, right := none, parent := none, height := 0 }]) s = true := by
    refine reprB_frame t.nodes _ s hw.repr hw.nodupIdxs (by simp) ?_ ?_
    · rw [getN_append_lt _ _ _ (hw.idxs_lt _ (AT.idx_mem_idxs s))]
    · intro j hj _
      rw [getN_append_lt _ _ _ (hw.idxs_lt _ hj)]
      exact structEq_refl _
  have hpar0 : (getN (t.nodes ++ [{ hash := x, left := none, right := none, parent := none, height := 0 }]) s.idx).parent = none := by
    rw [getN_append_lt _ _ _ (hw.idxs_lt _ (AT.idx_mem_idxs s))]
    exact hw.rootParent
  have hstart : (t.leaves ++ [t.nodes.length]).getD (t.leaves.length + 1 - 2) 0 = s.lastLeaf := by
    have h2 : t.leaves.length + 1 - 2 = t.leaves.length - 1 := by omega
    rw [h2, List.getD_append _ _ _ _ (by omega), hw.leavesEq]
    exact AT.lastLeaf_getD s
  have hclimb : climb (t.nodes ++ [{ hash := x, left := none, right := none, parent := none, height := 0 }]) ((t.leaves ++ [t.nodes.length]).getD (t.leaves.length + 1 - 2) 0) (t.nodes.length + 1) = (attach s).idx := by
    rw [hstart]
    exact climb_root _ s hrep0 hw.canon hpar0 _ (by have := hw.ht_lt_len; omega)
  have hgetc : getN (t.nodes ++ [{ hash := x, left := none, right := none, parent := none, height := 0 }]) (attach s).idx = getN t.nodes (attach s).idx :=
    getN_append_lt _ _ _ hc_lt
  simp only [DynTree.Add, hw.rootIdx, List.length_append, List.length_singleton,
    Nat.add_sub_cancel, hclimb, hgetc]
  rcases hll : (getN t.nodes (attach s).idx).left with _ | ll
  · -- no left sibling at the attach point: the shape is saturated, no fix-up
    have hsat : s.saturatedb = true := by
      by_contra hcon
      rw [Bool.not_eq_true] at hcon
      rcases attachCtx_isSome s hcon with ⟨jP, llIdx, hctx⟩
      rcases attach_context t.nodes s hw.repr hw.nodupIdxs hcon jP llIdx hctx with
        ⟨-, h2, -⟩
      rw [hll] at h2
      cases h2
    have hcs : attach s = s := attach_of_saturated s hsat
    have hb1 : (attach s).idx ≠ t.nodes.length := hc_ne
    have hb2 : t.nodes.length ≠ (attach s).idx := Ne.symm hc_ne
    have hb3 : (attach s).idx ≠ t.nodes.length + 1 := by omega
    have hb4 : t.nodes.length + 1 ≠ (attach s).idx := by omega
    have hb5 : t.nodes.length ≠ t.nodes.length + 1 := by omega
    have hb6 : t.nodes.length + 1 ≠ t.nodes.length := by omega
    have hc2 : (attach s).idx < t.nodes.length + 1 + 1 := by omega
    have hc1 : (attach s).idx < t.nodes.length + 1 := by omega
    have hn2 : t.nodes.length < t.nodes.length + 1 + 1 := by omega
    have hn1 : t.nodes.length < t.nodes.length + 1 := by omega
    dsimp only
    refine ⟨_, rfl, ?_, by trivial, ?_, ?_, by trivial, ?_, ?_, ?_, ?_, ?_⟩
    · simp [length_setN]
    · -- root
      have h1 : (attach s).idx ≠ t.nodes.length + 1 := by omega
      have h2 : t.nodes.length ≠ t.nodes.length + 1 := by omega
      simp only [getN_setN, getN_append2, length_setN, List.length_append, List.length_singleton]
      simp [hb1, hb2, hb3, hb4, hb5, hb6, hc2, hc1, hc_lt, hn2, hn1, Nat.sub_self, getN_singleton_zero]
      rw [hcs, hw.rootParent, if_pos rfl, if_pos hsat]
    · -- height
      have h1 : (attach s).idx ≠ t.nodes.length + 1 := by omega
      have h2 : t.nodes.length ≠ t.nodes.length + 1 := by omega
      simp only [getN_setN, getN_append2, length_setN, List.length_append, List.length_singleton]
      simp [hb1, hb2, hb3, hb4, hb5, hb6, hc2, hc1, hc_lt, hn2, hn1, Nat.sub_self, getN_singleton_zero]
      rw [hcht, hcs, hw.heightEq]
      have hcond : s.ht + 1 > s.ht := by omega
      rw [if_pos hcond, if_pos hsat]
    · -- new leaf node
      simp only [getN_setN, getN_append2, length_setN, List.length_append, List.length_singleton]
      simp [hb1, hb2, hb3, hb4, hb5, hb6, hc2, hc1, hc_lt, hn2, hn1, Nat.sub_self, getN_singleton_zero]
    · -- new parent node
      simp only [getN_setN, getN_append2, length_setN, List.length_append, List.length_singleton]
      simp [hb1, hb2, hb3, hb4, hb5, hb6, hc2, hc1, hc_lt, hn2, hn1, Nat.sub_self, getN_singleton_zero, hll]
    · -- attach point
      simp only [getN_setN, getN_append2, length_setN, List.length_append, List.length_singleton]
      simp [hb1, hb2, hb3, hb4, hb5, hb6, hc2, hc1, hc_lt, hn2, hn1, Nat.sub_self, getN_singleton_zero, hll]
    · -- former left sibling: impossible here
      intro ll h
      cases h
    · -- untouched nodes
      intro k hk hkc _
      have hk1 : (attach s).idx ≠ k := Ne.symm hkc
      have hk2 : t.nodes.length ≠ k := by omega
      have hk3 : k < t.nodes.length + 1 := by omega
      have hk4 : k < t.nodes.length + 1 + 1 := by omega
      simp only [getN_setN, getN_append2, length_setN, List.length_append, List.length_singleton]
      simp [hk1, hk2, hk, hk3, hk4]
  · -- the attach point has a left sibling: the fix-up retargets it
    have hsat : s.saturatedb = false := by
      by_contra hcon
      rw [Bool.not_eq_false] at hcon
      have hcs : attach s = s := attach_of_saturated s hcon
      rw [hcs, hw.rootLeft] at hll
      cases hll
    rcases attachCtx_isSome s hsat with ⟨jP, llIdx, hctx⟩
    rcases attach_context t.nodes s hw.repr hw.nodupIdxs hsat jP llIdx hctx with
      ⟨hcp, hcl, -, -, -, -, hllnec, hllmem, -⟩
    have hlleq : llIdx = ll := by
      rw [hll] at hcl
      exact (Option.some_inj.mp hcl).symm
    subst hlleq
    have hll_lt : llIdx < t.nodes.length := hw.idxs_lt _ hllmem
    have hll_ne_n0 : llIdx ≠ t.nodes.length := by omega
    have hb1 : (attach s).idx ≠ t.nodes.length := hc_ne
    have hb2 : t.nodes.length ≠ (attach s).idx := Ne.symm hc_ne
    have hb3 : (attach s).idx ≠ t.nodes.length + 1 := by omega
    have hb4 : t.nodes.length + 1 ≠ (attach s).idx := by omega
    have hb5 : t.nodes.length ≠ t.nodes.length + 1 := by omega
    have hb6 : t.nodes.length + 1 ≠ t.nodes.length := by omega
    have hc2 : (attach s).idx < t.nodes.length + 1 + 1 := by omega
    have hc1 : (attach s).idx < t.nodes.length + 1 := by omega
    have hn2 : t.nodes.length < t.nodes.length + 1 + 1 := by omega
    have hn1 : t.nodes.length < t.nodes.length + 1 := by omega
    have hd1 : llIdx ≠ (attach s).idx := hllnec
    have hd2 : (attach s).idx ≠ llIdx := Ne.symm hllnec
    have hd3 : llIdx ≠ t.nodes.length + 1 := by omega
    have hd4 : t.nodes.length + 1 ≠ llIdx := by omega
    have hd5 : t.nodes.length ≠ llIdx := Ne.symm hll_ne_n0
    have hd6 : llIdx < t.nodes.length + 1 + 1 := by omega
    have hd7 : llIdx < t.nodes.length + 1 := by omega
    dsimp only
    refine ⟨_, rfl, ?_, by trivial, ?_, ?_, by trivial, ?_, ?_, ?_, ?_, ?_⟩
    · simp [length_setN]
    · -- root: the new parent inherits the attach point's parent, which exists
      have h1 : (attach s).idx ≠ t.nodes.length + 1 := by omega
      have h2 : llIdx ≠ t.nodes.length + 1 := by omega
      have h3 : t.nodes.length ≠ t.nodes.length + 1 := by omega
      simp only [getN_setN, getN_append2, length_setN, List.length_append, List.length_singleton]
      simp [hb1, hb2, hb3, hb4, hb5, hb6, hc2, hc1, hc_lt, hn2, hn1, hd1, hd2, hd3, hd4, hd5, hd6, hd7, hll_ne_n0, hll_lt, Nat.sub_self, getN_singleton_zero]
      rw [hcp, if_neg (by simp), if_neg (by rw [hsat]; exact Bool.false_ne_true)]
    · -- height: the new parent is lower than the root
      have h1 : (attach s).idx ≠ t.nodes.length + 1 := by omega
      have h2 : llIdx ≠ t.nodes.length + 1 := by omega
      have h3 : t.nodes.length ≠ t.nodes.length + 1 := by omega
      simp only [getN_setN, getN_append2, length_setN, List.length_append, List.length_singleton]
      simp [hb1, hb2, hb3, hb4, hb5, hb6, hc2, hc1, hc_lt, hn2, hn1, hd1, hd2, hd3, hd4, hd5, hd6, hd7, hll_ne_n0, hll_lt, Nat.sub_self, getN_singleton_zero]
      have hlt : (attach s).ht < s.ht := attach_ht_lt s hw.canon hsat
      rw [hcht, hw.heightEq]
      have hcond : ¬ ((attach s).ht + 1 > s.ht) := by omega
      rw [if_neg hcond, if_neg (by rw [hsat]; exact Bool.false_ne_true)]
    · -- new leaf node
      simp only [getN_setN, getN_append2, length_setN, List.length_append, List.length_singleton]
      simp [hb1, hb2, hb3, hb4, hb5, hb6, hc2, hc1, hc_lt, hn2, hn1, hd1, hd2, hd3, hd4, hd5, hd6, hd7, hll_ne_n0, hll_lt, Nat.sub_self, getN_singleton_zero]
    · -- new parent node
      simp only [getN_setN, getN_append2, length_setN, List.length_append, List.length_singleton]
      simp [hb1, hb2, hb3, hb4, hb5, hb6, hc2, hc1, hc_lt, hn2, hn1, hd1, hd2, hd3, hd4, hd5, hd6, hd7, hll_ne_n0, hll_lt, Nat.sub_self, getN_singleton_zero, hll]
    · -- attach point: parent and right set first, left cleared by the fix-up
      simp only [getN_setN, getN_append2, length_setN, List.length_append, List.length_singleton]
      simp [hb1, hb2, hb3, hb4, hb5, hb6, hc2, hc1, hc_lt, hn2, hn1, hd1, hd2, hd3, hd4, hd5, hd6, hd7, hll_ne_n0, hll_lt, Nat.sub_self, getN_singleton_zero, hll]
    · -- former left sibling
      intro ll2 h2
      have hll2 : ll2 = llIdx := (Option.some_inj.mp h2).symm
      subst hll2
      simp only [getN_setN, getN_append2, length_setN, List.length_append, List.length_singleton]
      simp [hb1, hb2, hb3, hb4, hb5, hb6, hc2, hc1, hc_lt, hn2, hn1, hd1, hd2, hd3, hd4, hd5, hd6, hd7, hll_ne_n0, hll_lt, Nat.sub_self, getN_singleton_zero]
    · -- untouched nodes
      intro k hk hkc hkll
      have hkll2 : llIdx ≠ k := fun hcon => hkll (by rw [hcon])
      have hk1 : (attach s).idx ≠ k := Ne.symm hkc
      have hk2 : t.nodes.length ≠ k := by omega
      have hk3 : k < t.nodes.length + 1 := by omega
      have hk4 : k < t.nodes.length + 1 + 1 := by omega
      simp only [getN_setN, getN_append2, length_setN, List.length_append, List.length_singleton]
      simp [hk1, hk2, hkll2, hk, hk3, hk4]

/-! ### `Add` preserves the representation invariant -/

theorem reprB_addA_unsat (aOld aNew : List DynTreeNode) (nL nP c llIdx jP : Nat)
    (hcP : (getN aNew c).parent = some nP) (hcR : (getN aNew c).right = some nL)
    (hcL : (getN aNew c).left = none) (hcH : (getN aNew c).height = (getN aOld c).height)
    (hLP : (getN aNew nL).parent = some nP) (hLL : (getN aNew nL).left = some c)
    (hLR : (getN aNew nL).right = none) (hLH : (getN aNew nL).height = 0)
    (hPP : (getN aNew nP).parent = some jP) (hPL : (getN aNew nP).left = some llIdx)
    (hPR : (getN aNew nP).right = none) (hPH : (getN aNew nP).height = (getN aOld c).height + 1)
    (hllR : (getN aNew llIdx).right = some nP)
    (hllP : (getN aNew llIdx).parent = (getN aOld llIdx).parent)
    (hllL : (getN aNew llIdx).left = (getN aOld llIdx).left)
    (hllH : (getN aNew llIdx).height = (getN aOld llIdx).height)
    (hLlt : nL < aNew.length) (hPlt : nP < aNew.length) (hlen : aOld.length ≤ aNew.length)
    (hother : ∀ k, k < aOld.length → k ≠ c → k ≠ llIdx → getN aNew k = getN aOld k) :
    ∀ s : AT, ReprB aOld s = true → s.canonb = true → s.idxs.Nodup →
      s.saturatedb = false → (attach s).idx = c → attachCtx s = some (jP, llIdx) →
      ReprB aNew (addA nL nP s) = true := by
  intro s
  induction s with
  | leaf i => intro _ _ _ hsat; simp [AT.saturatedb] at hsat
  | node i l r ihl ihr =>
    intro hrep hcan hnd hsat hattach hctx
    rcases (reprB_node aOld i l r).1 hrep with
      ⟨hi, hhi, hl, hr, hpl, hpr, hsl, hsr, hlleft, hrright⟩
    rw [canonb_node] at hcan
    have hnd2 := hnd
    rw [AT.idxs, List.nodup_cons] at hnd2
    rcases hnd2 with ⟨hnotmem, hndlr⟩
    have hndl : l.idxs.Nodup := (List.nodup_append.1 hndlr).1
    have hndr : r.idxs.Nodup := (List.nodup_append.1 hndlr).2.1
    have hdisj := (List.nodup_append.1 hndlr).2.2
    have hboundS := reprB_idxs_lt aOld _ hrep
    have hboundL : ∀ j ∈ l.idxs, j < aOld.length := fun j hj =>
      hboundS j (List.mem_cons_of_mem _ (List.mem_append.2 (Or.inl hj)))
    have hboundR : ∀ j ∈ r.idxs, j < aOld.length := fun j hj =>
      hboundS j (List.mem_cons_of_mem _ (List.mem_append.2 (Or.inr hj)))
    have hiOld : i < aOld.length := hboundS i (List.mem_cons_self _ _)
    rw [attachCtx_node, if_neg (by simp [hsat])] at hctx
    rw [attach_unsat i l r hsat] at hattach
    rw [addA_unsat nL nP i l r hsat]
    by_cases hrs : r.saturatedb = true
    · -- the attach point is exactly r
      rw [if_pos hrs] at hctx
      rw [Option.some.injEq, Prod.mk.injEq] at hctx
      rcases hctx with ⟨hjPi, hllIdx⟩
      subst hjPi
      subst hllIdx
      rw [attach_of_saturated r hrs] at hattach
      have hc_in_r : c ∈ r.idxs := hattach ▸ AT.idx_mem_idxs r
      have hll_in_l : l.idx ∈ l.idxs := AT.idx_mem_idxs l
      have hine_c : i ≠ c := by
        intro hcon
        exact hnotmem (hcon ▸ List.mem_append.2 (Or.inr hc_in_r))
      have hine_ll : i ≠ l.idx := by
        intro hcon
        exact hnotmem (hcon ▸ List.mem_append.2 (Or.inl hll_in_l))
      have hlidx_ne_c : l.idx ≠ c := fun hcon =>
        hdisj hll_in_l (hcon ▸ hc_in_r)
      rw [addA_sat nL nP r hrs]
      refine (reprB_node aNew i l (AT.node nP r (AT.leaf nL))).2
        ⟨lt_of_lt_of_le hiOld hlen, ?_, ?_, ?_, ?_, ?_, ?_, ?_, ?_, ?_⟩
      · rw [hother i hiOld hine_c hine_ll]
        exact hhi
      · refine reprB_frame aOld aNew l hl hndl hlen ?_ ?_
        · rw [hllH]
        · intro k hk hkne
          rw [hother k (hboundL k hk) (fun hcon => hdisj hk (hcon ▸ hc_in_r))
            (fun hcon => hkne hcon)]
          exact structEq_refl _
      · refine (reprB_node aNew nP r (AT.leaf nL)).2
          ⟨hPlt, ?_, ?_, ?_, ?_, ?_, ?_, ?_, ?_, ?_⟩
        · rw [hPH, ← hattach, reprB_ht aOld r hr]
        · refine reprB_frame aOld aNew r hr hndr hlen ?_ ?_
          · rw [hattach]
            exact hcH
          · intro k hk hkne
            rw [hother k (hboundR k hk) (fun hcon => hkne (by rw [hcon, hattach]))
              (fun hcon => hdisj (hcon ▸ hll_in_l) hk)]
            exact structEq_refl _
        · exact (reprB_leaf aNew nL).2 ⟨hLlt, hLH⟩
        · rw [hattach]
          exact hcP
        · exact hLP
        · rw [hattach]
          exact hcR
        · rw [hattach]
          exact hLL
        · rw [hattach]
          exact hcL
        · exact hLR
      · rw [hllP]
        exact hpl
      · exact hPP
      · exact hllR
      · exact hPL
      · rw [hllL]
        exact hlleft
      · exact hPR
    · -- the attach point lies deeper inside r
      rw [if_neg hrs] at hctx
      simp only [Bool.not_eq_true] at hrs
      cases r with
      | leaf j => simp [AT.saturatedb] at hrs
      | node i2 l2 r2 =>
        have hc_in : c ∈ (AT.node i2 l2 r2).idxs := by
          rw [← hattach]
          exact attach_idxs_subset _ _ (AT.idx_mem_idxs _)
        have hll_in : llIdx ∈ l2.idxs ++ r2.idxs := by
          rcases attachCtx_mem _ _ _ hctx with ⟨-, i0, l0, r0, heq, hmem⟩
          injection heq with e1 e2 e3
          rw [e2, e3]
          exact hmem
        have hll_in2 : llIdx ∈ (AT.node i2 l2 r2).idxs :=
          List.mem_cons_of_mem _ hll_in
        have hine_c : i ≠ c := by
          intro hcon
          exact hnotmem (hcon ▸ List.mem_append.2 (Or.inr hc_in))
        have hine_ll : i ≠ llIdx := by
          intro hcon
          exact hnotmem (hcon ▸ List.mem_append.2 (Or.inr hll_in2))
        have hndr2 := hndr
        rw [AT.idxs, List.nodup_cons] at hndr2
        rcases hndr2 with ⟨hnotmem2, -⟩
        have hc_in_r2 : c ∈ r2.idxs := by
          rw [← hattach]
          exact attach_idx_in_right i2 l2 r2 hrs
        have hr_idx_ne_c : i2 ≠ c := by
          intro hcon
          exact hnotmem2 (hcon ▸ List.mem_append.2 (Or.inr hc_in_r2))
        have hr_idx_ne_ll : i2 ≠ llIdx := by
          intro hcon
          rw [← hcon] at hll_in
          exact hnotmem2 hll_in
        rw [addA_unsat nL nP i2 l2 r2 hrs]
        have hgoal := ihr hr hcan.2.1 hndr hrs hattach hctx
        rw [addA_unsat nL nP i2 l2 r2 hrs] at hgoal
        refine (reprB_node aNew i l (AT.node i2 l2 (addA nL nP r2))).2
          ⟨lt_of_lt_of_le hiOld hlen, ?_, ?_, hgoal, ?_, ?_, ?_, ?_, ?_, ?_⟩
        · rw [hother i hiOld hine_c hine_ll]
          exact hhi
        · refine reprB_frame aOld aNew l hl hndl hlen ?_ ?_
          · rw [hother l.idx (hboundL _ (AT.idx_mem_idxs l))
              (fun hcon => hdisj (AT.idx_mem_idxs l) (hcon ▸ hc_in))
              (fun hcon => hdisj (AT.idx_mem_idxs l) (hcon ▸ hll_in2))]
          · intro k hk hkne
            rw [hother k (hboundL k hk) (fun hcon => hdisj hk (hcon ▸ hc_in))
              (fun hcon => hdisj hk (hcon ▸ hll_in2))]
            exact structEq_refl _
        · rw [hother l.idx (hboundL _ (AT.idx_mem_idxs l))
            (fun hcon => hdisj (AT.idx_mem_idxs l) (hcon ▸ hc_in))
            (fun hcon => hdisj (AT.idx_mem_idxs l) (hcon ▸ hll_in2))]
          exact hpl
        · show (getN aNew (AT.node i2 l2 (addA nL nP r2)).idx).parent = some i
          rw [show (AT.node i2 l2 (addA nL nP r2)).idx = i2 from rfl]
          rw [hother i2 (hboundR i2 (List.mem_cons_self _ _)) hr_idx_ne_c hr_idx_ne_ll]
          exact hpr
        · rw [hother l.idx (hboundL _ (AT.idx_mem_idxs l))
            (fun hcon => hdisj (AT.idx_mem_idxs l) (hcon ▸ hc_in))
            (fun hcon => hdisj (AT.idx_mem_idxs l) (hcon ▸ hll_in2))]
          exact hsl
        · show (getN aNew (AT.node i2 l2 (addA nL nP r2)).idx).left = some l.idx
          rw [show (AT.node i2 l2 (addA nL nP r2)).idx = i2 from rfl]
          rw [hother i2 (hboundR i2 (List.mem_cons_self _ _)) hr_idx_ne_c hr_idx_ne_ll]
          exact hsr
        · rw [hother l.idx (hboundL _ (AT.idx_mem_idxs l))
            (fun hcon => hdisj (AT.idx_mem_idxs l) (hcon ▸ hc_in))
            (fun hcon => hdisj (AT.idx_mem_idxs l) (hcon ▸ hll_in2))]
          exact hlleft
        · show (getN aNew (AT.node i2 l2 (addA nL nP r2)).idx).right = none
          rw [show (AT.node i2 l2 (addA nL nP r2)).idx = i2 from rfl]
          rw [hother i2 (hboundR i2 (List.mem_cons_self _ _)) hr_idx_ne_c hr_idx_ne_ll]
          exact hrright

/-! ### `rehash` only writes hash fields -/

theorem rehash_succ (f : Nat → Nat → Nat) (a : List DynTreeNode) (i x y : Nat)
    (rp : Bool) (fuel : Nat) :
    rehash f a i x y rp (fuel + 1) =
      (let a1 := setN a i { getN a i with hash := f x y };
       let n := getN a1 i;
       if rp then
         match n.parent with
         | none => a1
         | some p =>
           match n.left with
           | some l => rehash f a1 p (getN a1 l).hash n.hash true fuel
           | none =>
             match n.right with
             | some r => rehash f a1 p n.hash (getN a1 r).hash true fuel
             | none => a1
       else a1) := rfl

theorem setN_length_ge (a : List DynTreeNode) (i : Nat) (v : DynTreeNode) :
    (setN a i v).length = a.length := length_setN a i v

theorem rehash_length (f : Nat → Nat → Nat) :
    ∀ (fuel : Nat) (a : List DynTreeNode) (i x y : Nat) (rp : Bool),
      (rehash f a i x y rp fuel).length = a.length := by
  intro fuel
  induction fuel with
  | zero => intro a i x y rp; rfl
  | succ fuel ih =>
    intro a i x y rp
    rw [rehash_succ]
    simp only
    rcases rp with _ | _
    · simp only [if_false, Bool.false_eq_true, length_setN]
    · simp only [if_true]
      rcases hp : (getN (setN a i { getN a i with hash := f x y }) i).parent with _ | p
      · simp only [length_setN]
      · rcases hl : (getN (setN a i { getN a i with hash := f x y }) i).left with _ | l
        · rcases hr : (getN (setN a i { getN a i with hash := f x y }) i).right with _ | r
          · simp only [length_setN]
          · rw [ih]; exact length_setN a i _
        · rw [ih]; exact length_setN a i _

theorem setN_hash_structEq (a : List DynTreeNode) (i h j : Nat) :
    structEq (getN (setN a i { getN a i with hash := h }) j) (getN a j) := by
  by_cases hij : i = j
  · subst hij
    by_cases hlt : i < a.length
    · rw [getN_setN_self _ _ _ hlt]
      exact ⟨rfl, rfl, rfl, rfl⟩
    · rw [getN_setN, if_neg (fun hcon => hlt hcon.2)]
      exact structEq_refl _
  · rw [getN_setN_ne _ _ _ _ hij]
    exact structEq_refl _

theorem rehash_structEq (f : Nat → Nat → Nat) :
    ∀ (fuel : Nat) (a : List DynTreeNode) (i x y : Nat) (rp : Bool) (j : Nat),
      structEq (getN (rehash f a i x y rp fuel) j) (getN a j) := by
  intro fuel
  induction fuel with
  | zero => intro a i x y rp j; exact structEq_refl _
  | succ fuel ih =>
    intro a i x y rp j
    rw [rehash_succ]
    simp only
    have hbase := setN_hash_structEq a i (f x y) j
    rcases rp with _ | _
    · simpa using hbase
    · simp only [if_true]
      rcases hp : (getN (setN a i { getN a i with hash := f x y }) i).parent with _ | p
      · exact hbase
      · rcases hl : (getN (setN a i { getN a i with hash := f x y }) i).left with _ | l
        · rcases hr : (getN (setN a i { getN a i with hash := f x y }) i).right with _ | r
          · exact hbase
          · exact structEq_trans (ih _ _ _ _ _ _) hbase
        · exact structEq_trans (ih _ _ _ _ _ _) hbase

theorem attach_idx_ne_root (s : AT) (hsat : s.saturatedb = false)
    (hnd : s.idxs.Nodup) : (attach s).idx ≠ s.idx := by
  cases s with
  | leaf i => simp [AT.saturatedb] at hsat
  | node i l r =>
    have hc_in : (attach (AT.node i l r)).idx ∈ r.idxs := attach_idx_in_right i l r hsat
    rw [AT.idxs, List.nodup_cons] at hnd
    intro hcon
    have hcon2 : (attach (AT.node i l r)).idx = i := hcon
    rw [hcon2] at hc_in
    exact hnd.1 (List.mem_append.2 (Or.inr hc_in))

theorem attachCtx_ll_ne_root (s : AT) (jP llIdx : Nat)
    (hctx : attachCtx s = some (jP, llIdx)) (hnd : s.idxs.Nodup) : llIdx ≠ s.idx := by
  rcases attachCtx_mem s jP llIdx hctx with ⟨-, i0, l0, r0, heq, hm⟩
  subst heq
  rw [AT.idxs, List.nodup_cons] at hnd
  intro hcon
  rw [hcon] at hm
  exact hnd.1 hm

theorem coverage_step (n0 : Nat) (s : AT) (hcov : s.idxs.Perm (List.range n0)) :
    (addA n0 (n0 + 1) s).idxs.Perm (List.range (n0 + 2)) := by
  refine (addA_idxs_perm n0 (n0 + 1) s).trans ?_
  have h1 : ((n0 + 1) :: n0 :: s.idxs).Perm ((n0 + 1) :: n0 :: List.range n0) :=
    List.Perm.cons _ (List.Perm.cons _ hcov)
  refine h1.trans ?_
  rw [show n0 + 2 = (n0 + 1) + 1 from rfl, List.range_succ, List.range_succ]
  have h3 : ([n0] ++ List.range n0).Perm (List.range n0 ++ [n0]) := List.perm_append_comm
  have h2 : ([n0 + 1] ++ (List.range n0 ++ [n0])).Perm ((List.range n0 ++ [n0]) ++ [n0 + 1]) :=
    List.perm_append_comm
  exact (List.Perm.cons _ h3).trans h2

/-- `Add` takes a well-formed tree for shape `s` to a well-formed tree for the
shape with the new leaf paired at the attach point, with the new leaf node at
index `t.nodes.length` and the new internal node at `t.nodes.length + 1`. -/
theorem wft_add (f : Nat → Nat → Nat) (x : Nat) {t : DynTree} {s : AT} (hw : WFT t s) :
    WFT (t.Add f x) (addA t.nodes.length (t.nodes.length + 1) s) := by
  obtain ⟨a4, hnodes, hlen4, hleaves, hroot, hheight, hpaused, hN, hP, hC, hLLs, hOther⟩ :=
    add_exec f x hw
  have hc_lt : (attach s).idx < t.nodes.length :=
    hw.idxs_lt _ (attach_idxs_subset s _ (AT.idx_mem_idxs _))
  have hlenF : (t.Add f x).nodes.length = t.nodes.length + 2 := by
    rw [hnodes]
    by_cases hp : t.paused = true
    · rw [if_pos hp]; exact hlen4
    · rw [if_neg hp, rehash_length]; exact hlen4
  have hstructF : ∀ j, structEq (getN (t.Add f x).nodes j) (getN a4 j) := by
    intro j
    rw [hnodes]
    by_cases hp : t.paused = true
    · rw [if_pos hp]; exact structEq_refl _
    · rw [if_neg hp]; exact rehash_structEq f _ a4 _ _ _ _ j
  have hcovF : (addA t.nodes.length (t.nodes.length + 1) s).idxs.Perm
      (List.range (t.Add f x).nodes.length) := by
    rw [hlenF]
    exact coverage_step t.nodes.length s hw.coverage
  have hndNew : (addA t.nodes.length (t.nodes.length + 1) s).idxs.Nodup :=
    hcovF.nodup_iff.2 (List.nodup_range _)
  have hrepr4 : ReprB a4 (addA t.nodes.length (t.nodes.length + 1) s) = true := by
    by_cases hsat : s.saturatedb = true
    · have hcs : attach s = s := attach_of_saturated s hsat
      rw [addA_sat _ _ _ hsat]
      rw [hcs] at hN hP hC hLLs hOther hc_lt
      refine (reprB_node a4 (t.nodes.length + 1) s (AT.leaf t.nodes.length)).2
        ⟨by omega, ?_, ?_, ?_, ?_, ?_, ?_, ?_, ?_, ?_⟩
      · rw [hP]
        show (getN t.nodes s.idx).height + 1 = s.ht + 1
        rw [reprB_ht t.nodes s hw.repr]
      · refine reprB_frame t.nodes a4 s hw.repr hw.nodupIdxs (by omega) ?_ ?_
        · rw [hC]
        · intro j hj hjne
          rw [hOther j (hw.idxs_lt _ hj) hjne (by rw [hw.rootLeft]; simp)]
          exact structEq_refl _
      · exact (reprB_leaf a4 t.nodes.length).2 ⟨by omega, by rw [hN]⟩
      · rw [hC]
      · show (getN a4 t.nodes.length).parent = some (t.nodes.length + 1)
        rw [hN]
      · show (getN a4 s.idx).right = some t.nodes.length
        rw [hC]
      · show (getN a4 t.nodes.length).left = some s.idx
        rw [hN]
      · rw [hC]
      · show (getN a4 t.nodes.length).right = none
        rw [hN]
    · simp only [Bool.not_eq_true] at hsat
      rcases attachCtx_isSome s hsat with ⟨jP, llIdx, hctx⟩
      rcases attach_context t.nodes s hw.repr hw.nodupIdxs hsat jP llIdx hctx with
        ⟨hocP, hocL, hocR, holP, holR, holL, hllnec, hllmem, hjPmem⟩
      refine reprB_addA_unsat t.nodes a4 t.nodes.length (t.nodes.length + 1)
        (attach s).idx llIdx jP
        (by rw [hC]) (by rw [hC]) (by rw [hC]) (by rw [hC])
        (by rw [hN]) (by rw [hN]) (by rw [hN]) (by rw [hN])
        (by rw [hP]; exact hocP) (by rw [hP]; exact hocL) (by rw [hP]) (by rw [hP])
        (by rw [hLLs llIdx hocL]) (by rw [hLLs llIdx hocL]) (by rw [hLLs llIdx hocL])
        (by rw [hLLs llIdx hocL])
        (by omega) (by omega) (by omega)
        ?_ s hw.repr hw.canon hw.nodupIdxs hsat rfl hctx
      intro k hk h1 h2
      refine hOther k hk h1 ?_
      rw [hocL]
      intro hcon
      exact h2 ((Option.some_inj.mp hcon).symm)
  have hreprF : ReprB (t.Add f x).nodes (addA t.nodes.length (t.nodes.length + 1) s) = true := by
    refine reprB_frame a4 (t.Add f x).nodes _ hrepr4 hndNew (by omega) ?_ ?_
    · exact (hstructF _).2.2.2
    · intro j hj hjne
      exact hstructF j
  refine ⟨hreprF, ?_, ?_, ?_, ?_, ?_, hcovF, addA_canon _ _ _ hw.canon, ?_⟩
  · -- root index
    by_cases hsat : s.saturatedb = true
    · rw [hroot, if_pos hsat, addA_sat _ _ _ hsat]
      rfl
    · simp only [Bool.not_eq_true] at hsat
      rw [hroot, if_neg (by rw [hsat]; exact Bool.false_ne_true), addA_idx_unsat _ _ _ hsat]
  · -- root parent
    by_cases hsat : s.saturatedb = true
    · have hidx : (addA t.nodes.length (t.nodes.length + 1) s).idx = t.nodes.length + 1 := by
        rw [addA_sat _ _ _ hsat]
        rfl
      rw [hidx, (hstructF _).2.2.1, hP, attach_of_saturated s hsat]
      exact hw.rootParent
    · simp only [Bool.not_eq_true] at hsat
      rcases attachCtx_isSome s hsat with ⟨jP, llIdx, hctx⟩
      rcases attach_context t.nodes s hw.repr hw.nodupIdxs hsat jP llIdx hctx with
        ⟨-, hocL, -⟩
      have hsne : s.idx ≠ (attach s).idx := Ne.symm (attach_idx_ne_root s hsat hw.nodupIdxs)
      have hllne : llIdx ≠ s.idx := attachCtx_ll_ne_root s jP llIdx hctx hw.nodupIdxs
      have heqo : getN a4 s.idx = getN t.nodes s.idx := by
        refine hOther s.idx (hw.idxs_lt _ (AT.idx_mem_idxs s)) hsne ?_
        rw [hocL]
        intro hcon
        exact hllne (Option.some_inj.mp hcon)
      rw [addA_idx_unsat _ _ _ hsat, (hstructF _).2.2.1, heqo]
      exact hw.rootParent
  · -- root left
    by_cases hsat : s.saturatedb = true
    · have hidx : (addA t.nodes.length (t.nodes.length + 1) s).idx = t.nodes.length + 1 := by
        rw [addA_sat _ _ _ hsat]
        rfl
      rw [hidx, (hstructF _).1, hP, attach_of_saturated s hsat]
      exact hw.rootLeft
    · simp only [Bool.not_eq_true] at hsat
      rcases attachCtx_isSome s hsat with ⟨jP, llIdx, hctx⟩
      rcases attach_context t.nodes s hw.repr hw.nodupIdxs hsat jP llIdx hctx with
        ⟨-, hocL, -⟩
      have hsne : s.idx ≠ (attach s).idx := Ne.symm (attach_idx_ne_root s hsat hw.nodupIdxs)
      have hllne : llIdx ≠ s.idx := attachCtx_ll_ne_root s jP llIdx hctx hw.nodupIdxs
      have heqo : getN a4 s.idx = getN t.nodes s.idx := by
        refine hOther s.idx (hw.idxs_lt _ (AT.idx_mem_idxs s)) hsne ?_
        rw [hocL]
        intro hcon
        exact hllne (Option.some_inj.mp hcon)
      rw [addA_idx_unsat _ _ _ hsat, (hstructF _).1, heqo]
      exact hw.rootLeft
  · -- root right
    by_cases hsat : s.saturatedb = true
    · have hidx : (addA t.nodes.length (t.nodes.length + 1) s).idx = t.nodes.length + 1 := by
        rw [addA_sat _ _ _ hsat]
        rfl
      rw [hidx, (hstructF _).2.1, hP]
    · simp only [Bool.not_eq_true] at hsat
      rcases attachCtx_isSome s hsat with ⟨jP, llIdx, hctx⟩
      rcases attach_context t.nodes s hw.repr hw.nodupIdxs hsat jP llIdx hctx with
        ⟨-, hocL, -⟩
      have hsne : s.idx ≠ (attach s).idx := Ne.symm (attach_idx_ne_root s hsat hw.nodupIdxs)
      have hllne : llIdx ≠ s.idx := attachCtx_ll_ne_root s jP llIdx hctx hw.nodupIdxs
      have heqo : getN a4 s.idx = getN t.nodes s.idx := by
        refine hOther s.idx (hw.idxs_lt _ (AT.idx_mem_idxs s)) hsne ?_
        rw [hocL]
        intro hcon
        exact hllne (Option.some_inj.mp hcon)
      rw [addA_idx_unsat _ _ _ hsat, (hstructF _).2.1, heqo]
      exact hw.rootRight
  · -- leaves
    rw [hleaves, hw.leavesEq, addA_leafIdxs]
  · -- height
    rw [hheight, addA_ht]

/-! ### Tree states reachable through the public operations -/

/-- States produced from `NewDynTree` by the mutating operations `Add`,
`Update`, `Pause` and `Resume` (with a fixed combine function `f`). -/
inductive Reachable (f : Nat → Nat → Nat) : DynTree → Prop
  | init (cap : Nat) : Reachable f (NewDynTree cap)
  | add {t : DynTree} (x : Nat) : Reachable f t → Reachable f (t.Add f x)
  | update {t t' : DynTree} (i x : Nat) : Reachable f t → t.Update f i x = some t' →
      Reachable f t'
  | pause {t : DynTree} : Reachable f t → Reachable f t.Pause
  | resume {t : DynTree} : Reachable f t → Reachable f (t.Resume f)

theorem wft_add_empty (f : Nat → Nat → Nat) (x : Nat) {t : DynTree}
    (h : EmptyState t) : WFT (t.Add f x) (AT.leaf 0) := by
  obtain ⟨hn, hr, hl, hh⟩ := h
  have hadd : t.Add f x =
      { nodes := [{ hash := x, left := none, right := none, parent := none, height := 0 }],
        root := some 0, leaves := [0], height := 0, paused := t.paused } := by
    simp [DynTree.Add, hn, hr, hl, hh]
  refine ⟨?_, ?_, ?_, ?_, ?_, ?_, ?_, rfl, ?_⟩
  · rw [hadd]
    exact (reprB_leaf _ 0).2 ⟨by simp, rfl⟩
  · rw [hadd]
    rfl
  · rw [hadd]
    rfl
  · rw [hadd]
    rfl
  · rw [hadd]
    rfl
  · rw [hadd]
    rfl
  · rw [hadd]
    show [0].Perm (List.range 1)
    decide
  · rw [hadd]
    rfl

/-- `Update` only rewrites hash fields: structure, root, leaves, height and
pause flag are untouched. -/
theorem update_struct (f : Nat → Nat → Nat) (i x : Nat) {t t' : DynTree}
    (hu : t.Update f i x = some t') :
    t'.nodes.length = t.nodes.length ∧ (∀ j, structEq (getN t'.nodes j) (getN t.nodes j)) ∧
    t'.root = t.root ∧ t'.leaves = t.leaves ∧ t'.height = t.height ∧ t'.paused = t.paused := by
  rw [DynTree.Update] at hu
  by_cases hlt : i < t.leaves.length
  · rw [if_pos hlt, Option.some_inj] at hu
    subst hu
    refine ⟨?_, ?_, rfl, rfl, rfl, rfl⟩
    · show (if t.paused then _ else _ : List DynTreeNode).length = _
      by_cases hp : t.paused
      · rw [if_pos hp]
        exact length_setN _ _ _
      · rw [if_neg hp]
        rcases (getN (setN t.nodes (t.leaves.getD i 0)
            { getN t.nodes (t.leaves.getD i 0) with hash := x }) (t.leaves.getD i 0)).left with _ | l
        · rcases (getN (setN t.nodes (t.leaves.getD i 0)
              { getN t.nodes (t.leaves.getD i 0) with hash := x }) (t.leaves.getD i 0)).right with _ | r
          · exact length_setN _ _ _
          · rcases (getN (setN t.nodes (t.leaves.getD i 0)
                { getN t.nodes (t.leaves.getD i 0) with hash := x }) (t.leaves.getD i 0)).parent with _ | p
            · exact length_setN _ _ _
            · rw [rehash_length]
              exact length_setN _ _ _
        · rcases (getN (setN t.nodes (t.leaves.getD i 0)
              { getN t.nodes (t.leaves.getD i 0) with hash := x }) (t.leaves.getD i 0)).parent with _ | p
          · exact length_setN _ _ _
          · rw [rehash_length]
            exact length_setN _ _ _
    · intro j
      show structEq (getN (if t.paused then _ else _ : List DynTreeNode) j) _
      by_cases hp : t.paused
      · rw [if_pos hp]
        exact setN_hash_structEq _ _ _ j
      · rw [if_neg hp]
        rcases (getN (setN t.nodes (t.leaves.getD i 0)
            { getN t.nodes (t.leaves.getD i 0) with hash := x }) (t.leaves.getD i 0)).left with _ | l
        · rcases (getN (setN t.nodes (t.leaves.getD i 0)
              { getN t.nodes (t.leaves.getD i 0) with hash := x }) (t.leaves.getD i 0)).right with _ | r
          · exact setN_hash_structEq _ _ _ j
          · rcases (getN (setN t.nodes (t.leaves.getD i 0)
                { getN t.nodes (t.leaves.getD i 0) with hash := x }) (t.leaves.getD i 0)).parent with _ | p
            · exact setN_hash_structEq _ _ _ j
            · exact structEq_trans (rehash_structEq f _ _ _ _ _ _ j) (setN_hash_structEq _ _ _ j)
        · rcases (getN (setN t.nodes (t.leaves.getD i 0)
              { getN t.nodes (t.leaves.getD i 0) with hash := x }) (t.leaves.getD i 0)).parent with _ | p
          · exact setN_hash_structEq _ _ _ j
          · exact structEq_trans (rehash_structEq f _ _ _ _ _ _ j) (setN_hash_structEq _ _ _ j)
  · rw [if_neg hlt] at hu
    exact absurd hu (by simp)

theorem recomputeLevel_length (f : Nat → Nat → Nat) (height : Nat) :
    ∀ (rows : List Nat) (a : List DynTreeNode),
      (recomputeLevel f a height rows).1.length = a.length := by
  intro rows
  induction rows with
  | nil => intro a; rfl
  | cons x rest ih =>
    intro a
    rw [recomputeLevel]
    rcases (getN a x).parent with _ | p
    · exact ih a
    · dsimp only
      by_cases hh : (getN a p).height = height + 1
      · rw [if_pos hh]
        dsimp only
        rw [ih, rehash_length]
      · rw [if_neg hh]
        exact ih a

theorem recomputeLevel_structEq (f : Nat → Nat → Nat) (height : Nat) :
    ∀ (rows : List Nat) (a : List DynTreeNode) (j : Nat),
      structEq (getN (recomputeLevel f a height rows).1 j) (getN a j) := by
  intro rows
  induction rows with
  | nil => intro a j; exact structEq_refl _
  | cons x rest ih =>
    intro a j
    rw [recomputeLevel]
    rcases (getN a x).parent with _ | p
    · exact ih a j
    · dsimp only
      by_cases hh : (getN a p).height = height + 1
      · rw [if_pos hh]
        dsimp only
        exact structEq_trans (ih _ j) (rehash_structEq f _ _ _ _ _ _ j)
      · rw [if_neg hh]
        exact ih a j

theorem recomputeLoop_length (f : Nat → Nat → Nat) :
    ∀ (fuel : Nat) (a : List DynTreeNode) (rows : List Nat),
      (recomputeLoop f a rows fuel).length = a.length := by
  intro fuel
  induction fuel with
  | zero => intro a rows; rfl
  | succ fuel ih =>
    intro a rows
    rcases rows with _ | ⟨r, rest⟩
    · rfl
    · rw [recomputeLoop]
      rw [ih, recomputeLevel_length]

theorem recomputeLoop_structEq (f : Nat → Nat → Nat) :
    ∀ (fuel : Nat) (a : List DynTreeNode) (rows : List Nat) (j : Nat),
      structEq (getN (recomputeLoop f a rows fuel) j) (getN a j) := by
  intro fuel
  induction fuel with
  | zero => intro a rows j; exact structEq_refl _
  | succ fuel ih =>
    intro a rows j
    rcases rows with _ | ⟨r, rest⟩
    · exact structEq_refl _
    · rw [recomputeLoop]
      exact structEq_trans (ih _ _ j) (recomputeLevel_structEq f _ _ _ j)

theorem resume_struct (f : Nat → Nat → Nat) (t : DynTree) :
    (t.Resume f).nodes.length = t.nodes.length ∧
    (∀ j, structEq (getN (t.Resume f).nodes j) (getN t.nodes j)) ∧
    (t.Resume f).root = t.root ∧ (t.Resume f).leaves = t.leaves ∧
    (t.Resume f).height = t.height ∧ (t.Resume f).paused = false :=
  ⟨recomputeLoop_length f _ _ _, fun j => recomputeLoop_structEq f _ _ _ j, rfl, rfl, rfl, rfl⟩

/-- Transfer of the whole-tree invariant along a structure-preserving change
of the arena's hash fields (and arbitrary change of the pause flag). -/
theorem shaped_of_struct {t t' : DynTree} (hs : Shaped t)
    (hlen : t'.nodes.length = t.nodes.length)
    (hst : ∀ j, structEq (getN t'.nodes j) (getN t.nodes j))
    (hroot : t'.root = t.root) (hleaves : t'.leaves = t.leaves)
    (hheight : t'.height = t.height) : Shaped t' := by
  rcases hs with he | ⟨s, hw⟩
  · left
    refine ⟨List.length_eq_zero.1 (by rw [hlen, he.1]; rfl), by rw [hroot]; exact he.2.1,
      by rw [hleaves]; exact he.2.2.1, by rw [hheight]; exact he.2.2.2⟩
  · right
    refine ⟨s, ?_, ?_, ?_, ?_, ?_, ?_, ?_, hw.canon, ?_⟩
    · exact reprB_frame t.nodes t'.nodes s hw.repr hw.nodupIdxs (by omega)
        ((hst s.idx).2.2.2) (fun j _ _ => hst j)
    · rw [hroot]; exact hw.rootIdx
    · rw [(hst s.idx).2.2.1]; exact hw.rootParent
    · rw [(hst s.idx).1]; exact hw.rootLeft
    · rw [(hst s.idx).2.1]; exact hw.rootRight
    · rw [hleaves]; exact hw.leavesEq
    · rw [hlen]; exact hw.coverage
    · rw [hheight]; exact hw.heightEq

/-- Every reachable tree is either still empty or stores a canonical shape. -/
theorem shaped_reachable (f : Nat → Nat → Nat) {t : DynTree} (h : Reachable f t) :
    Shaped t := by
  induction h with
  | init cap => exact Or.inl ⟨rfl, rfl, rfl, rfl⟩
  | add x hr ih =>
    rcases ih with he | ⟨s, hw⟩
    · exact Or.inr ⟨AT.leaf 0, wft_add_empty f x he⟩
    · exact Or.inr ⟨_, wft_add f x hw⟩
  | update i x hr hu ih =>
    obtain ⟨hlen, hst, hroot, hleaves, hheight, hpaused⟩ := update_struct f i x hu
    exact shaped_of_struct ih hlen hst hroot hleaves hheight
  | pause hr ih =>
    exact shaped_of_struct ih rfl (fun j => structEq_refl _) rfl rfl rfl
  | resume hr ih =>
    obtain ⟨hlen, hst, hroot, hleaves, hheight, hpaused⟩ := resume_struct f _
    exact shaped_of_struct ih hlen hst hroot hleaves hheight

/-! ### C5, C10 and the amended C4: pointer invariants of reachable states -/

theorem AT.perfect_canon (s : AT) (h : s.perfectb = true) : s.canonb = true := by
  induction s with
  | leaf i => rfl
  | node i l r ihl ihr =>
    obtain ⟨hl, hr, hht⟩ := (perfectb_node i l r).1 h
    exact (canonb_node i l r).2 ⟨hl, ihr hr, le_of_eq hht⟩

/-- Inside a represented shape, every non-root member has at most one sibling
pointer set. -/
theorem reprB_excl (a : List DynTreeNode) (s : AT) :
    ReprB a s = true → ∀ j ∈ s.idxs, j ≠ s.idx →
      (getN a j).left = none ∨ (getN a j).right = none := by
  induction s with
  | leaf i =>
    intro _ j hj hne
    rw [AT.idxs, List.mem_singleton] at hj
    exact absurd hj hne
  | node i l r ihl ihr =>
    intro h j hj hne
    obtain ⟨-, -, hl, hr, hpl, hpr, hlr, hrl, hll, hrr⟩ := (reprB_node a i l r).1 h
    rw [AT.idxs, List.mem_cons] at hj
    rcases hj with rfl | hj2
    · exact absurd rfl hne
    rcases List.mem_append.1 hj2 with hjl | hjr
    · by_cases hje : j = l.idx
      · subst hje
        exact Or.inl hll
      · exact ihl hl j hjl hje
    · by_cases hje : j = r.idx
      · subst hje
        exact Or.inr hrr
      · exact ihr hr j hjr hje

/-- **C5.** In every reachable tree state, every node has at most one of the
two sibling pointers set (`left`, the pointer to a left sibling when the node
is a right child, or `right`, the pointer to a right sibling when it is a
left child) and the root has both absent; `Add`'s fix-up, which retargets the
former left neighbor to the new parent and clears the candidate's left
pointer, preserves this exclusivity. -/
theorem c5_sibling_exclusivity (f : Nat → Nat → Nat) {t : DynTree} (h : Reachable f t) :
    (∀ j < t.nodes.length, (getN t.nodes j).left = none ∨ (getN t.nodes j).right = none) ∧
    (∀ ri, t.root = some ri →
      (getN t.nodes ri).left = none ∧ (getN t.nodes ri).right = none) := by
  rcases shaped_reachable f h with he | ⟨s, hw⟩
  · constructor
    · intro j hj
      rw [he.1] at hj
      exact absurd hj (by simp)
    · intro ri hri
      rw [he.2.1] at hri
      exact absurd hri (by simp)
  · constructor
    · intro j hj
      have hjm : j ∈ s.idxs := hw.coverage.mem_iff.2 (List.mem_range.2 hj)
      by_cases hje : j = s.idx
      · subst hje
        exact Or.inl hw.rootLeft
      · exact reprB_excl t.nodes s hw.repr j hjm hje
    · intro ri hri
      have hri2 : ri = s.idx := Option.some_inj.mp (hri.symm.trans hw.rootIdx)
      subst hri2
      exact ⟨hw.rootLeft, hw.rootRight⟩

theorem c5_sibling_exclusivity_witness :
    (∀ j < (demoTree [1, 2, 3]).nodes.length,
        (getN (demoTree [1, 2, 3]).nodes j).left = none ∨
        (getN (demoTree [1, 2, 3]).nodes j).right = none) ∧
    (∀ ri, (demoTree [1, 2, 3]).root = some ri →
        (getN (demoTree [1, 2, 3]).nodes ri).left = none ∧
        (getN (demoTree [1, 2, 3]).nodes ri).right = none) :=
  c5_sibling_exclusivity combineDemo
    (Reachable.add 3 (Reachable.add 2 (Reachable.add 1 (Reachable.init 4))))

/-- **C10.** `Root` has the precondition that a leaf was added: with zero
leaves the root pointer is absent and dereferencing it has no defined result
(`none`, not a sentinel digest), while with at least one leaf it returns the
root node's stored hash. -/
theorem c10_root_precondition (f : Nat → Nat → Nat) {t : DynTree} (h : Reachable f t) :
    (t.LeavesLen = 0 → t.Root = none) ∧
    (1 ≤ t.LeavesLen → ∃ ri, t.root = some ri ∧ t.Root = some (getN t.nodes ri).hash) := by
  rcases shaped_reachable f h with he | ⟨s, hw⟩
  · constructor
    · intro _
      rw [DynTree.Root, he.2.1]
      rfl
    · intro hge
      rw [DynTree.LeavesLen, he.2.2.1] at hge
      exact absurd hge (by simp)
  · constructor
    · intro h0
      rw [DynTree.LeavesLen, hw.leavesEq] at h0
      exact absurd (List.length_eq_zero.1 h0) (AT.leafIdxs_ne_nil s)
    · intro _
      exact ⟨s.idx, hw.rootIdx, by rw [DynTree.Root, hw.rootIdx]; rfl⟩

theorem c10_root_precondition_witness :
    ((demoTree [4]).LeavesLen = 0 → (demoTree [4]).Root = none) ∧
    (1 ≤ (demoTree [4]).LeavesLen → ∃ ri, (demoTree [4]).root = some ri ∧
        (demoTree [4]).Root = some (getN (demoTree [4]).nodes ri).hash) :=
  c10_root_precondition combineDemo (Reachable.add 4 (Reachable.init 4))

/-- Inside a represented canonical shape, a non-root member's parent sits one
level above the left-position child of the pair, and the right-position child
is at most as tall as the left one. -/
theorem reprB_heights (a : List DynTreeNode) (s : AT) :
    ReprB a s = true → s.canonb = true →
    ∀ j ∈ s.idxs, j ≠ s.idx → ∀ p, (getN a j).parent = some p →
      ((∀ rs, (getN a j).right = some rs →
          (getN a p).height = (getN a j).height + 1 ∧
          (getN a rs).height ≤ (getN a j).height) ∧
       (∀ ls, (getN a j).left = some ls →
          (getN a p).height = (getN a ls).height + 1 ∧
          (getN a j).height ≤ (getN a ls).height)) := by
  induction s with
  | leaf i =>
    intro _ _ j hj hne
    rw [AT.idxs, List.mem_singleton] at hj
    exact absurd hj hne
  | node i l r ihl ihr =>
    intro h hcan j hj hne p hp
    obtain ⟨-, hht, hl, hr, hpl, hpr, hlr, hrl, hll, hrr⟩ := (reprB_node a i l r).1 h
    obtain ⟨hlp, hrc, hle⟩ := (canonb_node i l r).1 hcan
    rw [AT.idxs, List.mem_cons] at hj
    rcases hj with rfl | hj2
    · exact absurd rfl hne
    rcases List.mem_append.1 hj2 with hjl | hjr
    · by_cases hje : j = l.idx
      · subst hje
        have hpi : p = i := Option.some_inj.mp (hp.symm.trans hpl)
        subst hpi
        constructor
        · intro rs hrs
          rw [hlr, Option.some_inj] at hrs
          subst hrs
          constructor
          · rw [hht, reprB_ht a l hl]
          · rw [reprB_ht a r hr, reprB_ht a l hl]
            exact hle
        · intro ls hls
          rw [hll] at hls
          exact absurd hls (by simp)
      · exact ihl hl (AT.perfect_canon l hlp) j hjl hje p hp
    · by_cases hje : j = r.idx
      · subst hje
        have hpi : p = i := Option.some_inj.mp (hp.symm.trans hpr)
        subst hpi
        constructor
        · intro rs hrs
          rw [hrr] at hrs
          exact absurd hrs (by simp)
        · intro ls hls
          rw [hrl, Option.some_inj] at hls
          subst hls
          constructor
          · rw [hht, reprB_ht a l hl]
          · rw [reprB_ht a r hr, reprB_ht a l hl]
            exact hle
      · exact ihr hr hrc j hjr hje p hp

/-- **C4 (amended).** In every reachable tree state, an internal node sits
exactly one level above the child in left position and at least one level
above the child in right position: whenever node `j` has a parent `p`, if `j`
carries a right-sibling pointer (it is the left child) then `p`'s height is
`j`'s height plus one and the right sibling is at most as tall as `j`, and if
`j` carries a left-sibling pointer (it is the right child) then `p`'s height
is the left sibling's height plus one and `j` is at most as tall as the left
sibling; the two children need not share a height. -/
theorem c4_amended_height_invariant (f : Nat → Nat → Nat) {t : DynTree}
    (h : Reachable f t) :
    ∀ j < t.nodes.length, ∀ p, (getN t.nodes j).parent = some p →
      ((∀ rs, (getN t.nodes j).right = some rs →
          (getN t.nodes p).height = (getN t.nodes j).height + 1 ∧
          (getN t.nodes rs).height ≤ (getN t.nodes j).height) ∧
       (∀ ls, (getN t.nodes j).left = some ls →
          (getN t.nodes p).height = (getN t.nodes ls).height + 1 ∧
          (getN t.nodes j).height ≤ (getN t.nodes ls).height)) := by
  intro j hj p hp
  rcases shaped_reachable f h with he | ⟨s, hw⟩
  · rw [he.1] at hj
    exact absurd hj (by simp)
  · have hjm : j ∈ s.idxs := hw.coverage.mem_iff.2 (List.mem_range.2 hj)
    by_cases hje : j = s.idx
    · subst hje
      rw [hw.rootParent] at hp
      exact absurd hp (by simp)
    · exact reprB_heights t.nodes s hw.repr hw.canon j hjm hje p hp

theorem c4_amended_height_invariant_witness :
    2 < (demoTree [1, 2, 3]).nodes.length ∧
    (getN (demoTree [1, 2, 3]).nodes 2).parent = some 4 ∧
    ((∀ rs, (getN (demoTree [1, 2, 3]).nodes 2).right = some rs →
        (getN (demoTree [1, 2, 3]).nodes 4).height =
          (getN (demoTree [1, 2, 3]).nodes 2).height + 1 ∧
        (getN (demoTree [1, 2, 3]).nodes rs).height ≤
          (getN (demoTree [1, 2, 3]).nodes 2).height) ∧
     (∀ ls, (getN (demoTree [1, 2, 3]).nodes 2).left = some ls →
        (getN (demoTree [1, 2, 3]).nodes 4).height =
          (getN (demoTree [1, 2, 3]).nodes ls).height + 1 ∧
        (getN (demoTree [1, 2, 3]).nodes 2).height ≤
          (getN (demoTree [1, 2, 3]).nodes ls).height)) :=
  ⟨by decide, by decide,
    c4_amended_height_invariant combineDemo
      (Reachable.add 3 (Reachable.add 2 (Reachable.add 1 (Reachable.init 4)))) 2 (by decide) 4
      (by decide)⟩

/-! ### The parent chain written by a recursive `rehash` -/

/-- The parent-pointer chain upward from `i` through `rest`, with the sibling
needed at each step pointing outside the written set `full`. -/
def ChainHypUp (a : List DynTreeNode) (full : List Nat) : Nat → List Nat → Prop
  | _, [] => True
  | i, p :: rest => (getN a i).parent = some p ∧
      ((∃ l, (getN a i).left = some l ∧ l ∉ full) ∨
       ((getN a i).left = none ∧ ∃ r, (getN a i).right = some r ∧ r ∉ full)) ∧
      ChainHypUp a full p rest

/-- After the chain has been rewritten: every step's node hash is the combine
of the sibling pair below it, oriented by the climbing node's sibling
pointer, all read in the final arena. -/
def ChainConc (f : Nat → Nat → Nat) (b : List DynTreeNode) : Nat → List Nat → Prop
  | _, [] => True
  | c, p :: rest =>
      ((∀ l, (getN b c).left = some l →
          (getN b p).hash = f (getN b l).hash (getN b c).hash) ∧
       ((getN b c).left = none → ∀ r, (getN b c).right = some r →
          (getN b p).hash = f (getN b c).hash (getN b r).hash)) ∧
      ChainConc f b p rest

theorem chainHypUp_mono (a : List DynTreeNode) (full1 full2 : List Nat)
    (h12 : ∀ x, x ∈ full2 → x ∈ full1) :
    ∀ (rest : List Nat) (c : Nat), ChainHypUp a full1 c rest → ChainHypUp a full2 c rest := by
  intro rest
  induction rest with
  | nil => intro c _; trivial
  | cons p rest ih =>
    intro c h
    obtain ⟨hp, hsib, hrest⟩ := h
    refine ⟨hp, ?_, ih p hrest⟩
    rcases hsib with ⟨l, hl, hln⟩ | ⟨h0, r, hr, hrn⟩
    · exact Or.inl ⟨l, hl, fun hm => hln (h12 l hm)⟩
    · exact Or.inr ⟨h0, r, hr, fun hm => hrn (h12 r hm)⟩

theorem chainHypUp_transfer (a1 a2 : List DynTreeNode) (full : List Nat)
    (hst : ∀ j, structEq (getN a2 j) (getN a1 j)) :
    ∀ (rest : List Nat) (c : Nat), ChainHypUp a1 full c rest → ChainHypUp a2 full c rest := by
  intro rest
  induction rest with
  | nil => intro c _; trivial
  | cons p rest ih =>
    intro c h
    obtain ⟨hp, hsib, hrest⟩ := h
    refine ⟨by rw [(hst c).2.2.1]; exact hp, ?_, ih p hrest⟩
    rcases hsib with ⟨l, hl, hln⟩ | ⟨h0, r, hr, hrn⟩
    · exact Or.inl ⟨l, by rw [(hst c).1]; exact hl, hln⟩
    · exact Or.inr ⟨by rw [(hst c).1]; exact h0, r, by rw [(hst c).2.1]; exact hr, hrn⟩

/-- Frame, head write and chain-step conclusions of one recursive `rehash`
call along a parent chain that ends at a parentless node. -/
theorem rehash_chain (f : Nat → Nat → Nat) :
    ∀ (rest : List Nat) (fuel : Nat) (a : List DynTreeNode) (i x y : Nat),
      ChainHypUp a (i :: rest) i rest →
      (getN a (rest.getLastD i)).parent = none →
      (i :: rest).Nodup →
      (∀ c ∈ i :: rest, c < a.length) →
      rest.length < fuel →
      (∀ j, j ∉ i :: rest → getN (rehash f a i x y true fuel) j = getN a j) ∧
      (getN (rehash f a i x y true fuel) i).hash = f x y ∧
      ChainConc f (rehash f a i x y true fuel) i rest := by
  intro rest
  induction rest with
  | nil =>
    intro fuel a i x y hup hlast hnd hlen hfuel
    rcases fuel with _ | fuel
    · omega
    have hi_lt : i < a.length := hlen i (List.mem_singleton.2 rfl)
    have hp1 : (getN (setN a i { getN a i with hash := f x y }) i).parent = none := by
      rw [(setN_hash_structEq a i (f x y) i).2.2.1]
      exact hlast
    rw [rehash_succ, if_pos rfl]
    rw [hp1]
    refine ⟨?_, ?_, trivial⟩
    · intro j hj
      exact getN_setN_ne a i j _ (fun hij => hj (hij ▸ List.mem_singleton.2 rfl))
    · rw [getN_setN_self a i _ hi_lt]
  | cons p rest ih =>
    intro fuel a i x y hup hlast hnd hlen hfuel
    rcases fuel with _ | fuel
    · simp at hfuel
    obtain ⟨hpar, hsib, hup'⟩ := hup
    have hi_lt : i < a.length := hlen i (by simp)
    have hi_notin : i ∉ p :: rest := by
      rw [List.nodup_cons] at hnd
      exact hnd.1
    have hst1 : ∀ j, structEq (getN (setN a i { getN a i with hash := f x y }) j) (getN a j) :=
      fun j => setN_hash_structEq a i (f x y) j
    have hp1 : (getN (setN a i { getN a i with hash := f x y }) i).parent = some p := by
      rw [(hst1 i).2.2.1]
      exact hpar
    have hup1 : ChainHypUp (setN a i { getN a i with hash := f x y }) (p :: rest) p rest :=
      chainHypUp_transfer a _ _ hst1 rest p
        (chainHypUp_mono a (i :: p :: rest) (p :: rest) (fun x hx => List.mem_cons_of_mem i hx)
          rest p hup')
    have hlast1 : (getN (setN a i { getN a i with hash := f x y }) (rest.getLastD p)).parent
        = none := by
      rw [(hst1 _).2.2.1]
      rw [List.getLastD_cons] at hlast
      exact hlast
    have hnd1 : (p :: rest).Nodup := (List.nodup_cons.1 hnd).2
    have hlen1 : ∀ c ∈ p :: rest, c < (setN a i { getN a i with hash := f x y }).length := by
      intro c hc
      rw [length_setN]
      exact hlen c (List.mem_cons_of_mem i hc)
    have hfuel1 : rest.length < fuel := by
      simp at hfuel
      omega
    have hhead1 : (getN (setN a i { getN a i with hash := f x y }) i).hash = f x y := by
      rw [getN_setN_self a i _ hi_lt]
    rcases hsib with ⟨l, hl, hln⟩ | ⟨h0, r, hr, hrn⟩
    · -- the climbing node is a right child: pair (sibling, node)
      have hl1 : (getN (setN a i { getN a i with hash := f x y }) i).left = some l := by
        rw [(hst1 i).1]
        exact hl
      rw [rehash_succ, if_pos rfl, hp1, hl1]
      obtain ⟨hframe, hhead, hconc⟩ := ih fuel _ p _ _ hup1 hlast1 hnd1 hlen1 hfuel1
      have hbi : getN (rehash f (setN a i { getN a i with hash := f x y }) p
          (getN (setN a i { getN a i with hash := f x y }) l).hash
          (getN (setN a i { getN a i with hash := f x y }) i).hash true fuel) i
          = getN (setN a i { getN a i with hash := f x y }) i := hframe i hi_notin
      have hl_notin : l ∉ p :: rest := fun hm => hln (List.mem_cons_of_mem i hm)
      have hbl := hframe l hl_notin
      refine ⟨?_, ?_, ?_, hconc⟩
      · intro j hj
        rw [List.mem_cons, not_or] at hj
        rw [hframe j hj.2]
        exact getN_setN_ne a i j _ (fun hij => hj.1 hij.symm)
      · rw [hbi, hhead1]
      · constructor
        · intro l' hl'
          rw [hbi, hl1, Option.some_inj] at hl'
          subst hl'
          rw [hhead, hbi, hbl]
        · intro hnonel
          rw [hbi, hl1] at hnonel
          exact absurd hnonel (by simp)
    · -- the climbing node is a left child: pair (node, right sibling)
      have hl1 : (getN (setN a i { getN a i with hash := f x y }) i).left = none := by
        rw [(hst1 i).1]
        exact h0
      have hr1 : (getN (setN a i { getN a i with hash := f x y }) i).right = some r := by
        rw [(hst1 i).2.1]
        exact hr
      rw [rehash_succ, if_pos rfl, hp1, hl1, hr1]
      obtain ⟨hframe, hhead, hconc⟩ := ih fuel _ p _ _ hup1 hlast1 hnd1 hlen1 hfuel1
      have hbi : getN (rehash f (setN a i { getN a i with hash := f x y }) p
          (getN (setN a i { getN a i with hash := f x y }) i).hash
          (getN (setN a i { getN a i with hash := f x y }) r).hash true fuel) i
          = getN (setN a i { getN a i with hash := f x y }) i := hframe i hi_notin
      have hr_notin : r ∉ p :: rest := fun hm => hrn (List.mem_cons_of_mem i hm)
      have hbr := hframe r hr_notin
      refine ⟨?_, ?_, ?_, hconc⟩
      · intro j hj
        rw [List.mem_cons, not_or] at hj
        rw [hframe j hj.2]
        exact getN_setN_ne a i j _ (fun hij => hj.1 hij.symm)
      · rw [hbi, hhead1]
      · constructor
        · intro l' hl'
          rw [hbi, hl1] at hl'
          exact absurd hl' (by simp)
        · intro _ r' hr'
          rw [hbi, hr1, Option.some_inj] at hr'
          subst hr'
          rw [hhead, hbi, hbr]

/-! ### Ancestor chains of a member inside a represented shape -/

/-- `AncOf s j A`: `j` is the root index of a subtree of `s` and `A` lists
the arena indices of its proper ancestors, innermost first. -/
inductive AncOf : AT → Nat → List Nat → Prop
  | root (s : AT) : AncOf s s.idx []
  | inl (i : Nat) (l r : AT) (j : Nat) (A : List Nat) :
      AncOf l j A → AncOf (.node i l r) j (A ++ [i])
  | inr (i : Nat) (l r : AT) (j : Nat) (A : List Nat) :
      AncOf r j A → AncOf (.node i l r) j (A ++ [i])

theorem nodup_node_parts {i : Nat} {l r : AT} (h : (AT.node i l r).idxs.Nodup) :
    l.idxs.Nodup ∧ r.idxs.Nodup ∧ (∀ x ∈ l.idxs, x ∉ r.idxs) ∧ i ∉ l.idxs ∧ i ∉ r.idxs := by
  rw [AT.idxs, List.nodup_cons, List.nodup_append] at h
  obtain ⟨hi, hl, hr, hdisj⟩ := h
  exact ⟨hl, hr, hdisj, fun hm => hi (List.mem_append.2 (Or.inl hm)),
    fun hm => hi (List.mem_append.2 (Or.inr hm))⟩

theorem chainHypUp_append (a : List DynTreeNode) (full : List Nat) (i : Nat) :
    ∀ (A : List Nat) (j : Nat), ChainHypUp a full j A →
      (getN a (A.getLastD j)).parent = some i →
      ((∃ l, (getN a (A.getLastD j)).left = some l ∧ l ∉ full) ∨
       ((getN a (A.getLastD j)).left = none ∧
        ∃ r, (getN a (A.getLastD j)).right = some r ∧ r ∉ full)) →
      ChainHypUp a full j (A ++ [i]) := by
  intro A
  induction A with
  | nil =>
    intro j _ hp hsib
    exact ⟨hp, hsib, trivial⟩
  | cons p A ih =>
    intro j h hp hsib
    obtain ⟨hjp, hjsib, hrest⟩ := h
    rw [List.getLastD_cons] at hp hsib
    exact ⟨hjp, hjsib, ih p hrest hp hsib⟩

/-- A member's ancestor chain satisfies the rehash chain hypotheses: parent
pointers climb it, and each step's sibling lies outside any set that meets
the shape only inside the chain. -/
theorem chainHypUp_ofAnc (a : List DynTreeNode) {s : AT} {j : Nat} {A : List Nat}
    (h : AncOf s j A) :
    ReprB a s = true → s.idxs.Nodup →
    ∀ full : List Nat, (∀ x ∈ full, x ∈ j :: A ∨ x ∉ s.idxs) →
    ChainHypUp a full j A ∧ A.getLastD j = s.idx ∧ (∀ c ∈ j :: A, c ∈ s.idxs) ∧
      (j :: A).Nodup := by
  induction h with
  | root s =>
    intro hrep hnd full hfull
    refine ⟨trivial, rfl, ?_, List.nodup_singleton _⟩
    intro c hc
    rw [List.mem_singleton] at hc
    rw [hc]
    exact AT.idx_mem_idxs s
  | inl i l r j A hAnc ih =>
    intro hrep hnd full hfull
    obtain ⟨-, -, hl, hr, hpl, hpr, hlr, hrl, hll, hrr⟩ := (reprB_node a i l r).1 hrep
    obtain ⟨hndl, hndr, hdisj, hil, hir⟩ := nodup_node_parts hnd
    have hfull' : ∀ x ∈ full, x ∈ j :: A ∨ x ∉ l.idxs := by
      intro x hx
      rcases hfull x hx with hx1 | hx2
      · rw [List.mem_cons] at hx1
        rcases hx1 with rfl | hx1
        · exact Or.inl (List.mem_cons_self _ _)
        · rw [List.mem_append] at hx1
          rcases hx1 with hx1 | hx1
          · exact Or.inl (List.mem_cons_of_mem _ hx1)
          · rw [List.mem_singleton] at hx1
            subst hx1
            exact Or.inr hil
      · refine Or.inr (fun hm => hx2 ?_)
        rw [AT.idxs]
        exact List.mem_cons_of_mem _ (List.mem_append.2 (Or.inl hm))
    obtain ⟨hup, hlastA, hmem, hndc⟩ := ih hl hndl full hfull'
    have hrnot : r.idx ∉ full := by
      intro hm
      rcases hfull _ hm with h1 | h2
      · rw [List.mem_cons] at h1
        rcases h1 with h1 | h1
        · exact hdisj j (hmem j (List.mem_cons_self _ _)) (by rw [← h1]; exact AT.idx_mem_idxs r)
        · rw [List.mem_append] at h1
          rcases h1 with h1 | h1
          · exact hdisj r.idx (hmem r.idx (List.mem_cons_of_mem _ h1)) (AT.idx_mem_idxs r)
          · rw [List.mem_singleton] at h1
            exact hir (by rw [← h1]; exact AT.idx_mem_idxs r)
      · refine h2 ?_
        rw [AT.idxs]
        exact List.mem_cons_of_mem _ (List.mem_append.2 (Or.inr (AT.idx_mem_idxs r)))
    refine ⟨?_, ?_, ?_, ?_⟩
    · refine chainHypUp_append a full i A j hup ?_ ?_
      · rw [hlastA]
        exact hpl
      · rw [hlastA]
        exact Or.inr ⟨hll, r.idx, hlr, hrnot⟩
    · exact List.getLastD_concat _ _ _
    · intro c hc
      rw [List.mem_cons] at hc
      rw [AT.idxs]
      rcases hc with rfl | hc
      · exact List.mem_cons_of_mem _ (List.mem_append.2 (Or.inl (hmem c (List.mem_cons_self _ _))))
      · rw [List.mem_append] at hc
        rcases hc with hc | hc
        · exact List.mem_cons_of_mem _
            (List.mem_append.2 (Or.inl (hmem c (List.mem_cons_of_mem _ hc))))
        · rw [List.mem_singleton] at hc
          rw [hc]
          exact List.mem_cons_self _ _
    · have hchain_sub : ∀ c ∈ j :: A, c ∈ l.idxs := hmem
      have : (j :: (A ++ [i])) = (j :: A) ++ [i] := by simp
      rw [this, List.nodup_append]
      refine ⟨hndc, List.nodup_singleton _, ?_⟩
      intro c hc hci
      rw [List.mem_singleton] at hci
      subst hci
      exact hil (hchain_sub c hc)
  | inr i l r j A hAnc ih =>
    intro hrep hnd full hfull
    obtain ⟨-, -, hl, hr, hpl, hpr, hlr, hrl, hll, hrr⟩ := (reprB_node a i l r).1 hrep
    obtain ⟨hndl, hndr, hdisj, hil, hir⟩ := nodup_node_parts hnd
    have hfull' : ∀ x ∈ full, x ∈ j :: A ∨ x ∉ r.idxs := by
      intro x hx
      rcases hfull x hx with hx1 | hx2
      · rw [List.mem_cons] at hx1
        rcases hx1 with rfl | hx1
        · exact Or.inl (List.mem_cons_self _ _)
        · rw [List.mem_append] at hx1
          rcases hx1 with hx1 | hx1
          · exact Or.inl (List.mem_cons_of_mem _ hx1)
          · rw [List.mem_singleton] at hx1
            subst hx1
            exact Or.inr hir
      · refine Or.inr (fun hm => hx2 ?_)
        rw [AT.idxs]
        exact List.mem_cons_of_mem _ (List.mem_append.2 (Or.inr hm))
    obtain ⟨hup, hlastA, hmem, hndc⟩ := ih hr hndr full hfull'
    have hlnot : l.idx ∉ full := by
      intro hm
      rcases hfull _ hm with h1 | h2
      · rw [List.mem_cons] at h1
        rcases h1 with h1 | h1
        · exact hdisj l.idx (AT.idx_mem_idxs l)
            (by rw [h1]; exact hmem j (List.mem_cons_self _ _))
        · rw [List.mem_append] at h1
          rcases h1 with h1 | h1
          · exact hdisj l.idx (AT.idx_mem_idxs l) (hmem l.idx (List.mem_cons_of_mem _ h1))
          · rw [List.mem_singleton] at h1
            exact hil (by rw [← h1]; exact AT.idx_mem_idxs l)
      · refine h2 ?_
        rw [AT.idxs]
        exact List.mem_cons_of_mem _ (List.mem_append.2 (Or.inl (AT.idx_mem_idxs l)))
    refine ⟨?_, ?_, ?_, ?_⟩
    · refine chainHypUp_append a full i A j hup ?_ ?_
      · rw [hlastA]
        exact hpr
      · rw [hlastA]
        exact Or.inl ⟨l.idx, hrl, hlnot⟩
    · exact List.getLastD_concat _ _ _
    · intro c hc
      rw [List.mem_cons] at hc
      rw [AT.idxs]
      rcases hc with rfl | hc
      · exact List.mem_cons_of_mem _ (List.mem_append.2 (Or.inr (hmem c (List.mem_cons_self _ _))))
      · rw [List.mem_append] at hc
        rcases hc with hc | hc
        · exact List.mem_cons_of_mem _
            (List.mem_append.2 (Or.inr (hmem c (List.mem_cons_of_mem _ hc))))
        · rw [List.mem_singleton] at hc
          rw [hc]
          exact List.mem_cons_self _ _
    · have hchain_sub : ∀ c ∈ j :: A, c ∈ r.idxs := hmem
      have : (j :: (A ++ [i])) = (j :: A) ++ [i] := by simp
      rw [this, List.nodup_append]
      refine ⟨hndc, List.nodup_singleton _, ?_⟩
      intro c hc hci
      rw [List.mem_singleton] at hci
      subst hci
      exact hir (hchain_sub c hc)

/-! ### Hash consistency restored by the eager rehash of `Add` -/

theorem structEq_symm {n1 n2 : DynTreeNode} (h : structEq n1 n2) : structEq n2 n1 :=
  ⟨h.1.symm, h.2.1.symm, h.2.2.1.symm, h.2.2.2.symm⟩

/-- The proper ancestors of the attach point, innermost first. -/
def attachAnc : AT → List Nat
  | .leaf _ => []
  | .node i l r => if (AT.node i l r).saturatedb then [] else attachAnc r ++ [i]

theorem attachAnc_subset (s : AT) : ∀ c ∈ attachAnc s, c ∈ s.idxs := by
  induction s with
  | leaf i => intro c hc; exact absurd hc (by simp [attachAnc])
  | node i l r ihl ihr =>
    intro c hc
    rw [attachAnc] at hc
    by_cases hsat : (AT.node i l r).saturatedb = true
    · rw [if_pos hsat] at hc
      exact absurd hc (by simp)
    · rw [if_neg hsat, List.mem_append] at hc
      rw [AT.idxs]
      rcases hc with hc | hc
      · exact List.mem_cons_of_mem _ (List.mem_append.2 (Or.inr (ihr c hc)))
      · rw [List.mem_singleton] at hc
        rw [hc]
        exact List.mem_cons_self _ _

theorem attachAnc_last (nP : Nat) (nL : Nat) :
    ∀ s : AT, (attachAnc s).getLastD nP = (addA nL nP s).idx := by
  intro s
  induction s with
  | leaf i => rfl
  | node i l r ihl ihr =>
    rw [attachAnc, addA_node]
    by_cases hsat : (AT.node i l r).saturatedb = true
    · rw [if_pos hsat, if_pos hsat]
      rfl
    · rw [if_neg hsat, if_neg hsat]
      exact List.getLastD_concat _ _ _

theorem ancOf_addA (nL nP : Nat) : ∀ s : AT, AncOf (addA nL nP s) nP (attachAnc s) := by
  intro s
  induction s with
  | leaf i => exact AncOf.root _
  | node i l r ihl ihr =>
    rw [attachAnc]
    by_cases hsat : (AT.node i l r).saturatedb = true
    · rw [if_pos hsat]
      have h2 : addA nL nP (AT.node i l r) = .node nP (.node i l r) (.leaf nL) := by
        rw [addA_node, if_pos hsat]
      rw [h2]
      exact AncOf.root _
    · rw [if_neg hsat]
      have h2 : addA nL nP (AT.node i l r) = .node i l (addA nL nP r) := by
        rw [addA_node, if_neg hsat]
      rw [h2]
      exact AncOf.inr i l (addA nL nP r) nP (attachAnc r) ihr

theorem mem_idxs_left {i : Nat} {l r : AT} {j : Nat} (h : j ∈ l.idxs) :
    j ∈ (AT.node i l r).idxs := by
  rw [AT.idxs]
  exact List.mem_cons_of_mem _ (List.mem_append.2 (Or.inl h))

theorem mem_idxs_right {i : Nat} {l r : AT} {j : Nat} (h : j ∈ r.idxs) :
    j ∈ (AT.node i l r).idxs := by
  rw [AT.idxs]
  exact List.mem_cons_of_mem _ (List.mem_append.2 (Or.inr h))

theorem hashOKA_congr (f : Nat → Nat → Nat) (a b : List DynTreeNode) :
    ∀ s : AT, (∀ j ∈ s.idxs, (getN b j).hash = (getN a j).hash) →
      HashOKA f a s → HashOKA f b s := by
  intro s
  induction s with
  | leaf i => intro _ _; trivial
  | node i l r ihl ihr =>
    intro hh hok
    obtain ⟨hloc, hokl, hokr⟩ := hok
    have hmi : i ∈ (AT.node i l r).idxs := List.mem_cons_self _ _
    have hml : l.idx ∈ (AT.node i l r).idxs := by
      rw [AT.idxs]
      exact List.mem_cons_of_mem _ (List.mem_append.2 (Or.inl (AT.idx_mem_idxs l)))
    have hmr : r.idx ∈ (AT.node i l r).idxs := by
      rw [AT.idxs]
      exact List.mem_cons_of_mem _ (List.mem_append.2 (Or.inr (AT.idx_mem_idxs r)))
    refine ⟨?_, ?_, ?_⟩
    · rw [hh i hmi, hh l.idx hml, hh r.idx hmr]
      exact hloc
    · refine ihl (fun j hj => hh j ?_) hokl
      rw [AT.idxs]
      exact List.mem_cons_of_mem _ (List.mem_append.2 (Or.inl hj))
    · refine ihr (fun j hj => hh j ?_) hokr
      rw [AT.idxs]
      exact List.mem_cons_of_mem _ (List.mem_append.2 (Or.inr hj))

theorem chainConc_front (f : Nat → Nat → Nat) (b : List DynTreeNode) :
    ∀ (A B : List Nat) (c : Nat), ChainConc f b c (A ++ B) → ChainConc f b c A := by
  intro A
  induction A with
  | nil => intro B c _; trivial
  | cons p A ih =>
    intro B c h
    obtain ⟨hstep, hrest⟩ := h
    exact ⟨hstep, ih B p hrest⟩

theorem chainConc_last (f : Nat → Nat → Nat) (b : List DynTreeNode) (q : Nat) :
    ∀ (A : List Nat) (c : Nat), ChainConc f b c (A ++ [q]) →
      (∀ l, (getN b (A.getLastD c)).left = some l →
        (getN b q).hash = f (getN b l).hash (getN b (A.getLastD c)).hash) ∧
      ((getN b (A.getLastD c)).left = none → ∀ r, (getN b (A.getLastD c)).right = some r →
        (getN b q).hash = f (getN b (A.getLastD c)).hash (getN b r).hash) := by
  intro A
  induction A with
  | nil => intro c h; exact h.1
  | cons p A ih =>
    intro c h
    rw [List.getLastD_cons]
    exact ih p h.2

/-- After `Add`'s structural phase and the eager rehash along the new
parent's ancestor chain, hash consistency holds on the whole new shape. -/
theorem hashOK_addA (f : Nat → Nat → Nat) (aOld b : List DynTreeNode) (x nL nP : Nat)
    (hxleaf : (getN b nL).hash = x) :
    ∀ s : AT, ReprB b (addA nL nP s) = true →
      s.canonb = true → s.idxs.Nodup →
      nP ∉ s.idxs →
      (∀ j ∈ s.idxs, j ∉ nP :: attachAnc s → (getN b j).hash = (getN aOld j).hash) →
      (getN b nP).hash = f (getN b (attach s).idx).hash x →
      ChainConc f b nP (attachAnc s) →
      HashOKA f aOld s →
      HashOKA f b (addA nL nP s) := by
  intro s
  induction s with
  | leaf i =>
    intro hrep hcan hnd hfresh hframe hhead hconc hok
    refine ⟨?_, trivial, trivial⟩
    show (getN b nP).hash = f (getN b i).hash (getN b nL).hash
    rw [hxleaf]
    exact hhead
  | node i l r ihl ihr =>
    intro hrep hcan hnd hfresh hframe hhead hconc hok
    obtain ⟨hlp, hrc, hle⟩ := (canonb_node i l r).1 hcan
    obtain ⟨hndl, hndr, hdisj, hil, hir⟩ := nodup_node_parts hnd
    by_cases hsat : (AT.node i l r).saturatedb = true
    · -- the whole shape pairs with the new leaf under nP
      have h2 : addA nL nP (AT.node i l r) = .node nP (.node i l r) (.leaf nL) := by
        rw [addA_node, if_pos hsat]
      have hanc : attachAnc (AT.node i l r) = [] := by rw [attachAnc, if_pos hsat]
      rw [h2]
      refine ⟨?_, ?_, trivial⟩
      · show (getN b nP).hash = f (getN b i).hash (getN b nL).hash
        rw [hxleaf]
        have hat : attach (AT.node i l r) = AT.node i l r := attach_of_saturated _ hsat
        rw [hat] at hhead
        exact hhead
      · refine hashOKA_congr f aOld b (AT.node i l r) ?_ hok
        intro j hj
        refine hframe j hj ?_
        rw [hanc, List.mem_singleton]
        intro hcon
        rw [hcon] at hj
        exact hfresh hj
    · -- the new leaf goes into the right subtree
      have h2 : addA nL nP (AT.node i l r) = .node i l (addA nL nP r) := by
        rw [addA_node, if_neg hsat]
      have hanc : attachAnc (AT.node i l r) = attachAnc r ++ [i] := by
        rw [attachAnc, if_neg hsat]
      have hat : attach (AT.node i l r) = attach r := by
        rw [attach_node, if_neg hsat]
      rw [h2] at hrep ⊢
      obtain ⟨-, -, hl2, hr2, hpl2, hpr2, hlr2, hrl2, hll2, hrr2⟩ :=
        (reprB_node b i l (addA nL nP r)).1 hrep
      rw [hanc] at hframe hconc
      have hframeR : ∀ j ∈ r.idxs, j ∉ nP :: attachAnc r →
          (getN b j).hash = (getN aOld j).hash := by
        intro j hj hjn
        refine hframe j (mem_idxs_right hj) ?_
        rw [List.mem_cons, List.mem_append, List.mem_singleton]
        rw [List.mem_cons] at hjn
        rintro (h1 | h1 | h1)
        · exact hjn (Or.inl h1)
        · exact hjn (Or.inr h1)
        · rw [h1] at hj
          exact hir hj
      have hheadR : (getN b nP).hash = f (getN b (attach r).idx).hash x := by
        rw [hat] at hhead
        exact hhead
      have hconcR : ChainConc f b nP (attachAnc r) := chainConc_front f b _ _ _ hconc
      have hfreshR : nP ∉ r.idxs := fun hm => hfresh (mem_idxs_right hm)
      have hokr2 : HashOKA f b (addA nL nP r) :=
        ihr hr2 hrc hndr hfreshR hframeR hheadR hconcR hok.2.2
      have hokl2 : HashOKA f b l := by
        refine hashOKA_congr f aOld b l ?_ hok.2.1
        intro j hj
        refine hframe j (mem_idxs_left hj) ?_
        rw [List.mem_cons, List.mem_append, List.mem_singleton]
        rintro (h1 | h1 | h1)
        · rw [h1] at hj
          exact hfresh (mem_idxs_left hj)
        · exact hdisj j hj (attachAnc_subset r j h1)
        · rw [h1] at hj
          exact hil hj
      refine ⟨?_, hokl2, hokr2⟩
      have hlast := chainConc_last f b i (attachAnc r) nP hconc
      rw [attachAnc_last nP nL r] at hlast
      exact hlast.1 l.idx hrl2

theorem attachAnc_not_attach :
    ∀ s : AT, s.idxs.Nodup → (attach s).idx ∉ attachAnc s := by
  intro s
  induction s with
  | leaf i => intro _; simp [attachAnc]
  | node i l r ihl ihr =>
    intro hnd
    rw [attachAnc]
    by_cases hsat : (AT.node i l r).saturatedb = true
    · rw [if_pos hsat]
      simp
    · rw [if_neg hsat]
      obtain ⟨hndl, hndr, hdisj, hil, hir⟩ := nodup_node_parts hnd
      rw [attach_node, if_neg hsat]
      intro hmem
      rw [List.mem_append, List.mem_singleton] at hmem
      rcases hmem with hm | hm
      · exact ihr hndr hm
      · refine hir ?_
        rw [← hm]
        exact attach_idxs_subset r _ (AT.idx_mem_idxs _)

/-- `Add` with hashing active restores hash consistency on the new shape. -/
theorem hashOKA_add (f : Nat → Nat → Nat) (x : Nat) {t : DynTree} {s : AT}
    (hw : WFT t s) (hok : HashOKA f t.nodes s) (hp : t.paused = false) :
    HashOKA f (t.Add f x).nodes (addA t.nodes.length (t.nodes.length + 1) s) := by
  obtain ⟨a4, hnodes, hlen4, hleaves, hroot, hheight, hpaused, hN, hP, hC, hLLs, hOther⟩ :=
    add_exec f x hw
  rw [if_neg (by rw [hp]; exact Bool.false_ne_true)] at hnodes
  have hwft2 : WFT (t.Add f x) (addA t.nodes.length (t.nodes.length + 1) s) := wft_add f x hw
  have hstF : ∀ j, structEq (getN (t.Add f x).nodes j) (getN a4 j) := by
    intro j
    rw [hnodes]
    exact rehash_structEq f _ _ _ _ _ _ j
  have hlenF : (t.Add f x).nodes.length = a4.length := by
    rw [hnodes]
    exact rehash_length f _ _ _ _ _ _
  have hreprA4 : ReprB a4 (addA t.nodes.length (t.nodes.length + 1) s) = true := by
    refine reprB_frame (t.Add f x).nodes a4 _ hwft2.repr hwft2.nodupIdxs (by omega)
      ((hstF _).2.2.2.symm) (fun j _ _ => structEq_symm (hstF j))
  obtain ⟨hup, hlastEq, hmemChain, hndChain⟩ :=
    chainHypUp_ofAnc a4 (ancOf_addA t.nodes.length (t.nodes.length + 1) s) hreprA4
      hwft2.nodupIdxs ((t.nodes.length + 1) :: attachAnc s) (fun c hc => Or.inl hc)
  have hlast : (getN a4 ((attachAnc s).getLastD (t.nodes.length + 1))).parent = none := by
    rw [hlastEq, ← (hstF _).2.2.1]
    exact hwft2.rootParent
  have hlens : ∀ c ∈ (t.nodes.length + 1) :: attachAnc s, c < a4.length := by
    intro c hc
    rw [← hlenF]
    exact hwft2.idxs_lt c (hmemChain c hc)
  have hsub : ((t.nodes.length + 1) :: attachAnc s) ⊆ (addA t.nodes.length (t.nodes.length + 1) s).idxs :=
    fun c hc => hmemChain c hc
  have hfuel : (attachAnc s).length < a4.length := by
    have h1 := (List.subperm_of_subset hndChain hsub).length_le
    rw [hwft2.len_idxs, hlenF] at h1
    simp at h1
    omega
  obtain ⟨hframe, hhead, hconc⟩ :=
    rehash_chain f (attachAnc s) a4.length a4 (t.nodes.length + 1)
      ((getN a4 (attach s).idx).hash) x hup hlast hndChain hlens hfuel
  rw [← hnodes] at hframe hhead hconc
  have hanc_lt : ∀ c ∈ attachAnc s, c < t.nodes.length :=
    fun c hc => hw.idxs_lt c (attachAnc_subset s c hc)
  have hc_lt : (attach s).idx < t.nodes.length :=
    hw.idxs_lt _ (attach_idxs_subset s _ (AT.idx_mem_idxs _))
  have hn0_notin : t.nodes.length ∉ (t.nodes.length + 1) :: attachAnc s := by
    rw [List.mem_cons]
    rintro (h1 | h1)
    · omega
    · exact absurd (hanc_lt _ h1) (by omega)
  have hc_notin : (attach s).idx ∉ (t.nodes.length + 1) :: attachAnc s := by
    rw [List.mem_cons]
    rintro (h1 | h1)
    · omega
    · exact attachAnc_not_attach s hw.nodupIdxs h1
  refine hashOK_addA f t.nodes (t.Add f x).nodes x t.nodes.length (t.nodes.length + 1)
    ?_ s hwft2.repr hw.canon hw.nodupIdxs ?_ ?_ ?_ hconc hok
  · rw [hframe _ hn0_notin, hN]
  · intro hm
    exact absurd (hw.idxs_lt _ hm) (by omega)
  · intro j hj hjn
    have hjlt : j < t.nodes.length := hw.idxs_lt j hj
    rw [hframe j hjn]
    by_cases hjc : j = (attach s).idx
    · rw [hjc, hC]
    · by_cases hjll : (getN t.nodes (attach s).idx).left = some j
      · rw [hLLs j hjll]
      · rw [hOther j hjlt hjc hjll]
  · rw [hframe _ hc_notin, hhead, hC]

/-! ### Trees built only by eager `Add` calls -/

/-- States produced from `NewDynTree` by `Add` alone, hashing never paused. -/
inductive ReachableAdd (f : Nat → Nat → Nat) : DynTree → Prop
  | init (cap : Nat) : ReachableAdd f (NewDynTree cap)
  | add {t : DynTree} (x : Nat) : ReachableAdd f t → ReachableAdd f (t.Add f x)

theorem add_paused (f : Nat → Nat → Nat) (t : DynTree) (x : Nat) :
    (t.Add f x).paused = t.paused := by
  cases hr : t.root <;> simp [DynTree.Add, hr]

/-- The invariant of an eagerly built tree: never paused, and once non-empty
it stores a canonical shape whose hashes are consistent throughout. -/
def EagerInv (f : Nat → Nat → Nat) (t : DynTree) : Prop :=
  t.paused = false ∧ (EmptyState t ∨ ∃ s, WFT t s ∧ HashOKA f t.nodes s)

theorem eagerInv_reachableAdd (f : Nat → Nat → Nat) {t : DynTree}
    (h : ReachableAdd f t) : EagerInv f t := by
  induction h with
  | init cap => exact ⟨rfl, Or.inl ⟨rfl, rfl, rfl, rfl⟩⟩
  | add x hr ih =>
    obtain ⟨hp, hcase⟩ := ih
    refine ⟨by rw [add_paused, hp], ?_⟩
    rcases hcase with he | ⟨s, hws, hoks⟩
    · exact Or.inr ⟨AT.leaf 0, wft_add_empty f x he, trivial⟩
    · exact Or.inr ⟨_, wft_add f x hws, hashOKA_add f x hws hoks hp⟩

/-! ### The path of a leaf: one oriented triplet per ancestor -/

/-- The expected path for the `k`-th leaf of shape `s`: one
(left, right, parent) hash triplet per ancestor, deepest first. -/
def pathA (a : List DynTreeNode) : AT → Nat → List MerkleNodeHashes
  | .leaf _, _ => []
  | .node i l r, k =>
    (if k < l.leafIdxs.length then pathA a l k else pathA a r (k - l.leafIdxs.length)) ++
      [{ Left := (getN a l.idx).hash, Right := (getN a r.idx).hash, Parent := (getN a i).hash }]

/-- Number of ancestors of the `k`-th leaf of `s`. -/
def AT.depth : AT → Nat → Nat
  | .leaf _, _ => 0
  | .node _ l r, k =>
    (if k < l.leafIdxs.length then l.depth k else r.depth (k - l.leafIdxs.length)) + 1

theorem pathA_node (a : List DynTreeNode) (i : Nat) (l r : AT) (k : Nat) :
    pathA a (.node i l r) k =
      (if k < l.leafIdxs.length then pathA a l k else pathA a r (k - l.leafIdxs.length)) ++
        [{ Left := (getN a l.idx).hash, Right := (getN a r.idx).hash,
           Parent := (getN a i).hash }] := rfl

theorem depth_node (i : Nat) (l r : AT) (k : Nat) :
    AT.depth (.node i l r) k =
      (if k < l.leafIdxs.length then l.depth k else r.depth (k - l.leafIdxs.length)) + 1 := rfl

theorem pathLoop_succ (a : List DynTreeNode) (i fuel : Nat) :
    pathLoop a i (fuel + 1) =
      (let n := getN a i;
       match n.parent with
       | none => []
       | some p =>
         let trip : MerkleNodeHashes :=
           match n.left with
           | some l => { Left := (getN a l).hash, Right := n.hash, Parent := (getN a p).hash }
           | none => { Left := n.hash, Right := (getN a (n.right.getD a.length)).hash,
                       Parent := (getN a p).hash }
         trip :: pathLoop a p fuel) := rfl

theorem pathLoop_root (a : List DynTreeNode) (i : Nat) (h : (getN a i).parent = none) :
    ∀ fuel, pathLoop a i fuel = [] := by
  intro fuel
  cases fuel with
  | zero => rfl
  | succ fuel =>
    rw [pathLoop_succ]
    simp only [h]

theorem AT.depth_le_ht : ∀ s : AT, s.canonb = true →
    ∀ k, k < s.leafIdxs.length → AT.depth s k ≤ s.ht := by
  intro s
  induction s with
  | leaf i => intro _ k _; exact Nat.le_refl 0
  | node i l r ihl ihr =>
    intro hcan k hk
    obtain ⟨hlp, hrc, hle⟩ := (canonb_node i l r).1 hcan
    rw [depth_node]
    by_cases hkl : k < l.leafIdxs.length
    · rw [if_pos hkl]
      have := ihl (AT.perfect_canon l hlp) k hkl
      show l.depth k + 1 ≤ l.ht + 1
      omega
    · rw [if_neg hkl]
      have hkr : k - l.leafIdxs.length < r.leafIdxs.length := by
        rw [AT.leafIdxs, List.length_append] at hk
        omega
      have := ihr hrc _ hkr
      show r.depth (k - l.leafIdxs.length) + 1 ≤ l.ht + 1
      omega

/-- The source `Path` climb, started at the `k`-th leaf with enough fuel,
emits exactly the per-ancestor triplets and then continues from the
subtree's root. -/
theorem pathLoop_spec (a : List DynTreeNode) :
    ∀ s : AT, ReprB a s = true → ∀ k, k < s.leafIdxs.length →
      ∀ fuel, pathLoop a (s.leafIdxs.getD k 0) (AT.depth s k + fuel) =
        pathA a s k ++ pathLoop a s.idx fuel := by
  intro s
  induction s with
  | leaf i =>
    intro hrep k hk fuel
    have hk0 : k = 0 := by
      rw [AT.leafIdxs, List.length_singleton] at hk
      omega
    subst hk0
    show pathLoop a i (0 + fuel) = [] ++ pathLoop a i fuel
    rw [Nat.zero_add, List.nil_append]
  | node i l r ihl ihr =>
    intro hrep k hk fuel
    obtain ⟨-, -, hl, hr, hpl, hpr, hlr, hrl, hll, hrr⟩ := (reprB_node a i l r).1 hrep
    rw [AT.leafIdxs, List.length_append] at hk
    rw [pathA_node, depth_node]
    by_cases hkl : k < l.leafIdxs.length
    · have hgd : (AT.node i l r).leafIdxs.getD k 0 = l.leafIdxs.getD k 0 := by
        show (l.leafIdxs ++ r.leafIdxs).getD k 0 = _
        exact List.getD_append _ _ _ _ hkl
      rw [hgd, if_pos hkl, if_pos hkl]
      have hassoc : l.depth k + 1 + fuel = l.depth k + (fuel + 1) := by omega
      rw [hassoc, ihl hl k hkl (fuel + 1), pathLoop_succ]
      simp only [hpl, hll, hlr, Option.getD_some]
      rw [List.append_assoc]
      rfl
    · have hge : l.leafIdxs.length ≤ k := by omega
      have hkr : k - l.leafIdxs.length < r.leafIdxs.length := by omega
      have hgd : (AT.node i l r).leafIdxs.getD k 0 = r.leafIdxs.getD (k - l.leafIdxs.length) 0 := by
        show (l.leafIdxs ++ r.leafIdxs).getD k 0 = _
        rw [List.getD_eq_getElem?_getD, List.getElem?_append_right hge,
          ← List.getD_eq_getElem?_getD]
      rw [hgd, if_neg hkl, if_neg hkl]
      have hassoc : r.depth (k - l.leafIdxs.length) + 1 + fuel
          = r.depth (k - l.leafIdxs.length) + (fuel + 1) := by omega
      rw [hassoc, ihr hr _ hkr (fuel + 1), pathLoop_succ]
      simp only [hpr, hrl]
      rw [List.append_assoc]
      rfl

/-- `Path` on a well-formed tree with at least two leaves returns exactly the
per-ancestor triplets of the stored shape. -/
theorem path_eq_pathA {t : DynTree} {s : AT} (hw : WFT t s)
    (h2 : 2 ≤ t.leaves.length) (index : Nat) (hidx : index < t.leaves.length) :
    t.Path index = some (pathA t.nodes s index) := by
  rw [DynTree.Path, if_neg (by omega), if_pos hidx]
  have hkl : index < s.leafIdxs.length := by
    rw [← hw.leavesEq]
    exact hidx
  have hdep : AT.depth s index ≤ s.ht := AT.depth_le_ht s hw.canon index hkl
  have hht : s.ht < t.nodes.length := hw.ht_lt_len
  have hsplit : t.nodes.length = AT.depth s index + (t.nodes.length - AT.depth s index) := by
    omega
  rw [hw.leavesEq, hsplit, pathLoop_spec t.nodes s hw.repr index hkl _,
    pathLoop_root t.nodes s.idx hw.rootParent, List.append_nil]

/-- **C7.** On every reachable tree with at least two leaves and an in-range
index, `Path` returns exactly one triplet per ancestor of the queried leaf,
deepest first: at each climbed node the triplet is (left sibling's hash,
node's hash, parent's hash) when the node holds a left-sibling pointer and
(node's hash, right sibling's hash, parent's hash) otherwise — both equal to
the (left child, right child, parent) hashes of that ancestor — and the climb
ends at the parentless root. -/
theorem c7_path_triplets (f : Nat → Nat → Nat) {t : DynTree} (h : Reachable f t)
    (h2 : 2 ≤ t.LeavesLen) (index : Nat) (hidx : index < t.LeavesLen) :
    ∃ s, WFT t s ∧ t.Path index = some (pathA t.nodes s index) := by
  rcases shaped_reachable f h with he | ⟨s, hw⟩
  · rw [DynTree.LeavesLen, he.2.2.1] at h2
    exact absurd h2 (by simp)
  · exact ⟨s, hw, path_eq_pathA hw h2 index hidx⟩

theorem c7_path_triplets_witness :
    ∃ s, WFT (demoTree [1, 2, 3]) s ∧
      (demoTree [1, 2, 3]).Path 1 = some (pathA (demoTree [1, 2, 3]).nodes s 1) :=
  c7_path_triplets combineDemo
    (Reachable.add 3 (Reachable.add 2 (Reachable.add 1 (Reachable.init 4))))
    (by decide) 1 (by decide)

theorem chained_concat :
    ∀ (p : List MerkleNodeHashes) (tr : MerkleNodeHashes), Chained p →
      (∀ lt, p.getLast? = some lt → lt.Parent = tr.Left ∨ lt.Parent = tr.Right) →
      Chained (p ++ [tr]) := by
  intro p
  induction p with
  | nil => intro tr _ _; exact chained_single tr
  | cons x p ih =>
    intro tr hch hlast
    cases p with
    | nil =>
      refine chained_cons.2 ⟨?_, chained_single tr⟩
      exact hlast x rfl
    | cons y rest =>
      obtain ⟨hxy, hch'⟩ := chained_cons.1 hch
      refine chained_cons.2 ⟨hxy, ?_⟩
      refine ih tr hch' ?_
      intro lt hlt
      refine hlast lt ?_
      rw [List.getLast?_cons_cons]
      exact hlt

/-- On a hash-consistent shape, the per-ancestor triplets all recombine, are
chained, and the last one carries the root hash as its parent. -/
theorem pathA_ok (f : Nat → Nat → Nat) (a : List DynTreeNode) :
    ∀ (s : AT) (k : Nat), HashOKA f a s →
      (∀ tr ∈ pathA a s k, tr.Parent = f tr.Left tr.Right) ∧
      Chained (pathA a s k) ∧
      (∀ lt, (pathA a s k).getLast? = some lt → lt.Parent = (getN a s.idx).hash) := by
  intro s
  induction s with
  | leaf i =>
    intro k _
    refine ⟨?_, chained_nil, ?_⟩
    · intro tr htr
      exact absurd htr (by simp [pathA])
    · intro lt hlt
      exact absurd hlt (by simp [pathA])
  | node i l r ihl ihr =>
    intro k hok
    obtain ⟨hloc, hokl, hokr⟩ := hok
    rw [pathA_node]
    by_cases hkl : k < l.leafIdxs.length
    · obtain ⟨hmem, hch, hlast⟩ := ihl k hokl
      rw [if_pos hkl]
      refine ⟨?_, ?_, ?_⟩
      · intro tr htr
        rw [List.mem_append, List.mem_singleton] at htr
        rcases htr with htr | htr
        · exact hmem tr htr
        · rw [htr]
          exact hloc
      · refine chained_concat _ _ hch ?_
        intro lt hlt
        exact Or.inl (hlast lt hlt)
      · intro lt hlt
        rw [List.getLast?_concat] at hlt
        rw [← Option.some_inj.mp hlt]
        rfl
    · obtain ⟨hmem, hch, hlast⟩ := ihr (k - l.leafIdxs.length) hokr
      rw [if_neg hkl]
      refine ⟨?_, ?_, ?_⟩
      · intro tr htr
        rw [List.mem_append, List.mem_singleton] at htr
        rcases htr with htr | htr
        · exact hmem tr htr
        · rw [htr]
          exact hloc
      · refine chained_concat _ _ hch ?_
        intro lt hlt
        exact Or.inr (hlast lt hlt)
      · intro lt hlt
        rw [List.getLast?_concat] at hlt
        rw [← Option.some_inj.mp hlt]
        rfl

/-- **C1.** On every tree built only by eager `Add` calls and holding at
least two leaves, `Path` of every in-range leaf index succeeds, the result
passes `Path.Validate` without error, and the last triplet's parent is the
root hash returned by `Root`. -/
theorem c1_path_validates (f : Nat → Nat → Nat) {t : DynTree} (h : ReachableAdd f t)
    (h2 : 2 ≤ t.LeavesLen) (index : Nat) (hidx : index < t.LeavesLen) :
    ∃ p rt, t.Path index = some p ∧ Path.Validate f p = none ∧
      t.Root = some rt ∧ ∃ lt, p.getLast? = some lt ∧ lt.Parent = rt := by
  obtain ⟨hp, hcase⟩ := eagerInv_reachableAdd f h
  rcases hcase with he | ⟨s, hw, hok⟩
  · rw [DynTree.LeavesLen, he.2.2.1] at h2
    exact absurd h2 (by simp)
  obtain ⟨hmem, hch, hlast⟩ := pathA_ok f t.nodes s index hok
  refine ⟨pathA t.nodes s index, (getN t.nodes s.idx).hash,
    path_eq_pathA hw h2 index hidx, ?_, ?_, ?_⟩
  · exact (pathValidate_none_iff f _).2 ⟨hmem, hch⟩
  · rw [DynTree.Root, hw.rootIdx]
    rfl
  · cases s with
    | leaf i =>
      rw [DynTree.LeavesLen, hw.leavesEq] at h2
      exact absurd h2 (by simp [AT.leafIdxs])
    | node i l r =>
      rw [pathA_node]
      refine ⟨_, List.getLast?_concat _, ?_⟩
      exact hlast _ (by rw [pathA_node]; exact List.getLast?_concat _)

theorem c1_path_validates_witness :
    ∃ p rt, (demoTree [1, 2, 3]).Path 1 = some p ∧ Path.Validate combineDemo p = none ∧
      (demoTree [1, 2, 3]).Root = some rt ∧ ∃ lt, p.getLast? = some lt ∧ lt.Parent = rt :=
  c1_path_validates combineDemo
    (ReachableAdd.add 3 (ReachableAdd.add 2 (ReachableAdd.add 1 (ReachableAdd.init 4))))
    (by decide) 1 (by decide)

/-! ### The ancestor chain of a leaf and the `Update` contract -/

theorem getD_mem_of_lt {l : List Nat} {k : Nat} (h : k < l.length) (d : Nat) :
    l.getD k d ∈ l := by
  rw [List.getD_eq_getElem?_getD, List.getElem?_eq_getElem h]
  simp only [Option.getD_some]
  exact List.getElem_mem h

/-- The proper ancestors of the `k`-th leaf, innermost first. -/
def leafAnc : AT → Nat → List Nat
  | .leaf _, _ => []
  | .node i l r, k =>
    (if k < l.leafIdxs.length then leafAnc l k else leafAnc r (k - l.leafIdxs.length)) ++ [i]

theorem leafAnc_node (i : Nat) (l r : AT) (k : Nat) :
    leafAnc (.node i l r) k =
      (if k < l.leafIdxs.length then leafAnc l k else leafAnc r (k - l.leafIdxs.length)) ++
        [i] := rfl

theorem ancOf_leafAnc : ∀ (s : AT) (k : Nat), k < s.leafIdxs.length →
    AncOf s (s.leafIdxs.getD k 0) (leafAnc s k) := by
  intro s
  induction s with
  | leaf i =>
    intro k hk
    have hk0 : k = 0 := by
      rw [AT.leafIdxs, List.length_singleton] at hk
      omega
    subst hk0
    exact AncOf.root (AT.leaf i)
  | node i l r ihl ihr =>
    intro k hk
    rw [AT.leafIdxs, List.length_append] at hk
    rw [leafAnc_node]
    by_cases hkl : k < l.leafIdxs.length
    · have hgd : (AT.node i l r).leafIdxs.getD k 0 = l.leafIdxs.getD k 0 := by
        show (l.leafIdxs ++ r.leafIdxs).getD k 0 = _
        exact List.getD_append _ _ _ _ hkl
      rw [hgd, if_pos hkl]
      exact AncOf.inl i l r _ _ (ihl k hkl)
    · have hge : l.leafIdxs.length ≤ k := by omega
      have hkr : k - l.leafIdxs.length < r.leafIdxs.length := by omega
      have hgd : (AT.node i l r).leafIdxs.getD k 0
          = r.leafIdxs.getD (k - l.leafIdxs.length) 0 := by
        show (l.leafIdxs ++ r.leafIdxs).getD k 0 = _
        rw [List.getD_eq_getElem?_getD, List.getElem?_append_right hge,
          ← List.getD_eq_getElem?_getD]
      rw [hgd, if_neg hkl]
      exact AncOf.inr i l r _ _ (ihr _ hkr)

theorem leafAnc_last : ∀ (s : AT) (k : Nat), k < s.leafIdxs.length →
    (leafAnc s k).getLastD (s.leafIdxs.getD k 0) = s.idx := by
  intro s k hk
  cases s with
  | leaf i =>
    have hk0 : k = 0 := by
      rw [AT.leafIdxs, List.length_singleton] at hk
      omega
    subst hk0
    rfl
  | node i l r => exact List.getLastD_concat _ _ _

/-- Local hash consistency at every ancestor of the `k`-th leaf. -/
def AncLocalOK (f : Nat → Nat → Nat) (b : List DynTreeNode) : AT → Nat → Prop
  | .leaf _, _ => True
  | .node i l r, k =>
    (getN b i).hash = f (getN b l.idx).hash (getN b r.idx).hash ∧
      (if k < l.leafIdxs.length then AncLocalOK f b l k
       else AncLocalOK f b r (k - l.leafIdxs.length))

theorem ancLocalOK_node (f : Nat → Nat → Nat) (b : List DynTreeNode) (i : Nat) (l r : AT)
    (k : Nat) :
    AncLocalOK f b (.node i l r) k ↔
      (getN b i).hash = f (getN b l.idx).hash (getN b r.idx).hash ∧
      (if k < l.leafIdxs.length then AncLocalOK f b l k
       else AncLocalOK f b r (k - l.leafIdxs.length)) := Iff.rfl

/-- Chain-step conclusions along a leaf's ancestor chain give local hash
consistency at every ancestor. -/
theorem ancLocalOK_of_conc (f : Nat → Nat → Nat) (b : List DynTreeNode) :
    ∀ (s : AT) (k : Nat), ReprB b s = true → k < s.leafIdxs.length →
      ChainConc f b (s.leafIdxs.getD k 0) (leafAnc s k) →
      AncLocalOK f b s k := by
  intro s
  induction s with
  | leaf i => intro k _ _ _; trivial
  | node i l r ihl ihr =>
    intro k hrep hk hconc
    obtain ⟨-, -, hl, hr, hpl, hpr, hlr, hrl, hll, hrr⟩ := (reprB_node b i l r).1 hrep
    rw [AT.leafIdxs, List.length_append] at hk
    rw [leafAnc_node] at hconc
    rw [ancLocalOK_node]
    by_cases hkl : k < l.leafIdxs.length
    · have hgd : (AT.node i l r).leafIdxs.getD k 0 = l.leafIdxs.getD k 0 := by
        show (l.leafIdxs ++ r.leafIdxs).getD k 0 = _
        exact List.getD_append _ _ _ _ hkl
      rw [hgd, if_pos hkl] at hconc
      rw [if_pos hkl]
      have hlastStep := chainConc_last f b i (leafAnc l k) (l.leafIdxs.getD k 0) hconc
      rw [leafAnc_last l k hkl] at hlastStep
      refine ⟨hlastStep.2 hll r.idx hlr, ?_⟩
      exact ihl k hl hkl (chainConc_front f b _ _ _ hconc)
    · have hge : l.leafIdxs.length ≤ k := by omega
      have hkr : k - l.leafIdxs.length < r.leafIdxs.length := by omega
      have hgd : (AT.node i l r).leafIdxs.getD k 0
          = r.leafIdxs.getD (k - l.leafIdxs.length) 0 := by
        show (l.leafIdxs ++ r.leafIdxs).getD k 0 = _
        rw [List.getD_eq_getElem?_getD, List.getElem?_append_right hge,
          ← List.getD_eq_getElem?_getD]
      rw [hgd, if_neg hkl] at hconc
      rw [if_neg hkl]
      have hlastStep := chainConc_last f b i (leafAnc r (k - l.leafIdxs.length))
        (r.leafIdxs.getD (k - l.leafIdxs.length) 0) hconc
      rw [leafAnc_last r _ hkr] at hlastStep
      refine ⟨hlastStep.1 l.idx hrl, ?_⟩
      exact ihr _ hr hkr (chainConc_front f b _ _ _ hconc)

/-- In-range unpaused `Update` rewrites the leaf hash and recombines exactly
the hashes along the leaf's ancestor chain. -/
theorem update_rehash_ok (f : Nat → Nat → Nat) {t : DynTree} {s : AT} (hw : WFT t s)
    (hp : t.paused = false) (index x : Nat) (hin : index < t.leaves.length) :
    ∃ nodes2 : List DynTreeNode,
      t.Update f index x = some { t with nodes := nodes2 } ∧
      (∀ j, j ∉ (t.leaves.getD index 0) :: leafAnc s index →
        getN nodes2 j = getN t.nodes j) ∧
      (getN nodes2 (t.leaves.getD index 0)).hash = x ∧
      AncLocalOK f nodes2 s index := by
  have hkl : index < s.leafIdxs.length := by
    rw [← hw.leavesEq]
    exact hin
  have hnis : t.leaves.getD index 0 = s.leafIdxs.getD index 0 := by rw [hw.leavesEq]
  have hni_mem : t.leaves.getD index 0 ∈ s.idxs := by
    rw [hnis]
    exact AT.mem_idxs_of_mem_leafIdxs s _ (getD_mem_of_lt hkl 0)
  have hni_lt : t.leaves.getD index 0 < t.nodes.length := hw.idxs_lt _ hni_mem
  have hst1 : ∀ j, structEq
      (getN (setN t.nodes (t.leaves.getD index 0)
        { getN t.nodes (t.leaves.getD index 0) with hash := x }) j) (getN t.nodes j) :=
    fun j => setN_hash_structEq _ _ _ j
  have hlen1 : (setN t.nodes (t.leaves.getD index 0)
      { getN t.nodes (t.leaves.getD index 0) with hash := x }).length = t.nodes.length :=
    length_setN _ _ _
  have hrep1 : ReprB (setN t.nodes (t.leaves.getD index 0)
      { getN t.nodes (t.leaves.getD index 0) with hash := x }) s = true :=
    reprB_frame t.nodes _ s hw.repr hw.nodupIdxs (le_of_eq hlen1.symm)
      ((hst1 s.idx).2.2.2) (fun j _ _ => hst1 j)
  have hanc : AncOf s (t.leaves.getD index 0) (leafAnc s index) := by
    rw [hnis]
    exact ancOf_leafAnc s index hkl
  obtain ⟨hup, hlastEq, hmemC, hndC⟩ :=
    chainHypUp_ofAnc _ hanc hrep1 hw.nodupIdxs
      (t.leaves.getD index 0 :: leafAnc s index) (fun c hc => Or.inl hc)
  have hhash1 : (getN (setN t.nodes (t.leaves.getD index 0)
      { getN t.nodes (t.leaves.getD index 0) with hash := x })
      (t.leaves.getD index 0)).hash = x := by
    rw [getN_setN_self _ _ _ hni_lt]
  rcases hA : leafAnc s index with _ | ⟨p0, A'⟩
  · rw [hA] at hup hlastEq hmemC hndC
    have hni_root : t.leaves.getD index 0 = s.idx := hlastEq
    have hleft : (getN (setN t.nodes (t.leaves.getD index 0)
        { getN t.nodes (t.leaves.getD index 0) with hash := x })
        (t.leaves.getD index 0)).left = none := by
      rw [(hst1 _).1, hni_root]
      exact hw.rootLeft
    have hright : (getN (setN t.nodes (t.leaves.getD index 0)
        { getN t.nodes (t.leaves.getD index 0) with hash := x })
        (t.leaves.getD index 0)).right = none := by
      rw [(hst1 _).2.1, hni_root]
      exact hw.rootRight
    refine ⟨_, ?_, ?_, hhash1, ?_⟩
    · simp only [DynTree.Update, if_pos hin, hp, Bool.false_eq_true, if_false, hleft, hright]
    · intro j hj
      refine getN_setN_ne _ _ _ _ ?_
      intro hcon
      exact hj (by rw [← hcon]; exact List.mem_cons_self _ _)
    · -- s is its own single leaf: the shape must be a leaf, so nothing to check
      cases s with
      | leaf i => trivial
      | node i0 l r =>
        exact absurd hA (by rw [leafAnc_node]; simp)
  · rw [hA] at hup hlastEq hmemC hndC
    obtain ⟨hparp0, hsib, hup'⟩ := hup
    have hnd_tail : (p0 :: A').Nodup := (List.nodup_cons.1 hndC).2
    have hni_notin : t.leaves.getD index 0 ∉ p0 :: A' := (List.nodup_cons.1 hndC).1
    have hup2 : ChainHypUp (setN t.nodes (t.leaves.getD index 0)
        { getN t.nodes (t.leaves.getD index 0) with hash := x }) (p0 :: A') p0 A' :=
      chainHypUp_mono _ _ _ (fun c hc => List.mem_cons_of_mem _ hc) A' p0 hup'
    have hlastA : A'.getLastD p0 = s.idx := by
      rw [List.getLastD_cons] at hlastEq
      exact hlastEq
    have hlast2 : (getN (setN t.nodes (t.leaves.getD index 0)
        { getN t.nodes (t.leaves.getD index 0) with hash := x })
        (A'.getLastD p0)).parent = none := by
      rw [hlastA, (hst1 _).2.2.1]
      exact hw.rootParent
    have hlens2 : ∀ c ∈ p0 :: A', c < (setN t.nodes (t.leaves.getD index 0)
        { getN t.nodes (t.leaves.getD index 0) with hash := x }).length := by
      intro c hc
      rw [hlen1]
      exact hw.idxs_lt c (hmemC c (List.mem_cons_of_mem _ hc))
    have hfuel2 : A'.length < (setN t.nodes (t.leaves.getD index 0)
        { getN t.nodes (t.leaves.getD index 0) with hash := x }).length := by
      have hsub : (t.leaves.getD index 0 :: p0 :: A') ⊆ s.idxs := fun c hc => hmemC c hc
      have h1 := (List.subperm_of_subset hndC hsub).length_le
      rw [hw.len_idxs] at h1
      rw [hlen1]
      simp at h1
      omega
    rcases hsib with ⟨lsib, hlsib, hlnot⟩ | ⟨hlnone, rsib, hrsib, hrnot⟩
    · -- the leaf is a right child: pair (left sibling, leaf)
      obtain ⟨hframe, hhead, hconc⟩ :=
        rehash_chain f A' _ _ p0
          ((getN (setN t.nodes (t.leaves.getD index 0)
            { getN t.nodes (t.leaves.getD index 0) with hash := x }) lsib).hash) x
          hup2 hlast2 hnd_tail hlens2 hfuel2
      have hlnot2 : lsib ∉ p0 :: A' := fun hm => hlnot (List.mem_cons_of_mem _ hm)
      have hbni := hframe _ hni_notin
      refine ⟨rehash f (setN t.nodes (t.leaves.getD index 0)
          { getN t.nodes (t.leaves.getD index 0) with hash := x }) p0
          (getN (setN t.nodes (t.leaves.getD index 0)
            { getN t.nodes (t.leaves.getD index 0) with hash := x }) lsib).hash x true
          (setN t.nodes (t.leaves.getD index 0)
            { getN t.nodes (t.leaves.getD index 0) with hash := x }).length, ?_, ?_, ?_, ?_⟩
      · simp only [DynTree.Update, if_pos hin, hp, Bool.false_eq_true, if_false, hlsib, hparp0]
      · intro j hj
        rw [List.mem_cons] at hj
        rw [hframe j (fun hm => hj (Or.inr hm))]
        exact getN_setN_ne _ _ _ _ (fun hcon => hj (Or.inl hcon.symm))
      · rw [hbni]
        exact hhash1
      · refine ancLocalOK_of_conc f _ s index ?_ hkl ?_
        · refine reprB_frame _ _ s hrep1 hw.nodupIdxs
            (le_of_eq (rehash_length f _ _ _ _ _ _).symm)
            ((rehash_structEq f _ _ _ _ _ _ s.idx).2.2.2)
            (fun j _ _ => rehash_structEq f _ _ _ _ _ _ j)
        · rw [← hnis, hA]
          refine ⟨⟨?_, ?_⟩, hconc⟩
          · intro l' hl'
            rw [hbni, hlsib, Option.some_inj] at hl'
            subst hl'
            rw [hhead, hframe _ hlnot2, hbni, hhash1]
          · intro h0
            rw [hbni, hlsib] at h0
            exact absurd h0 (by simp)
    · -- the leaf is a left child: pair (leaf, right sibling)
      obtain ⟨hframe, hhead, hconc⟩ :=
        rehash_chain f A' _ _ p0 x
          ((getN (setN t.nodes (t.leaves.getD index 0)
            { getN t.nodes (t.leaves.getD index 0) with hash := x }) rsib).hash)
          hup2 hlast2 hnd_tail hlens2 hfuel2
      have hrnot2 : rsib ∉ p0 :: A' := fun hm => hrnot (List.mem_cons_of_mem _ hm)
      have hbni := hframe _ hni_notin
      refine ⟨rehash f (setN t.nodes (t.leaves.getD index 0)
          { getN t.nodes (t.leaves.getD index 0) with hash := x }) p0 x
          (getN (setN t.nodes (t.leaves.getD index 0)
            { getN t.nodes (t.leaves.getD index 0) with hash := x }) rsib).hash true
          (setN t.nodes (t.leaves.getD index 0)
            { getN t.nodes (t.leaves.getD index 0) with hash := x }).length, ?_, ?_, ?_, ?_⟩
      · simp only [DynTree.Update, if_pos hin, hp, Bool.false_eq_true, if_false, hlnone, hrsib, hparp0]
      · intro j hj
        rw [List.mem_cons] at hj
        rw [hframe j (fun hm => hj (Or.inr hm))]
        exact getN_setN_ne _ _ _ _ (fun hcon => hj (Or.inl hcon.symm))
      · rw [hbni]
        exact hhash1
      · refine ancLocalOK_of_conc f _ s index ?_ hkl ?_
        · refine reprB_frame _ _ s hrep1 hw.nodupIdxs
            (le_of_eq (rehash_length f _ _ _ _ _ _).symm)
            ((rehash_structEq f _ _ _ _ _ _ s.idx).2.2.2)
            (fun j _ _ => rehash_structEq f _ _ _ _ _ _ j)
        · rw [← hnis, hA]
          refine ⟨⟨?_, ?_⟩, hconc⟩
          · intro l' hl'
            rw [hbni, hlnone] at hl'
            exact absurd hl' (by simp)
          · intro _ r' hr'
            rw [hbni, hrsib, Option.some_inj] at hr'
            subst hr'
            rw [hhead, hframe _ hrnot2, hbni, hhash1]

/-- **C6.** `Update(index, x)` fails exactly when `index` is out of range —
the Go code then panics on the slice access before any mutation, so no tree
results and the state is untouched.  In range it stores `x` as the leaf's
hash and leaves structure, root, leaf list, height and pause flag unchanged;
when paused nothing but that one hash cell changes, and when not paused the
hashes along the leaf's ancestor chain (and only those) are recombined, every
ancestor ending consistent with its two children via the sibling links. -/
theorem c6_update_contract (f : Nat → Nat → Nat) {t : DynTree} (h : Reachable f t)
    (index x : Nat) :
    (¬ index < t.LeavesLen → t.Update f index x = none) ∧
    (index < t.LeavesLen → ∃ t', t.Update f index x = some t' ∧
      t'.root = t.root ∧ t'.leaves = t.leaves ∧ t'.height = t.height ∧
      t'.paused = t.paused ∧ (∀ j, structEq (getN t'.nodes j) (getN t.nodes j)) ∧
      (getN t'.nodes (t.leaves.getD index 0)).hash = x ∧
      (t.paused = true → t'.nodes = setN t.nodes (t.leaves.getD index 0)
        { getN t.nodes (t.leaves.getD index 0) with hash := x }) ∧
      (t.paused = false → ∃ s, WFT t s ∧
        (∀ j, j ∉ (t.leaves.getD index 0) :: leafAnc s index →
          getN t'.nodes j = getN t.nodes j) ∧
        AncLocalOK f t'.nodes s index)) := by
  constructor
  · intro hout
    have hout2 : ¬ index < t.leaves.length := hout
    rw [DynTree.Update, if_neg hout2]
  · intro hin
    rcases shaped_reachable f h with he | ⟨s, hw⟩
    · rw [DynTree.LeavesLen, he.2.2.1] at hin
      exact absurd hin (by simp)
    have hin2 : index < t.leaves.length := hin
    have hkl : index < s.leafIdxs.length := by
      rw [← hw.leavesEq]
      exact hin2
    have hni_mem : t.leaves.getD index 0 ∈ s.idxs := by
      rw [hw.leavesEq]
      exact AT.mem_idxs_of_mem_leafIdxs s _ (getD_mem_of_lt hkl 0)
    have hni_lt : t.leaves.getD index 0 < t.nodes.length := hw.idxs_lt _ hni_mem
    by_cases hp : t.paused = true
    · refine ⟨{ t with nodes := (setN t.nodes (t.leaves.getD index 0) { getN t.nodes (t.leaves.getD index 0) with hash := x }) }, ?_, rfl, rfl, rfl, rfl, ?_, ?_, fun _ => rfl, ?_⟩
      · simp only [DynTree.Update, if_pos hin2, if_pos hp]
      · intro j
        exact setN_hash_structEq _ _ _ j
      · rw [getN_setN_self _ _ _ hni_lt]
      · intro hf
        rw [hf] at hp
        exact Bool.noConfusion hp
    · rw [Bool.not_eq_true] at hp
      obtain ⟨nodes2, hueq, hframe, hhash, hanclocal⟩ := update_rehash_ok f hw hp index x hin2
      obtain ⟨hlen', hst', hroot', hleaves', hheight', hpaused'⟩ := update_struct f index x hueq
      refine ⟨_, hueq, hroot', hleaves', hheight', hpaused', hst', hhash, ?_, ?_⟩
      · intro hpt
        rw [hpt] at hp
        exact Bool.noConfusion hp
      · intro _
        exact ⟨s, hw, hframe, hanclocal⟩

theorem c6_update_contract_witness :
    (¬ 1 < (demoTree [1, 2, 3]).LeavesLen → (demoTree [1, 2, 3]).Update combineDemo 1 9 = none) ∧
    (1 < (demoTree [1, 2, 3]).LeavesLen → ∃ t',
      (demoTree [1, 2, 3]).Update combineDemo 1 9 = some t' ∧
      t'.root = (demoTree [1, 2, 3]).root ∧ t'.leaves = (demoTree [1, 2, 3]).leaves ∧
      t'.height = (demoTree [1, 2, 3]).height ∧ t'.paused = (demoTree [1, 2, 3]).paused ∧
      (∀ j, structEq (getN t'.nodes j) (getN (demoTree [1, 2, 3]).nodes j)) ∧
      (getN t'.nodes ((demoTree [1, 2, 3]).leaves.getD 1 0)).hash = 9 ∧
      ((demoTree [1, 2, 3]).paused = true → t'.nodes =
        setN (demoTree [1, 2, 3]).nodes ((demoTree [1, 2, 3]).leaves.getD 1 0)
          { getN (demoTree [1, 2, 3]).nodes ((demoTree [1, 2, 3]).leaves.getD 1 0)
              with hash := 9 }) ∧
      ((demoTree [1, 2, 3]).paused = false → ∃ s, WFT (demoTree [1, 2, 3]) s ∧
        (∀ j, j ∉ ((demoTree [1, 2, 3]).leaves.getD 1 0) :: leafAnc s 1 →
          getN t'.nodes j = getN (demoTree [1, 2, 3]).nodes j) ∧
        AncLocalOK combineDemo t'.nodes s 1)) :=
  c6_update_contract combineDemo
    (Reachable.add 3 (Reachable.add 2 (Reachable.add 1 (Reachable.init 4)))) 1 9

/-! ### Rows of equal-height members: the sweep of `recompute` -/

/-- Left-to-right list of the members of `s` of height exactly `h`. -/
def rowA (h : Nat) : AT → List Nat
  | .leaf i => if h = 0 then [i] else []
  | .node i l r => if l.ht + 1 = h then [i] else rowA h l ++ rowA h r

theorem rowA_leaf (h i : Nat) : rowA h (.leaf i) = if h = 0 then [i] else [] := rfl

theorem rowA_node (h i : Nat) (l r : AT) :
    rowA h (.node i l r) = if l.ht + 1 = h then [i] else rowA h l ++ rowA h r := rfl

theorem rowA_zero : ∀ s : AT, rowA 0 s = s.leafIdxs := by
  intro s
  induction s with
  | leaf i => rfl
  | node i l r ihl ihr =>
    rw [rowA_node, if_neg (by omega), ihl, ihr]
    rfl

theorem rowA_self : ∀ (s : AT) (h : Nat), s.ht = h → rowA h s = [s.idx] := by
  intro s h
  cases s with
  | leaf i =>
    intro hh
    have h0 : h = 0 := hh.symm
    subst h0
    rfl
  | node i l r =>
    intro hh
    have h2 : l.ht + 1 = h := hh
    rw [rowA_node, if_pos h2]
    rfl

theorem rowA_gt : ∀ (s : AT), s.canonb = true → ∀ h, s.ht < h → rowA h s = [] := by
  intro s
  induction s with
  | leaf i =>
    intro _ h hh
    rw [rowA_leaf, if_neg (by omega)]
  | node i l r ihl ihr =>
    intro hcan h hh
    obtain ⟨hlp, hrc, hle⟩ := (canonb_node i l r).1 hcan
    have hht : (AT.node i l r).ht = l.ht + 1 := rfl
    rw [hht] at hh
    rw [rowA_node, if_neg (by omega), ihl (AT.perfect_canon l hlp) h (by omega),
      ihr hrc h (by omega)]
    rfl

theorem rowA_heights (a : List DynTreeNode) :
    ∀ s : AT, ReprB a s = true → ∀ h, ∀ j ∈ rowA h s, (getN a j).height = h := by
  intro s
  induction s with
  | leaf i =>
    intro hrep h j hj
    by_cases h0 : h = 0
    · subst h0
      rw [rowA_leaf, if_pos rfl, List.mem_singleton] at hj
      rw [hj]
      exact ((reprB_leaf a i).1 hrep).2
    · rw [rowA_leaf, if_neg h0] at hj
      exact absurd hj (by simp)
  | node i l r ihl ihr =>
    intro hrep h j hj
    obtain ⟨-, hht, hl, hr, -, -, -, -, -, -⟩ := (reprB_node a i l r).1 hrep
    rw [rowA_node] at hj
    by_cases he : l.ht + 1 = h
    · rw [if_pos he, List.mem_singleton] at hj
      rw [hj, hht, he]
    · rw [if_neg he, List.mem_append] at hj
      rcases hj with hj | hj
      · exact ihl hl h j hj
      · exact ihr hr h j hj

theorem rowA_subset : ∀ (s : AT) (h : Nat), ∀ j ∈ rowA h s, j ∈ s.idxs := by
  intro s
  induction s with
  | leaf i =>
    intro h j hj
    by_cases h0 : h = 0
    · subst h0
      exact hj
    · rw [rowA_leaf, if_neg h0] at hj
      exact absurd hj (by simp)
  | node i l r ihl ihr =>
    intro h j hj
    rw [rowA_node] at hj
    by_cases he : l.ht + 1 = h
    · rw [if_pos he, List.mem_singleton] at hj
      rw [hj]
      exact List.mem_cons_self _ _
    · rw [if_neg he, List.mem_append] at hj
      rcases hj with hj | hj
      · exact mem_idxs_left (ihl h j hj)
      · exact mem_idxs_right (ihr h j hj)

theorem rowA_len_perfect : ∀ s : AT, s.perfectb = true →
    ∀ h, h ≤ s.ht → (rowA h s).length = 2 ^ (s.ht - h) := by
  intro s
  induction s with
  | leaf i =>
    intro _ h hh
    have h0 : h = 0 := by
      have : (AT.leaf i).ht = 0 := rfl
      omega
    subst h0
    rfl
  | node i l r ihl ihr =>
    intro hperf h hh
    obtain ⟨hlp, hrp, hre⟩ := (perfectb_node i l r).1 hperf
    have hht : (AT.node i l r).ht = l.ht + 1 := rfl
    rw [rowA_node]
    by_cases he : l.ht + 1 = h
    · rw [if_pos he, hht, he, Nat.sub_self]
      rfl
    · rw [hht] at hh ⊢
      have hhl : h ≤ l.ht := by omega
      rw [if_neg he, List.length_append, ihl hlp h hhl, ihr hrp h (by omega), hre]
      rw [show l.ht + 1 - h = (l.ht - h) + 1 by omega, Nat.pow_succ]
      omega

theorem rowA_even {s : AT} (hperf : s.perfectb = true) {h : Nat} (hh : h < s.ht) :
    (rowA h s).length % 2 = 0 := by
  rw [rowA_len_perfect s hperf h (by omega)]
  rw [show s.ht - h = (s.ht - h - 1) + 1 by omega, Nat.pow_succ]
  omega

theorem rowA_ne_nil : ∀ s : AT, s.canonb = true → ∀ h, h ≤ s.ht → rowA h s ≠ [] := by
  intro s
  induction s with
  | leaf i =>
    intro _ h hh
    have h0 : h = 0 := by
      have : (AT.leaf i).ht = 0 := rfl
      omega
    subst h0
    rw [rowA_leaf, if_pos rfl]
    simp
  | node i l r ihl ihr =>
    intro hcan h hh
    obtain ⟨hlp, hrc, hle⟩ := (canonb_node i l r).1 hcan
    have hht : (AT.node i l r).ht = l.ht + 1 := rfl
    rw [rowA_node]
    by_cases he : l.ht + 1 = h
    · rw [if_pos he]
      simp
    · rw [hht] at hh
      rw [if_neg he]
      intro hcon
      rcases List.append_eq_nil.1 hcon with ⟨h1, -⟩
      exact ihl (AT.perfect_canon l hlp) h (by omega) h1

/-! ### The strided inner loop of `recompute` -/

theorem everyOther_cc (x y : Nat) (rest : List Nat) :
    everyOther (x :: y :: rest) = x :: everyOther rest := rfl

theorem everyOther_append_even :
    ∀ (n : Nat) (A B : List Nat), A.length ≤ n → A.length % 2 = 0 →
      everyOther (A ++ B) = everyOther A ++ everyOther B := by
  intro n
  induction n with
  | zero =>
    intro A B h1 h2
    have hA : A = [] := List.length_eq_zero.1 (by omega)
    subst hA
    rfl
  | succ n ih =>
    intro A B h1 h2
    match A with
    | [] => rfl
    | [x] => simp at h2
    | x :: y :: rest =>
      show x :: everyOther (rest ++ B) = (x :: everyOther rest) ++ everyOther B
      rw [List.length_cons, List.length_cons] at h1 h2
      rw [ih rest B (by omega) (by omega)]
      rfl

theorem rehash_one (f : Nat → Nat → Nat) (a : List DynTreeNode) (p x y : Nat) :
    rehash f a p x y false 1 = setN a p { getN a p with hash := f x y } := rfl

theorem recomputeLevel_nil (f : Nat → Nat → Nat) (a : List DynTreeNode) (height : Nat) :
    recomputeLevel f a height [] = (a, []) := rfl

theorem recomputeLevel_cons (f : Nat → Nat → Nat) (a : List DynTreeNode) (height x : Nat)
    (rest : List Nat) :
    recomputeLevel f a height (x :: rest) =
      (match (getN a x).parent with
       | some p =>
         if (getN a p).height = height + 1 then
           ((recomputeLevel f
              (rehash f a p (getN a x).hash
                (getN a ((getN a x).right.getD a.length)).hash false 1) height rest).1,
            p :: (recomputeLevel f
              (rehash f a p (getN a x).hash
                (getN a ((getN a x).right.getD a.length)).hash false 1) height rest).2)
         else recomputeLevel f a height rest
       | none => recomputeLevel f a height rest) := rfl

theorem recomputeLevel_append (f : Nat → Nat → Nat) (height : Nat) :
    ∀ (X Y : List Nat) (a : List DynTreeNode),
      recomputeLevel f a height (X ++ Y) =
        ((recomputeLevel f (recomputeLevel f a height X).1 height Y).1,
         (recomputeLevel f a height X).2 ++
           (recomputeLevel f (recomputeLevel f a height X).1 height Y).2) := by
  intro X
  induction X with
  | nil =>
    intro Y a
    rfl
  | cons x X ih =>
    intro Y a
    rw [List.cons_append]
    simp only [recomputeLevel_cons]
    cases hpar : (getN a x).parent with
    | none => exact ih Y a
    | some p =>
      by_cases hh : (getN a p).height = height + 1
      · simp only [if_pos hh]
        rw [ih Y _]
        rfl
      · simp only [if_neg hh]
        exact ih Y a

/-- Every internal member at height `hh` holds in `aNew` the combine of its
children's hashes as read in `aOld`. -/
def RowOK (f : Nat → Nat → Nat) (aOld aNew : List DynTreeNode) (hh : Nat) : AT → Prop
  | .leaf _ => True
  | .node i l r =>
    (l.ht + 1 = hh → (getN aNew i).hash = f (getN aOld l.idx).hash (getN aOld r.idx).hash) ∧
    RowOK f aOld aNew hh l ∧ RowOK f aOld aNew hh r

theorem rowOK_of_tall (f : Nat → Nat → Nat) (aOld aNew : List DynTreeNode) :
    ∀ s : AT, s.canonb = true → ∀ hh, s.ht < hh → RowOK f aOld aNew hh s := by
  intro s
  induction s with
  | leaf i => intro _ hh _; trivial
  | node i l r ihl ihr =>
    intro hcan hh hht
    obtain ⟨hlp, hrc, hle⟩ := (canonb_node i l r).1 hcan
    have h2 : (AT.node i l r).ht = l.ht + 1 := rfl
    rw [h2] at hht
    exact ⟨fun he => absurd he (by omega), ihl (AT.perfect_canon l hlp) hh (by omega),
      ihr hrc hh (by omega)⟩

theorem rowOK_congr_new (f : Nat → Nat → Nat) (aOld aNew aNew' : List DynTreeNode) :
    ∀ (s : AT) (hh : Nat), (∀ j ∈ s.idxs, (getN aNew' j).hash = (getN aNew j).hash) →
      RowOK f aOld aNew hh s → RowOK f aOld aNew' hh s := by
  intro s
  induction s with
  | leaf i => intro hh _ _; trivial
  | node i l r ihl ihr =>
    intro hh hcong hok
    obtain ⟨htop, hokl, hokr⟩ := hok
    refine ⟨?_, ihl hh (fun j hj => hcong j (mem_idxs_left hj)) hokl,
      ihr hh (fun j hj => hcong j (mem_idxs_right hj)) hokr⟩
    intro he
    rw [hcong i (List.mem_cons_self _ _)]
    exact htop he

theorem rowOK_congr_old (f : Nat → Nat → Nat) (aOld aOld' aNew : List DynTreeNode) :
    ∀ (s : AT) (hh : Nat), (∀ j ∈ s.idxs, (getN aOld' j).hash = (getN aOld j).hash) →
      RowOK f aOld aNew hh s → RowOK f aOld' aNew hh s := by
  intro s
  induction s with
  | leaf i => intro hh _ _; trivial
  | node i l r ihl ihr =>
    intro hh hcong hok
    obtain ⟨htop, hokl, hokr⟩ := hok
    refine ⟨?_, ihl hh (fun j hj => hcong j (mem_idxs_left hj)) hokl,
      ihr hh (fun j hj => hcong j (mem_idxs_right hj)) hokr⟩
    intro he
    rw [hcong l.idx (mem_idxs_left (AT.idx_mem_idxs l)),
      hcong r.idx (mem_idxs_right (AT.idx_mem_idxs r))]
    exact htop he

/-- Hash consistency of all internal members whose height is at most `hh`. -/
def HashOKBelow (f : Nat → Nat → Nat) (a : List DynTreeNode) (hh : Nat) : AT → Prop
  | .leaf _ => True
  | .node i l r =>
    (l.ht + 1 ≤ hh → (getN a i).hash = f (getN a l.idx).hash (getN a r.idx).hash) ∧
    HashOKBelow f a hh l ∧ HashOKBelow f a hh r

theorem hashOKBelow_zero (f : Nat → Nat → Nat) (a : List DynTreeNode) :
    ∀ s : AT, HashOKBelow f a 0 s := by
  intro s
  induction s with
  | leaf i => trivial
  | node i l r ihl ihr => exact ⟨fun he => absurd he (by omega), ihl, ihr⟩

theorem hashOKA_of_below (f : Nat → Nat → Nat) (a : List DynTreeNode) :
    ∀ (s : AT) (hh : Nat), s.canonb = true → s.ht ≤ hh →
      HashOKBelow f a hh s → HashOKA f a s := by
  intro s
  induction s with
  | leaf i => intro hh _ _ _; trivial
  | node i l r ihl ihr =>
    intro hh hcan hht hbel
    obtain ⟨hlp, hrc, hle⟩ := (canonb_node i l r).1 hcan
    obtain ⟨htop, hbl, hbr⟩ := hbel
    have h2 : (AT.node i l r).ht = l.ht + 1 := rfl
    rw [h2] at hht
    exact ⟨htop hht, ihl hh (AT.perfect_canon l hlp) (by omega) hbl,
      ihr hh hrc (by omega) hbr⟩

/-- Writing one row on top of consistency below `h` gives consistency below
`h + 1`. -/
theorem hashOKBelow_step (f : Nat → Nat → Nat) (a a1 : List DynTreeNode) :
    ∀ (s : AT) (h : Nat), ReprB a s = true → s.canonb = true → s.idxs.Nodup →
      HashOKBelow f a h s →
      RowOK f a a1 (h + 1) s →
      (∀ j ∈ s.idxs, j ∉ rowA (h + 1) s → getN a1 j = getN a j) →
      HashOKBelow f a1 (h + 1) s := by
  intro s
  induction s with
  | leaf i => intro h _ _ _ _ _ _; trivial
  | node i l r ihl ihr =>
    intro h hrep hcan hnd hbel hrow hframe
    obtain ⟨hi_lt, hht, hl, hr, hpl, hpr, hlr, hrl, hll, hrr⟩ := (reprB_node a i l r).1 hrep
    obtain ⟨hlp, hrc, hle⟩ := (canonb_node i l r).1 hcan
    obtain ⟨hndl, hndr, hdisj, hil, hir⟩ := nodup_node_parts hnd
    obtain ⟨hbtop, hbl, hbr⟩ := hbel
    obtain ⟨hrtop, hrl2, hrr2⟩ := hrow
    have hnotrow : ∀ j ∈ (AT.node i l r).idxs, (getN a j).height ≠ h + 1 →
        j ∉ rowA (h + 1) (AT.node i l r) := by
      intro j hjm hjh hjr
      exact hjh (rowA_heights a (AT.node i l r) hrep (h + 1) j hjr)
    have hfl : ∀ j ∈ l.idxs, j ∉ rowA (h + 1) l → getN a1 j = getN a j := by
      intro j hj hjr
      refine hframe j (mem_idxs_left hj) ?_
      rw [rowA_node]
      by_cases he : l.ht + 1 = h + 1
      · rw [if_pos he, List.mem_singleton]
        intro hcon
        rw [hcon] at hj
        exact hil hj
      · rw [if_neg he, List.mem_append]
        rintro (hc | hc)
        · exact hjr hc
        · exact hdisj j hj (rowA_subset r (h + 1) j hc)
    have hfr : ∀ j ∈ r.idxs, j ∉ rowA (h + 1) r → getN a1 j = getN a j := by
      intro j hj hjr
      refine hframe j (mem_idxs_right hj) ?_
      rw [rowA_node]
      by_cases he : l.ht + 1 = h + 1
      · rw [if_pos he, List.mem_singleton]
        intro hcon
        rw [hcon] at hj
        exact hir hj
      · rw [if_neg he, List.mem_append]
        rintro (hc | hc)
        · exact hdisj j (rowA_subset l (h + 1) j hc) hj
        · exact hjr hc
    have hhl_idx : (getN a l.idx).height = l.ht := reprB_ht a l hl
    have hhr_idx : (getN a r.idx).height = r.ht := reprB_ht a r hr
    refine ⟨?_, ihl h hl (AT.perfect_canon l hlp) hndl hbl hrl2 hfl,
      ihr h hr hrc hndr hbr hrr2 hfr⟩
    intro hle2
    by_cases he : l.ht + 1 = h + 1
    · have hchl : getN a1 l.idx = getN a l.idx := by
        refine hframe l.idx (mem_idxs_left (AT.idx_mem_idxs l))
          (hnotrow l.idx (mem_idxs_left (AT.idx_mem_idxs l)) (by omega))
      have hchr : getN a1 r.idx = getN a r.idx := by
        refine hframe r.idx (mem_idxs_right (AT.idx_mem_idxs r))
          (hnotrow r.idx (mem_idxs_right (AT.idx_mem_idxs r)) (by omega))
      rw [hchl, hchr]
      exact hrtop he
    · have hlow : l.ht + 1 ≤ h := by omega
      have hchi : getN a1 i = getN a i := by
        refine hframe i (List.mem_cons_self _ _)
          (hnotrow i (List.mem_cons_self _ _) (by omega))
      have hchl : getN a1 l.idx = getN a l.idx := by
        refine hframe l.idx (mem_idxs_left (AT.idx_mem_idxs l))
          (hnotrow l.idx (mem_idxs_left (AT.idx_mem_idxs l)) (by omega))
      have hchr : getN a1 r.idx = getN a r.idx := by
        refine hframe r.idx (mem_idxs_right (AT.idx_mem_idxs r))
          (hnotrow r.idx (mem_idxs_right (AT.idx_mem_idxs r)) (by omega))
      rw [hchi, hchl, hchr]
      exact hbtop hlow

theorem everyOther_single (x : Nat) : everyOther [x] = [x] := rfl

/-- One level of the `recompute` sweep: processing the strided row at height
`h` writes exactly the row at height `h + 1` with the combine of each pair of
children, touching nothing else, and collects that next row in order. -/
theorem recomputeLevel_ok (f : Nat → Nat → Nat) :
    ∀ (s : AT) (a : List DynTreeNode) (h : Nat),
      ReprB a s = true → s.canonb = true → s.idxs.Nodup → h < s.ht →
      (recomputeLevel f a h (everyOther (rowA h s))).2 = rowA (h + 1) s ∧
      (∀ j, j ∉ rowA (h + 1) s →
        getN (recomputeLevel f a h (everyOther (rowA h s))).1 j = getN a j) ∧
      RowOK f a (recomputeLevel f a h (everyOther (rowA h s))).1 (h + 1) s := by
  intro s
  induction s with
  | leaf i =>
    intro a h _ _ _ hlt
    have h0 : (AT.leaf i).ht = 0 := rfl
    omega
  | node i l r ihl ihr =>
    intro a h hrep hcan hnd hlt
    obtain ⟨hi_lt, hht, hl, hr, hpl, hpr, hlr, hrl, hll, hrr⟩ := (reprB_node a i l r).1 hrep
    obtain ⟨hlp, hrc, hle⟩ := (canonb_node i l r).1 hcan
    obtain ⟨hndl, hndr, hdisj, hil, hir⟩ := nodup_node_parts hnd
    have hht2 : (AT.node i l r).ht = l.ht + 1 := rfl
    rw [hht2] at hlt
    have hne : l.ht + 1 ≠ h := by omega
    have hrowh : rowA h (AT.node i l r) = rowA h l ++ rowA h r := by
      rw [rowA_node, if_neg hne]
    by_cases hcase : h = l.ht
    · -- the row at `h` is the pair (or lone left child) right below the root
      have hrl_eq : rowA h l = [l.idx] := rowA_self l h hcase.symm
      have hstride : everyOther (rowA h (AT.node i l r)) = [l.idx] := by
        rw [hrowh, hrl_eq]
        rcases Nat.lt_or_ge r.ht h with hrlt | hrge
        · rw [rowA_gt r hrc h hrlt]
          rfl
        · have hre : r.ht = h := by omega
          rw [rowA_self r h hre]
          rfl
      have hrow1 : rowA (h + 1) (AT.node i l r) = [i] := by
        rw [rowA_node, if_pos (by omega)]
      rw [hstride, hrow1]
      have hih : (getN a i).height = h + 1 := by
        rw [hht]
        omega
      simp only [recomputeLevel_cons, hpl]
      rw [if_pos hih, hlr]
      simp only [Option.getD_some, rehash_one, recomputeLevel_nil]
      refine ⟨by trivial, ?_, ?_, ?_, ?_⟩
      · intro j hj
        rw [List.mem_singleton] at hj
        exact getN_setN_ne _ _ _ _ (fun hcon => hj hcon.symm)
      · intro _
        rw [getN_setN_self _ _ _ hi_lt]
      · exact rowOK_of_tall f a _ l (AT.perfect_canon l hlp) (h + 1) (by omega)
      · exact rowOK_of_tall f a _ r hrc (h + 1) (by omega)
    · -- the row is split across the two subtrees; the left half is even
      have hhl : h < l.ht := by omega
      have hrow1 : rowA (h + 1) (AT.node i l r)
          = rowA (h + 1) l ++ rowA (h + 1) r := by
        rw [rowA_node, if_neg (by omega)]
      have hsplit : everyOther (rowA h (AT.node i l r))
          = everyOther (rowA h l) ++ everyOther (rowA h r) := by
        rw [hrowh]
        exact everyOther_append_even (rowA h l).length _ _ (Nat.le_refl _)
          (rowA_even hlp hhl)
      rw [hsplit, recomputeLevel_append]
      obtain ⟨htop1, hframe1, hrowok1⟩ := ihl a h hl (AT.perfect_canon l hlp) hndl hhl
      have hstr1 : ∀ j, structEq (getN (recomputeLevel f a h (everyOther (rowA h l))).1 j)
          (getN a j) := fun j => recomputeLevel_structEq f h _ a j
      have hlen1 : (recomputeLevel f a h (everyOther (rowA h l))).1.length = a.length :=
        recomputeLevel_length f h _ a
      -- the right half, processed on the arena already holding the left writes
      have hstep2 : (recomputeLevel f (recomputeLevel f a h (everyOther (rowA h l))).1 h
            (everyOther (rowA h r))).2 = rowA (h + 1) r ∧
          (∀ j, j ∉ rowA (h + 1) r →
            getN (recomputeLevel f (recomputeLevel f a h (everyOther (rowA h l))).1 h
              (everyOther (rowA h r))).1 j
              = getN (recomputeLevel f a h (everyOther (rowA h l))).1 j) ∧
          RowOK f (recomputeLevel f a h (everyOther (rowA h l))).1
            (recomputeLevel f (recomputeLevel f a h (everyOther (rowA h l))).1 h
              (everyOther (rowA h r))).1 (h + 1) r := by
        rcases Nat.lt_or_ge h r.ht with hhr | hhr
        · have hrep2 : ReprB (recomputeLevel f a h (everyOther (rowA h l))).1 r = true :=
            reprB_frame a _ r hr hndr (le_of_eq hlen1.symm)
              ((hstr1 r.idx).2.2.2) (fun j _ _ => hstr1 j)
          exact ihr _ h hrep2 hrc hndr hhr
        · have hrownil : rowA (h + 1) r = [] := by
            refine rowA_gt r hrc (h + 1) (by omega)
          rcases Nat.lt_or_ge r.ht h with hrlt | hrge
          · rw [rowA_gt r hrc h hrlt]
            rw [hrownil]
            exact ⟨rfl, fun j _ => rfl, rowOK_of_tall f _ _ r hrc (h + 1) (by omega)⟩
          · have hre : r.ht = h := by omega
            rw [rowA_self r h hre]
            have hpr2 : (getN (recomputeLevel f a h (everyOther (rowA h l))).1 r.idx).parent
                = some i := by
              rw [(hstr1 r.idx).2.2.1]
              exact hpr
            have hih2 : (getN (recomputeLevel f a h (everyOther (rowA h l))).1 i).height
                ≠ h + 1 := by
              rw [(hstr1 i).2.2.2, hht]
              omega
            simp only [everyOther_single, recomputeLevel_cons, hpr2]
            rw [if_neg hih2, recomputeLevel_nil, hrownil]
            exact ⟨rfl, fun j _ => rfl, rowOK_of_tall f _ _ r hrc (h + 1) (by omega)⟩
      obtain ⟨htop2, hframe2, hrowok2⟩ := hstep2
      refine ⟨?_, ?_, ?_, ?_, ?_⟩
      · rw [htop1, htop2, hrow1]
      · intro j hj
        rw [hrow1, List.mem_append] at hj
        rw [hframe2 j (fun hm => hj (Or.inr hm)), hframe1 j (fun hm => hj (Or.inl hm))]
      · intro he
        exact absurd he (by omega)
      · refine rowOK_congr_new f a _ _ l (h + 1) ?_ hrowok1
        intro j hj
        rw [hframe2 j (fun hm => hdisj j hj (rowA_subset r (h + 1) j hm))]
      · refine rowOK_congr_old f _ a _ r (h + 1) ?_ hrowok2
        intro j hj
        rw [hframe1 j (fun hm => hdisj j (rowA_subset l (h + 1) j hm) hj)]

theorem recomputeLoop_zero (f : Nat → Nat → Nat) (a : List DynTreeNode) (rows : List Nat) :
    recomputeLoop f a rows 0 = a := rfl

theorem recomputeLoop_nil (f : Nat → Nat → Nat) (a : List DynTreeNode) :
    ∀ fuel, recomputeLoop f a [] fuel = a := by
  intro fuel
  cases fuel with
  | zero => rfl
  | succ fuel => rfl

theorem recomputeLoop_cons (f : Nat → Nat → Nat) (a : List DynTreeNode) (r : Nat)
    (rest : List Nat) (fuel : Nat) :
    recomputeLoop f a (r :: rest) (fuel + 1) =
      recomputeLoop f
        (recomputeLevel f a ((getN a r).height) (everyOther (r :: rest))).1
        (recomputeLevel f a ((getN a r).height) (everyOther (r :: rest))).2 fuel := rfl

/-- The level-by-level sweep of `recompute`, started at the row of height
`h` with consistency already holding below `h`, ends with full hash
consistency; nodes of height `0` are never written. -/
theorem recomputeLoop_ok (f : Nat → Nat → Nat) :
    ∀ (fuel : Nat) (a : List DynTreeNode) (s : AT) (h : Nat),
      ReprB a s = true → s.canonb = true → s.idxs.Nodup →
      (getN a s.idx).parent = none →
      h ≤ s.ht → HashOKBelow f a h s → s.ht - h < fuel →
      HashOKA f (recomputeLoop f a (rowA h s) fuel) s ∧
      (∀ j, (getN a j).height = 0 → getN (recomputeLoop f a (rowA h s) fuel) j = getN a j) := by
  intro fuel
  induction fuel with
  | zero =>
    intro a s h _ _ _ _ _ _ hf
    omega
  | succ fuel ih =>
    intro a s h hrep hcan hnd hroot hle hbel hf
    by_cases hcase : h = s.ht
    · subst hcase
      rw [rowA_self s s.ht rfl]
      have hhr : (getN a s.idx).height = s.ht := by
        rw [reprB_ht a s hrep]
      rw [recomputeLoop_cons, hhr]
      simp only [everyOther_single, recomputeLevel_cons, hroot, recomputeLevel_nil, recomputeLoop_nil]
      exact ⟨hashOKA_of_below f a s s.ht hcan (Nat.le_refl _) hbel, fun j _ => trivial⟩
    · have hlt : h < s.ht := by omega
      rcases hrow : rowA h s with _ | ⟨r0, rest⟩
      · exact absurd hrow (rowA_ne_nil s hcan h (by omega))
      obtain ⟨htop, hframe, hrowok⟩ := recomputeLevel_ok f s a h hrep hcan hnd hlt
      have hr0h : (getN a r0).height = h :=
        rowA_heights a s hrep h r0 (by rw [hrow]; exact List.mem_cons_self _ _)
      rw [hrow] at htop hframe hrowok
      rw [recomputeLoop_cons, hr0h, htop]
      have hstr : ∀ j, structEq
          (getN (recomputeLevel f a h (everyOther (r0 :: rest))).1 j) (getN a j) :=
        fun j => recomputeLevel_structEq f h _ a j
      have hlen : (recomputeLevel f a h (everyOther (r0 :: rest))).1.length = a.length :=
        recomputeLevel_length f h _ a
      have hrep2 : ReprB (recomputeLevel f a h (everyOther (r0 :: rest))).1 s = true :=
        reprB_frame a _ s hrep hnd (le_of_eq hlen.symm) ((hstr s.idx).2.2.2)
          (fun j _ _ => hstr j)
      have hroot2 : (getN (recomputeLevel f a h (everyOther (r0 :: rest))).1 s.idx).parent
          = none := by
        rw [(hstr s.idx).2.2.1]
        exact hroot
      have hbel2 : HashOKBelow f (recomputeLevel f a h (everyOther (r0 :: rest))).1 (h + 1) s := by
        refine hashOKBelow_step f a _ s h hrep hcan hnd hbel hrowok ?_
        intro j _ hjr
        exact hframe j hjr
      obtain ⟨hok, hlow⟩ := ih _ s (h + 1) hrep2 hcan hnd hroot2 (by omega) hbel2 (by omega)
      refine ⟨hok, ?_⟩
      intro j hj0
      have hjnot : j ∉ rowA (h + 1) s := by
        intro hm
        have := rowA_heights a s hrep (h + 1) j hm
        omega
      rw [hlow j (by rw [(hstr j).2.2.2]; exact hj0), hframe j hjnot]

/-- `Resume`'s single bottom-up pass restores full hash consistency on the
stored shape and leaves height-0 nodes untouched. -/
theorem resume_ok (f : Nat → Nat → Nat) {t : DynTree} {s : AT} (hw : WFT t s) :
    HashOKA f (t.Resume f).nodes s ∧
    (∀ j, (getN t.nodes j).height = 0 → getN (t.Resume f).nodes j = getN t.nodes j) := by
  show HashOKA f (recomputeLoop f t.nodes t.leaves (t.nodes.length + 1)) s ∧
    (∀ j, (getN t.nodes j).height = 0 →
      getN (recomputeLoop f t.nodes t.leaves (t.nodes.length + 1)) j = getN t.nodes j)
  rw [hw.leavesEq, ← rowA_zero s]
  exact recomputeLoop_ok f (t.nodes.length + 1) t.nodes s 0 hw.repr hw.canon hw.nodupIdxs
    hw.rootParent (Nat.zero_le _) (hashOKBelow_zero f t.nodes s)
    (by have := hw.ht_lt_len; omega)

theorem reprB_leafIdxs_height (a : List DynTreeNode) :
    ∀ s : AT, ReprB a s = true → ∀ j ∈ s.leafIdxs, (getN a j).height = 0 := by
  intro s
  induction s with
  | leaf i =>
    intro hrep j hj
    rw [AT.leafIdxs, List.mem_singleton] at hj
    rw [hj]
    exact ((reprB_leaf a i).1 hrep).2
  | node i l r ihl ihr =>
    intro hrep j hj
    obtain ⟨-, -, hl, hr, -, -, -, -, -, -⟩ := (reprB_node a i l r).1 hrep
    rw [AT.leafIdxs, List.mem_append] at hj
    rcases hj with hj | hj
    · exact ihl hl j hj
    · exact ihr hr j hj

theorem attachAnc_heights (a : List DynTreeNode) :
    ∀ s : AT, ReprB a s = true → ∀ j ∈ attachAnc s, 1 ≤ (getN a j).height := by
  intro s
  induction s with
  | leaf i =>
    intro _ j hj
    exact absurd hj (by simp [attachAnc])
  | node i l r ihl ihr =>
    intro hrep j hj
    obtain ⟨-, hht, hl, hr, -, -, -, -, -, -⟩ := (reprB_node a i l r).1 hrep
    rw [attachAnc] at hj
    by_cases hsat : (AT.node i l r).saturatedb = true
    · rw [if_pos hsat] at hj
      exact absurd hj (by simp)
    · rw [if_neg hsat, List.mem_append, List.mem_singleton] at hj
      rcases hj with hj | hj
      · exact ihr hr j hj
      · rw [hj, hht]
        omega

/-- The hashes of two consistent arenas storing the same shape agree at the
root as soon as they agree on the leaves. -/
theorem hash_det (f : Nat → Nat → Nat) (a1 a2 : List DynTreeNode) :
    ∀ s : AT, HashOKA f a1 s → HashOKA f a2 s →
      (∀ j ∈ s.leafIdxs, (getN a2 j).hash = (getN a1 j).hash) →
      (getN a2 s.idx).hash = (getN a1 s.idx).hash := by
  intro s
  induction s with
  | leaf i =>
    intro _ _ hleaf
    exact hleaf i (List.mem_cons_self _ _)
  | node i l r ihl ihr =>
    intro hok1 hok2 hleaf
    obtain ⟨hloc1, hl1, hr1⟩ := hok1
    obtain ⟨hloc2, hl2, hr2⟩ := hok2
    show (getN a2 i).hash = (getN a1 i).hash
    rw [hloc1, hloc2]
    rw [ihl hl1 hl2 (fun j hj => hleaf j (by rw [AT.leafIdxs]; exact List.mem_append.2 (Or.inl hj))),
      ihr hr1 hr2 (fun j hj => hleaf j (by rw [AT.leafIdxs]; exact List.mem_append.2 (Or.inr hj)))]

/-- `Add` never rewrites an existing leaf hash, and stores the new digest in
the appended leaf node — whether hashing is paused or active. -/
theorem add_hashes (f : Nat → Nat → Nat) (x : Nat) {t : DynTree} {s : AT} (hw : WFT t s) :
    (∀ j ∈ s.leafIdxs, (getN (t.Add f x).nodes j).hash = (getN t.nodes j).hash) ∧
    (getN (t.Add f x).nodes t.nodes.length).hash = x := by
  obtain ⟨a4, hnodes, hlen4, hleaves, hroot, hheight, hpaused, hN, hP, hC, hLLs, hOther⟩ :=
    add_exec f x hw
  have ha4 : ∀ j, j < t.nodes.length → (getN a4 j).hash = (getN t.nodes j).hash := by
    intro j hj
    by_cases hjc : j = (attach s).idx
    · rw [hjc, hC]
    · by_cases hjll : (getN t.nodes (attach s).idx).left = some j
      · rw [hLLs j hjll]
      · rw [hOther j hj hjc hjll]
  have ha4N : (getN a4 t.nodes.length).hash = x := by rw [hN]
  by_cases hp : t.paused = true
  · rw [if_pos hp] at hnodes
    exact ⟨fun j hj => by
        rw [hnodes]
        exact ha4 j (hw.idxs_lt _ (AT.mem_idxs_of_mem_leafIdxs s _ hj)),
      by rw [hnodes]; exact ha4N⟩
  · rw [if_neg hp] at hnodes
    have hwft2 : WFT (t.Add f x) (addA t.nodes.length (t.nodes.length + 1) s) :=
      wft_add f x hw
    have hstF : ∀ j, structEq (getN (t.Add f x).nodes j) (getN a4 j) := by
      intro j
      rw [hnodes]
      exact rehash_structEq f _ _ _ _ _ _ j
    have hlenF : (t.Add f x).nodes.length = a4.length := by
      rw [hnodes]
      exact rehash_length f _ _ _ _ _ _
    have hreprA4 : ReprB a4 (addA t.nodes.length (t.nodes.length + 1) s) = true :=
      reprB_frame (t.Add f x).nodes a4 _ hwft2.repr hwft2.nodupIdxs (by omega)
        ((hstF _).2.2.2.symm) (fun j _ _ => structEq_symm (hstF j))
    obtain ⟨hup, hlastEq, hmemChain, hndChain⟩ :=
      chainHypUp_ofAnc a4 (ancOf_addA t.nodes.length (t.nodes.length + 1) s) hreprA4
        hwft2.nodupIdxs ((t.nodes.length + 1) :: attachAnc s) (fun c hc => Or.inl hc)
    have hlast : (getN a4 ((attachAnc s).getLastD (t.nodes.length + 1))).parent = none := by
      rw [hlastEq, ← (hstF _).2.2.1]
      exact hwft2.rootParent
    have hlens : ∀ c ∈ (t.nodes.length + 1) :: attachAnc s, c < a4.length := by
      intro c hc
      rw [← hlenF]
      exact hwft2.idxs_lt c (hmemChain c hc)
    have hsub : ((t.nodes.length + 1) :: attachAnc s)
        ⊆ (addA t.nodes.length (t.nodes.length + 1) s).idxs := fun c hc => hmemChain c hc
    have hfuel : (attachAnc s).length < a4.length := by
      have h1 := (List.subperm_of_subset hndChain hsub).length_le
      rw [hwft2.len_idxs, hlenF] at h1
      simp at h1
      omega
    obtain ⟨hframe, hhead, hconc⟩ :=
      rehash_chain f (attachAnc s) a4.length a4 (t.nodes.length + 1)
        ((getN a4 (attach s).idx).hash) x hup hlast hndChain hlens hfuel
    rw [← hnodes] at hframe
    have hanc_h : ∀ c ∈ attachAnc s, 1 ≤ (getN t.nodes c).height :=
      attachAnc_heights t.nodes s hw.repr
    constructor
    · intro j hj
      have hj0 : (getN t.nodes j).height = 0 :=
        reprB_leafIdxs_height t.nodes s hw.repr j hj
      have hjlt : j < t.nodes.length :=
        hw.idxs_lt _ (AT.mem_idxs_of_mem_leafIdxs s _ hj)
      have hjnot : j ∉ (t.nodes.length + 1) :: attachAnc s := by
        rw [List.mem_cons]
        rintro (h1 | h1)
        · omega
        · have := hanc_h j h1
          omega
      rw [hframe j hjnot]
      exact ha4 j hjlt
    · have hn0not : t.nodes.length ∉ (t.nodes.length + 1) :: attachAnc s := by
        rw [List.mem_cons]
        rintro (h1 | h1)
        · omega
        · have := hw.idxs_lt _ (attachAnc_subset s _ h1)
          omega
      rw [hframe _ hn0not]
      exact ha4N

theorem add_empty_nodes (f : Nat → Nat → Nat) (x : Nat) {t : DynTree} (h : EmptyState t) :
    (t.Add f x).nodes
      = [{ hash := x, left := none, right := none, parent := none, height := 0 }] := by
  obtain ⟨hn, hr, -, -⟩ := h
  simp [DynTree.Add, hn, hr]

/-- The pairing of an eager run with a paused run over the same inputs: the
same canonical shape, consistent hashes on the eager side, and equal leaf
hashes. -/
def PairInv (f : Nat → Nat → Nat) (t1 t2 : DynTree) : Prop :=
  t1.paused = false ∧ t2.paused = true ∧
  ((EmptyState t1 ∧ EmptyState t2) ∨
   ∃ s, WFT t1 s ∧ WFT t2 s ∧ HashOKA f t1.nodes s ∧
     (∀ j ∈ s.leafIdxs, (getN t2.nodes j).hash = (getN t1.nodes j).hash))

theorem pairInv_add (f : Nat → Nat → Nat) (x : Nat) {t1 t2 : DynTree}
    (h : PairInv f t1 t2) : PairInv f (t1.Add f x) (t2.Add f x) := by
  obtain ⟨hp1, hp2, hcase⟩ := h
  refine ⟨by rw [add_paused, hp1], by rw [add_paused, hp2], ?_⟩
  rcases hcase with ⟨he1, he2⟩ | ⟨s, hw1, hw2, hok1, hleaf⟩
  · refine Or.inr ⟨AT.leaf 0, wft_add_empty f x he1, wft_add_empty f x he2, trivial, ?_⟩
    intro j hj
    rw [AT.leafIdxs, List.mem_singleton] at hj
    subst hj
    rw [add_empty_nodes f x he1, add_empty_nodes f x he2]
  · have hlen12 : t2.nodes.length = t1.nodes.length := by
      rw [← hw2.len_idxs, hw1.len_idxs]
    have hw2' : WFT (t2.Add f x) (addA t1.nodes.length (t1.nodes.length + 1) s) := by
      have h0 := wft_add f x hw2
      rw [hlen12] at h0
      exact h0
    obtain ⟨hkeep1, hnew1⟩ := add_hashes f x hw1
    obtain ⟨hkeep2, hnew2⟩ := add_hashes f x hw2
    refine Or.inr ⟨addA t1.nodes.length (t1.nodes.length + 1) s, wft_add f x hw1, hw2',
      hashOKA_add f x hw1 hok1 hp1, ?_⟩
    intro j hj
    rw [addA_leafIdxs, List.mem_append, List.mem_singleton] at hj
    rcases hj with hj | hj
    · rw [hkeep1 j hj, hkeep2 j hj, hleaf j hj]
    · subst hj
      rw [hnew1, ← hlen12]
      exact hnew2

theorem pairInv_fold (f : Nat → Nat → Nat) :
    ∀ (ls : List Nat) (t1 t2 : DynTree), PairInv f t1 t2 →
      PairInv f (ls.foldl (DynTree.Add f) t1) (ls.foldl (DynTree.Add f) t2) := by
  intro ls
  induction ls with
  | nil => intro t1 t2 h; exact h
  | cons x ls ih =>
    intro t1 t2 h
    exact ih _ _ (pairInv_add f x h)

/-- **C2.** For a fixed sequence of leaf digests, `Root` after all `Add`
calls is the same whether the sequence is inserted eagerly or between a
`Pause` and a `Resume`: the single bottom-up recompute pass of `Resume`
restores every internal hash to its eager value. -/
theorem c2_pause_resume_determinism (f : Nat → Nat → Nat) (cap : Nat) (ls : List Nat) :
    ((ls.foldl (DynTree.Add f) ((NewDynTree cap).Pause)).Resume f).Root
      = (ls.foldl (DynTree.Add f) (NewDynTree cap)).Root := by
  have hinit : PairInv f (NewDynTree cap) ((NewDynTree cap).Pause) :=
    ⟨rfl, rfl, Or.inl ⟨⟨rfl, rfl, rfl, rfl⟩, ⟨rfl, rfl, rfl, rfl⟩⟩⟩
  obtain ⟨hp1, hp2, hcase⟩ := pairInv_fold f ls _ _ hinit
  rcases hcase with ⟨he1, he2⟩ | ⟨s, hw1, hw2, hok1, hleaf⟩
  · -- both runs are still empty: both roots are absent
    show ((ls.foldl (DynTree.Add f) ((NewDynTree cap).Pause)).Resume f).root.map _
      = (ls.foldl (DynTree.Add f) (NewDynTree cap)).root.map _
    rw [(resume_struct f _).2.2.1, he2.2.1, he1.2.1]
    rfl
  · obtain ⟨hokR, hlowR⟩ := resume_ok f hw2
    have hroot2 : ((ls.foldl (DynTree.Add f) ((NewDynTree cap).Pause)).Resume f).root
        = some s.idx := by
      rw [(resume_struct f _).2.2.1]
      exact hw2.rootIdx
    have hleafR : ∀ j ∈ s.leafIdxs,
        (getN ((ls.foldl (DynTree.Add f) ((NewDynTree cap).Pause)).Resume f).nodes j).hash
          = (getN (ls.foldl (DynTree.Add f) (NewDynTree cap)).nodes j).hash := by
      intro j hj
      rw [hlowR j (reprB_leafIdxs_height _ s hw2.repr j hj)]
      exact hleaf j hj
    have hdet := hash_det f (ls.foldl (DynTree.Add f) (NewDynTree cap)).nodes
      ((ls.foldl (DynTree.Add f) ((NewDynTree cap).Pause)).Resume f).nodes s hok1 hokR hleafR
    show ((ls.foldl (DynTree.Add f) ((NewDynTree cap).Pause)).Resume f).root.map _
      = (ls.foldl (DynTree.Add f) (NewDynTree cap)).root.map _
    rw [hroot2, hw1.rootIdx]
    simp only [Option.map_some']
    rw [hdet]
